import Mathlib

/-! The sdb expression engine of NEMU (`nemu/src/monitor/sdb/expr.c`) and the
watchpoint pool (`nemu/src/monitor/sdb/watchpoint.c`).

A shallow embedding of the tokenizer (`make_token`), of the dereference pass
and of the recursive evaluator (`eval`, `expr`), of the pool functions
(`init_wp_pool`, `new_wp`, `free_wp`, `scan_watch_points`), and the properties
proved of them.

Conventions of the embedding:

* `int` values (token types, indices, priorities) are `Int`;
* `word_t` is the 32-bit unsigned word of riscv32: a `Nat` reduced `% WORD`;
* C strings are `List Char` (the characters before the terminating NUL);
* the globals `tokens` and `nr_token` are passed explicitly (`TokBuf`);
* `bool *success` is passed in and returned;
* the recursion of `eval` and the `while` loop of `make_token` run on fuel;
  `none` means that the fuel ran out, which the wrappers `eval` and
  `make_token` exclude by the amount of fuel they give (`eval_total`,
  `make_token_total`, `expr_total`);
* a store past the end of the array `tokens` is the outcome `overflow`;
* a pointer into `wp_pool` is the index of the node, `NULL` is `none`.
-/

namespace Sdb

/-! ## Token types -/

abbrev TK_NOTYPE : Int := 256
abbrev TK_EQ : Int := 257
abbrev TK_NEQ : Int := 258
abbrev TK_AND : Int := 259
abbrev TK_DEC : Int := 260
abbrev TK_HEX : Int := 261
abbrev TK_PLUS : Int := 262
abbrev TK_MINUS : Int := 263
abbrev TK_MULTIPLY : Int := 264
abbrev TK_DIVIDE : Int := 265
abbrev TK_LPAR : Int := 266
abbrev TK_RPAR : Int := 267
abbrev TK_REG : Int := 268
abbrev TK_DEREF : Int := 269

/-- The C struct `Token`: `int type; char str[32]`. -/
structure Token where
  type : Int
  str : List Char
  deriving DecidableEq

/-- A zero-initialised `Token`, as in the static array `tokens[32] = {}`. -/
def Token.zero : Token := ⟨0, []⟩

/-- The globals `tokens[32]` and `nr_token`. -/
structure TokBuf where
  tokens : List Token
  nr_token : Nat
  deriving DecidableEq

/-- The buffer at program start: 32 zeroed tokens, `nr_token = 0`. -/
def TokBuf.init : TokBuf := ⟨List.replicate 32 Token.zero, 0⟩

/-- Modulus of `word_t` (`uint32_t` on riscv32). -/
abbrev WORD : Nat := 4294967296

/-- Value of `ULONG_MAX` on the 64-bit host. -/
abbrev ULONG_MAX : Nat := 18446744073709551615

/-- The collaborators of `eval`: `isa_reg_str2val(name, &success)` gives the
returned word and the value it leaves in `*success`; `paddr_read(addr, len)`
gives the word read. -/
structure Env where
  isa_reg_str2val : List Char → Nat × Bool
  paddr_read : Nat → Nat → Nat

/-- The read `tokens[i]`; indices outside the list give a zeroed token. -/
def tokAt (tokens : List Token) (i : Int) : Token :=
  if i < 0 then Token.zero else tokens.getD i.toNat Token.zero

/-! ## strtoul -/

/-- Value of a digit character in bases up to 16. -/
def digitVal (c : Char) : Option Nat :=
  if 48 ≤ c.toNat ∧ c.toNat ≤ 57 then some (c.toNat - 48)
  else if 97 ≤ c.toNat ∧ c.toNat ≤ 102 then some (c.toNat - 87)
  else if 65 ≤ c.toNat ∧ c.toNat ≤ 70 then some (c.toNat - 55)
  else none

/-- The digit loop of `strtoul`: the number read from the longest prefix of
digits of the base, continuing from `acc`. -/
def strtoul_digits (base : Nat) : List Char → Nat → Nat
  | [], acc => acc
  | c :: cs, acc =>
    match digitVal c with
    | some d => if d < base then strtoul_digits base cs (acc * base + d) else acc
    | none => acc

/-- The libc class `isspace`: space, and the control characters 9 to 13. -/
def isspace (c : Char) : Bool := c.toNat = 32 || (9 ≤ c.toNat && c.toNat ≤ 13)

/-- The libc function `strtoul(s, NULL, base)` for base 10 and 16: leading
white space, an optional sign, for base 16 an optional `0x`/`0X`, then the
digits; a number above `ULONG_MAX` gives `ULONG_MAX`, and a minus sign negates
modulo `ULONG_MAX + 1`. -/
def strtoul (s : List Char) (base : Nat) : Nat :=
  let s := s.dropWhile isspace
  let neg := s.head? = some '-'
  let s := if s.head? = some '-' ∨ s.head? = some '+' then s.drop 1 else s
  let s :=
    if base = 16 ∧ s.head? = some '0' ∧ ((s.drop 1).head? = some 'x' ∨ (s.drop 1).head? = some 'X')
    then s.drop 2 else s
  let v := strtoul_digits base s 0
  if ULONG_MAX < v then ULONG_MAX
  else if neg then (ULONG_MAX + 1 - v) % (ULONG_MAX + 1)
  else v

/-! ## check_parentheses -/

/-- The `for (i = p + 1; i < q; i++)` loop of `check_parentheses`, with the
number of iterations left, the index `i` and the counter `cur`. -/
def check_parentheses_loop (tokens : List Token) (q : Int) : Nat → Int → Int → Bool
  | 0, _, cur => cur == 0
  | n + 1, i, cur =>
    let cur :=
      if (tokAt tokens i).type = TK_LPAR then cur + 1
      else if (tokAt tokens i).type = TK_RPAR then cur - 1
      else cur
    if cur = 0 ∧ i < q then false
    else if cur < 0 then false
    else check_parentheses_loop tokens q n (i + 1) cur

/-- The function `check_parentheses(p, q)`. -/
def check_parentheses (tokens : List Token) (p q : Int) : Bool :=
  if (tokAt tokens p).type ≠ TK_LPAR ∨ (tokAt tokens q).type ≠ TK_RPAR then false
  else check_parentheses_loop tokens q (q - (p + 1)).toNat (p + 1) 0

/-! ## The dominant-operator scan of eval -/

/-- The locals `op`, `min_priority`, `parens_layer` of the scan. -/
structure Scan where
  op : Int
  min_priority : Int
  parens_layer : Int
  deriving DecidableEq

/-- The priority assigned to a token type by the `if` chain of the scan. -/
def priority_of (type : Int) : Int :=
  if type = TK_EQ ∨ type = TK_NEQ then 1
  else if type = TK_PLUS ∨ type = TK_MINUS then 4
  else if type = TK_MULTIPLY ∨ type = TK_DIVIDE then 5
  else if type = TK_DEREF then 10
  else 0

/-- One iteration of `for (int i = p; i <= q; i++)` in `eval`. The paren
tests compare `type` with the character constants 40 (left parenthesis) and
41 (right parenthesis), as the source does. -/
def scan_step (tokens : List Token) (st : Scan) (i : Int) : Scan :=
  let type := (tokAt tokens i).type
  if type = 40 then { st with parens_layer := st.parens_layer + 1 }
  else if type = 41 then { st with parens_layer := st.parens_layer - 1 }
  else if st.parens_layer > 0 then st
  else if type = TK_DEC ∨ type = TK_HEX ∨ type = TK_REG then st
  else
    let priority := priority_of type
    let st := if priority ≤ st.min_priority then { st with min_priority := priority, op := i } else st
    if type = TK_DEREF then
      if priority < st.min_priority then { st with min_priority := priority, op := i } else st
    else
      if priority ≤ st.min_priority then { st with min_priority := priority, op := i } else st

/-- The scan loop from index `i`, with the number of iterations left. -/
def scan_loop (tokens : List Token) : Nat → Int → Scan → Scan
  | 0, _, st => st
  | n + 1, i, st => scan_loop tokens n (i + 1) (scan_step tokens st i)

/-- The value of `op` after the scan of `eval` over `p..q`. -/
def dominant_op (tokens : List Token) (p q : Int) : Int :=
  (scan_loop tokens (q + 1 - p).toNat p ⟨-1, 1000, 0⟩).op

/-! ## eval -/

/-- The `switch (tokens[op].type)` of `eval` and the `return 0` after it. -/
def combine (type : Int) (val1 val2 : Nat) (success : Bool) : Nat × Bool :=
  if type = TK_PLUS then ((val1 + val2) % WORD, success)
  else if type = TK_MINUS then ((val1 + WORD - val2) % WORD, success)
  else if type = TK_MULTIPLY then ((val1 * val2) % WORD, success)
  else if type = TK_DIVIDE then
    if val2 = 0 then (0, false) else (val1 / val2, success)
  else if type = TK_EQ then ((if val1 = val2 then 1 else 0), success)
  else if type = TK_NEQ then ((if val1 ≠ val2 then 1 else 0), success)
  else (0, success)

/-- The `p == q` branch of `eval`. -/
def eval_atom (env : Env) (t : Token) : Nat × Bool :=
  if t.type = TK_DEC then (strtoul t.str 10 % WORD, true)
  else if t.type = TK_HEX then (strtoul t.str 16 % WORD, true)
  else if t.type = TK_REG then
    let r := env.isa_reg_str2val (t.str.drop 1)
    (r.1 % WORD, r.2)
  else (0, false)

/-- The function `eval(p, q, success)` on fuel: the result is the returned
word and the final `*success`. -/
def evalFuel (env : Env) (tokens : List Token) : Nat → Int → Int → Bool → Option (Nat × Bool)
  | 0, _, _, _ => none
  | fuel + 1, p, q, success =>
    if success = false then some (0, false)
    else if p > q then some (0, false)
    else if p = q then some (eval_atom env (tokAt tokens p))
    else if check_parentheses tokens p q then evalFuel env tokens fuel (p + 1) (q - 1) success
    else
      let op := dominant_op tokens p q
      if op = -1 then
        if (tokAt tokens p).type = TK_DEREF then
          match evalFuel env tokens fuel (p + 1) q success with
          | none => none
          | some (addr, s) => some (env.paddr_read addr 4 % WORD, s)
        else some (0, false)
      else if (tokAt tokens op).type = TK_DEREF then
        match evalFuel env tokens fuel (op + 1) q success with
        | none => none
        | some (val, s) => some (env.paddr_read val 4 % WORD, s)
      else
        match evalFuel env tokens fuel p (op - 1) success with
        | none => none
        | some (val1, s1) =>
          match evalFuel env tokens fuel (op + 1) q s1 with
          | none => none
          | some (val2, s2) => some (combine (tokAt tokens op).type val1 val2 s2)

/-- The function `eval(p, q, success)`: every call consumes one unit of fuel
and recurses on a shorter range, so `q - p + 2` units are enough. -/
def eval (env : Env) (tokens : List Token) (p q : Int) (success : Bool) : Option (Nat × Bool) :=
  evalFuel env tokens ((q - p).toNat + 2) p q success

/-! ## The rule table and make_token -/

/-- One element of a pattern of the rule table: a character class, taken
once or one or more times (`+`). -/
structure Item where
  cls : Char → Bool
  many : Bool

/-- Length of the longest prefix of `s` whose characters are all in `cls`. -/
def spanLen (cls : Char → Bool) : List Char → Nat
  | [] => 0
  | c :: cs => if cls c then spanLen cls cs + 1 else 0

/-- The match of a pattern anchored at the start of `s`: the call
`regexec(&re[i], s, 1, &pmatch, 0) == 0 && pmatch.rm_so == 0`, giving
`pmatch.rm_eo`. POSIX takes the longest match; in every pattern of the table
the only repeated class is the last element, so the longest match takes the
whole run of that class. -/
def regexec : List Item → List Char → Option Nat
  | [], _ => some 0
  | it :: rest, s =>
    if it.many then
      if spanLen it.cls s = 0 then none
      else (regexec rest (s.drop (spanLen it.cls s))).map (fun n => n + spanLen it.cls s)
    else
      match s with
      | [] => none
      | c :: cs => if it.cls c then (regexec rest cs).map (fun n => n + 1) else none

/-- The class of a single character. -/
def isChar (a : Char) : Char → Bool := fun c => c = a

/-- The class `[xX]`. -/
def isX (c : Char) : Bool := c = 'x' || c = 'X'

/-- The class `[0-9a-fA-F]`. -/
def isHexDigit (c : Char) : Bool :=
  (48 ≤ c.toNat && c.toNat ≤ 57) || (97 ≤ c.toNat && c.toNat ≤ 102) || (65 ≤ c.toNat && c.toNat ≤ 70)

/-- The class `[0-9]`. -/
def isDecDigit (c : Char) : Bool := 48 ≤ c.toNat && c.toNat ≤ 57

/-- The class `[a-zA-Z0-9]`. -/
def isAlnum (c : Char) : Bool :=
  (97 ≤ c.toNat && c.toNat ≤ 122) || (65 ≤ c.toNat && c.toNat ≤ 90) || (48 ≤ c.toNat && c.toNat ≤ 57)

/-- A pattern that is a fixed string. -/
def lit (s : List Char) : List Item := s.map (fun a => ⟨isChar a, false⟩)

/-- The table `rules[]`, in its order. -/
def rules : List (List Item × Int) :=
  [ ([⟨isChar (Char.ofNat 32), true⟩], TK_NOTYPE),
    (lit ['+'], TK_PLUS),
    (lit ['-'], TK_MINUS),
    (lit ['*'], TK_MULTIPLY),
    (lit ['/'], TK_DIVIDE),
    (lit ['('], TK_LPAR),
    (lit [')'], TK_RPAR),
    ([⟨isChar '0', false⟩, ⟨isX, false⟩, ⟨isHexDigit, true⟩], TK_HEX),
    ([⟨isDecDigit, true⟩], TK_DEC),
    ([⟨isChar '$', false⟩, ⟨isAlnum, true⟩], TK_REG),
    (lit ['=', '='], TK_EQ),
    (lit ['!', '='], TK_NEQ),
    (lit ['&', '&'], TK_AND) ]

/-- The loop `for (i = 0; i < NR_REGEX; i++)` of `make_token` up to its
`break`: the first rule in table order that matches at the start of `s`,
as `(substr_len, token_type)`; `none` when `i == NR_REGEX`. -/
def first_match : List (List Item × Int) → List Char → Option (Nat × Int)
  | [], _ => none
  | (re, type) :: rest, s =>
    match regexec re s with
    | some n => some (n, type)
    | none => first_match rest s

/-- Outcome of `make_token`: `ok` is `return true`, `noMatch` is
`return false` (with the position printed); both carry the globals as the call
leaves them. `overflow` is a store to `tokens[nr_token]` with
`nr_token >= 32`, outside the array. -/
inductive LexResult
  | ok (b : TokBuf)
  | noMatch (position : Nat) (b : TokBuf)
  | overflow
  deriving DecidableEq

/-- The `while (e[position] != 0)` loop of `make_token`; `s` is the text
from `e + position` on. -/
def make_token_loop : Nat → List Char → Nat → TokBuf → Option LexResult
  | 0, _, _, _ => none
  | fuel + 1, s, position, b =>
    if s = [] then some (LexResult.ok b)
    else
      match first_match rules s with
      | none => some (LexResult.noMatch position b)
      | some (substr_len, type) =>
        if type = TK_NOTYPE then
          make_token_loop fuel (s.drop substr_len) (position + substr_len) b
        else if b.nr_token ≥ 32 then some LexResult.overflow
        else if type = TK_DEC ∨ type = TK_HEX ∨ type = TK_REG then
          let len := if substr_len ≥ 32 then 31 else substr_len
          make_token_loop fuel (s.drop substr_len) (position + substr_len)
            ⟨b.tokens.set b.nr_token ⟨type, s.take len⟩, b.nr_token + 1⟩
        else
          make_token_loop fuel (s.drop substr_len) (position + substr_len)
            ⟨b.tokens.set b.nr_token ⟨type, (b.tokens.getD b.nr_token Token.zero).str⟩,
              b.nr_token + 1⟩

/-- The function `make_token(e)`: it resets `nr_token` and runs the loop.
Every iteration consumes at least one character, so `length e + 1` units of
fuel are enough. -/
def make_token (b : TokBuf) (e : List Char) : Option LexResult :=
  make_token_loop (e.length + 1) e 0 ⟨b.tokens, 0⟩

/-! ## expr -/

/-- The test on `tokens[i - 1].type` in the dereference pass. -/
def deref_context (type : Int) : Bool :=
  type = TK_PLUS ∨ type = TK_MINUS ∨ type = TK_MULTIPLY ∨ type = TK_DIVIDE ∨ type = TK_LPAR
    ∨ type = TK_EQ ∨ type = TK_NEQ ∨ type = TK_AND ∨ type = TK_DEREF

/-- One iteration of the loop `for (int i = 0; i < nr_token; i++)` of `expr`. -/
def deref_step (tokens : List Token) (i : Nat) : List Token :=
  if (tokens.getD i Token.zero).type = TK_MULTIPLY then
    let isDeref := if i = 0 then true else deref_context (tokens.getD (i - 1) Token.zero).type
    if isDeref then tokens.set i ⟨TK_DEREF, (tokens.getD i Token.zero).str⟩ else tokens
  else tokens

/-- The dereference pass of `expr` over `tokens[0 .. nr_token - 1]`. -/
def deref_pass (tokens : List Token) (nr_token : Nat) : List Token :=
  (List.range nr_token).foldl deref_step tokens

/-- Outcome of `expr`: the returned word, `*success` and the globals, or the
array overflow of `make_token`. -/
inductive ExprResult
  | ret (res : Nat) (success : Bool) (b : TokBuf)
  | overflow
  deriving DecidableEq

/-- The function `expr(e, success)`. -/
def expr (env : Env) (b : TokBuf) (e : List Char) : Option ExprResult :=
  match make_token b e with
  | none => none
  | some LexResult.overflow => some ExprResult.overflow
  | some (LexResult.noMatch _ b1) => some (ExprResult.ret 0 false b1)
  | some (LexResult.ok b1) =>
    let tokens := deref_pass b1.tokens b1.nr_token
    match eval env tokens 0 ((b1.nr_token : Int) - 1) true with
    | none => none
    | some (res, success) => some (ExprResult.ret res success ⟨tokens, b1.nr_token⟩)

/-- The returned word and `*success` of an outcome of `expr`. -/
def ExprResult.value : ExprResult → Option (Nat × Bool)
  | ExprResult.ret res success _ => some (res, success)
  | ExprResult.overflow => none

/-- The word and success flag that `expr` gives on `e`, when it gives any. -/
def expr_value (env : Env) (b : TokBuf) (e : List Char) : Option (Nat × Bool) :=
  (expr env b e).bind ExprResult.value


/-! ## The watchpoint pool (`nemu/src/monitor/sdb/watchpoint.c`)

A pointer to a node of `wp_pool` is the index of the node, `NULL` is `none`.
The loops that follow `next` pointers run on fuel; `none` means that the
fuel ran out, which happens only when the pointers form a cycle. -/

/-- The constant `NR_WP`. -/
abbrev NR_WP : Nat := 32

/-- Modelled from the spec: the struct `WP` of `sdb.h`, which is not among
the sources, with the fields that `watchpoint.c` uses: the id `NO`, the link
`next`, the expression text `expr`, the current value `val` and the previous
value `old_val`. -/
structure WP where
  NO : Int
  next : Option Nat
  expr : List Char
  val : Nat
  old_val : Nat
  deriving DecidableEq

/-- A zero-initialised `WP`. -/
def WP.zero : WP := ⟨0, none, [], 0, 0⟩

/-- The statics `wp_pool`, `head`, `free_` and `used_wp` of `watchpoint.c`. -/
structure Pool where
  wp_pool : List WP
  head : Option Nat
  free_ : Option Nat
  used_wp : List Nat
  deriving DecidableEq

/-- The statics at program start: zeroed arrays and `NULL` pointers. -/
def Pool.start : Pool := ⟨List.replicate NR_WP WP.zero, none, none, List.replicate NR_WP 0⟩

/-- The node `wp_pool[i]`. -/
def Pool.node (p : Pool) (i : Nat) : WP := p.wp_pool.getD i WP.zero

/-- One iteration of the loop of `init_wp_pool`. -/
def init_step (nodes : List WP) (i : Nat) : List WP :=
  nodes.set i { nodes.getD i WP.zero with
    NO := (i : Int), next := if i = NR_WP - 1 then none else some (i + 1) }

/-- The function `init_wp_pool()`. -/
def init_wp_pool (p : Pool) : Pool :=
  ⟨(List.range NR_WP).foldl init_step p.wp_pool, none, some 0, p.used_wp⟩

/-- The loop `for (int i = 0; i < NR_WP; i++) if (used_wp[i] == 0)` of
`new_wp`: the first index whose entry of `used_wp` is 0. -/
def first_unused (used_wp : List Nat) : Option Nat :=
  (List.range NR_WP).find? (fun i => used_wp.getD i 0 = 0)

/-- The function `new_wp()`: the new globals and the returned pointer; `none`
is the branch `free_ == NULL`, which prints the error and stops at
`assert(0)`. -/
def new_wp (p : Pool) : Option (Pool × Nat) :=
  match p.free_ with
  | none => none
  | some wp =>
    let nodes := p.wp_pool.set wp { p.node wp with next := p.head }
    let nodes :=
      match first_unused p.used_wp with
      | some i => nodes.set wp { nodes.getD wp WP.zero with NO := (i : Int) + 1 }
      | none => nodes
    some (⟨nodes, some wp, (p.node wp).next, p.used_wp⟩, wp)

/-- The loop `while (prev->next != NULL && prev->next->NO != free_no)` of
`free_wp`: the value of `prev` when the loop ends. -/
def find_prev (nodes : List WP) (free_no : Int) : Nat → Nat → Option Nat
  | 0, _ => none
  | fuel + 1, prev =>
    match (nodes.getD prev WP.zero).next with
    | none => some prev
    | some n =>
      if (nodes.getD n WP.zero).NO ≠ free_no then find_prev nodes free_no fuel n
      else some prev

/-- What `free_wp` prints: one of its two errors, or the success message. -/
inductive FreeReport
  | noActive
  | notInList
  | freed
  deriving DecidableEq

/-- The end of `free_wp` for the unlinked node `wp`: it becomes the head of
the free list, its entry of `used_wp` and its expression are cleared. `none`
is a store to `used_wp[wp->NO - 1]` outside the array. -/
def release (nodes : List WP) (head : Option Nat) (p : Pool) (wp : Nat) :
    Option (Pool × FreeReport) :=
  let w := nodes.getD wp WP.zero
  if 1 ≤ w.NO ∧ w.NO ≤ (NR_WP : Int) then
    some (⟨nodes.set wp { w with next := p.free_, expr := [] }, head, some wp,
      p.used_wp.set (w.NO - 1).toNat 0⟩, FreeReport.freed)
  else none

/-- The function `free_wp(free_no)`: the new globals and what is printed.
`none` is a traversal that does not end within `NR_WP` steps, or the store
outside `used_wp` of `release`. -/
def free_wp (p : Pool) (free_no : Int) : Option (Pool × FreeReport) :=
  match p.head with
  | none => some (p, FreeReport.noActive)
  | some h =>
    if (p.node h).NO = free_no then release p.wp_pool (p.node h).next p h
    else
      match find_prev p.wp_pool free_no NR_WP h with
      | none => none
      | some prev =>
        match (p.node prev).next with
        | none => some (p, FreeReport.notInList)
        | some n =>
          if (p.node n).NO = free_no then
            release (p.wp_pool.set prev { p.node prev with next := (p.node n).next }) p.head p n
          else some (p, FreeReport.notInList)

/-- Outcome of `scan_watch_points`: the globals of the pool and of the token
buffer with the returned `found_change`, or the array overflow of a call of
`expr`. -/
inductive ScanResult
  | ret (p : Pool) (b : TokBuf) (found_change : Int)
  | overflow
  deriving DecidableEq

/-- The loop `while (wp != NULL)` of `scan_watch_points`. -/
def scan_loop_wp (env : Env) : Nat → Pool → TokBuf → Option Nat → Int → Option ScanResult
  | 0, _, _, _, _ => none
  | _ + 1, p, b, none, found_change => some (ScanResult.ret p b found_change)
  | fuel + 1, p, b, some wp, found_change =>
    match expr env b (p.node wp).expr with
    | none => none
    | some ExprResult.overflow => some ScanResult.overflow
    | some (ExprResult.ret new_val isSuccess b1) =>
      if isSuccess = true ∧ new_val ≠ (p.node wp).val then
        scan_loop_wp env fuel
          ⟨p.wp_pool.set wp { p.node wp with old_val := (p.node wp).val, val := new_val },
            p.head, p.free_, p.used_wp⟩
          b1 (p.node wp).next 1
      else scan_loop_wp env fuel p b1 (p.node wp).next found_change

/-- The function `scan_watch_points()`: the list has at most `NR_WP` nodes,
so `NR_WP + 1` iterations are enough. -/
def scan_watch_points (env : Env) (p : Pool) (b : TokBuf) : Option ScanResult :=
  scan_loop_wp env (NR_WP + 1) p b p.head 0

/-- Modelled from the spec: the command layer, which is not among the
sources, fills a watchpoint through the pointer that `new_wp` returns: it
stores the expression text and the values. -/
def Pool.store (p : Pool) (wp : Nat) (e : List Char) (val old_val : Nat) : Pool :=
  ⟨p.wp_pool.set wp { p.node wp with expr := e, val := val, old_val := old_val },
    p.head, p.free_, p.used_wp⟩
/-! ## Definitions used to state the properties -/

/-! ### Tokens and their text -/

/-- Token types whose token carries the matched text. -/
def carriesText (type : Int) : Bool := type = TK_DEC ∨ type = TK_HEX ∨ type = TK_REG

/-- The text of an expression that a token of a lexer kind stands for. -/
def lexeme (t : Token) : List Char :=
  if carriesText t.type then t.str
  else if t.type = TK_PLUS then ['+']
  else if t.type = TK_MINUS then ['-']
  else if t.type = TK_MULTIPLY then ['*']
  else if t.type = TK_DIVIDE then ['/']
  else if t.type = TK_LPAR then ['(']
  else if t.type = TK_RPAR then [')']
  else if t.type = TK_EQ then ['=', '=']
  else if t.type = TK_NEQ then ['!', '=']
  else if t.type = TK_AND then ['&', '&']
  else []

/-- A token as the lexer can produce it: an operator or parenthesis kind, or
a decimal, hex or register token whose text has the shape of its pattern and
at most 31 characters. -/
def lexerToken (t : Token) : Bool :=
  if t.type = TK_DEC then !t.str.isEmpty && t.str.all isDecDigit && t.str.length ≤ 31
  else if t.type = TK_HEX then
    match t.str with
    | z :: x :: d :: ds => (z = '0') && isX x && (d :: ds).all isHexDigit && t.str.length ≤ 31
    | _ => false
  else if t.type = TK_REG then
    match t.str with
    | a :: d :: ds => (a = '$') && (d :: ds).all isAlnum && t.str.length ≤ 31
    | _ => false
  else t.type = TK_PLUS ∨ t.type = TK_MINUS ∨ t.type = TK_MULTIPLY ∨ t.type = TK_DIVIDE
    ∨ t.type = TK_LPAR ∨ t.type = TK_RPAR ∨ t.type = TK_EQ ∨ t.type = TK_NEQ ∨ t.type = TK_AND

/-- No two tokens that carry text are adjacent. -/
def noAdjacentText : List Token → Bool
  | a :: b :: rest => !(carriesText a.type && carriesText b.type) && noAdjacentText (b :: rest)
  | _ => true

/-- The lexemes of the tokens in order, with `gap k` spaces between token
`k - 1` and token `k` of the whole sequence (`k` counts from the index given). -/
def spaced (gap : Nat → Nat) : Nat → List Token → List Char
  | _, [] => []
  | _, [t] => lexeme t
  | k, t :: u :: rest =>
    lexeme t ++ List.replicate (gap (k + 1)) (Char.ofNat 32) ++ spaced gap (k + 1) (u :: rest)

/-- The token that `make_token` stores for a match of kind `t.type` with text
`t.str` in a slot that held `old`: kinds that carry text get the text, the
others keep the text of the slot. -/
def storedToken (old t : Token) : Token :=
  ⟨t.type, if carriesText t.type then t.str else old.str⟩

/-- The globals after `make_token` has stored the token for `t`. -/
def stored (b : TokBuf) (t : Token) : TokBuf :=
  ⟨b.tokens.set b.nr_token (storedToken (b.tokens.getD b.nr_token Token.zero) t),
    b.nr_token + 1⟩


/-! ### Literals and the conventional reading of an operator chain -/

/-- The number that a string of digits denotes in a base. -/
def digitsValue (base : Nat) (ds : List Char) : Nat :=
  ds.foldl (fun acc c => acc * base + (digitVal c).getD 0) 0

/-- A decimal or hexadecimal literal as the lexer produces it. -/
def isLiteral (t : Token) : Bool := (t.type = TK_DEC ∨ t.type = TK_HEX) && lexerToken t

/-- The value of a literal: its digits read in base 10, or the digits after
the `0x` read in base 16. -/
def literalValue (t : Token) : Nat :=
  if t.type = TK_HEX then digitsValue 16 (t.str.drop 2) else digitsValue 10 t.str

/-- The six binary operators that `eval` combines. -/
def isBinaryOp (type : Int) : Bool :=
  type = TK_PLUS ∨ type = TK_MINUS ∨ type = TK_MULTIPLY ∨ type = TK_DIVIDE ∨ type = TK_EQ
    ∨ type = TK_NEQ

/-- The multiplicative operators. -/
def isMulOp (type : Int) : Bool := type = TK_MULTIPLY ∨ type = TK_DIVIDE

/-- The additive operators. -/
def isAddOp (type : Int) : Bool := type = TK_PLUS ∨ type = TK_MINUS

/-- The comparison operators. -/
def isCmpOp (type : Int) : Bool := type = TK_EQ ∨ type = TK_NEQ

/-- The meaning of a binary operator on machine words: sum, difference and
product modulo `2^32`, unsigned floor quotient, and 1 or 0 for the
comparisons. -/
def applyOp (type : Int) (a b : Nat) : Nat :=
  if type = TK_PLUS then (a + b) % WORD
  else if type = TK_MINUS then (((a : Int) - (b : Int)) % (WORD : Int)).toNat
  else if type = TK_MULTIPLY then (a * b) % WORD
  else if type = TK_DIVIDE then a / b
  else if type = TK_EQ then (if a = b then 1 else 0)
  else if type = TK_NEQ then (if a = b then 0 else 1)
  else 0

/-- The operand sequence `v0 o1 v1 ... on vn` cut at the operators in `sep`:
the first piece and the following pieces, each with the operator before it. -/
def splitAtOps (sep : Int → Bool) (v0 : Nat) :
    List (Int × Nat) → (Nat × List (Int × Nat)) × List (Int × (Nat × List (Int × Nat)))
  | [] => ((v0, []), [])
  | (o, v) :: rest =>
    if sep o then ((v0, []), (o, (splitAtOps sep v rest).1) :: (splitAtOps sep v rest).2)
    else ((v0, (o, v) :: (splitAtOps sep v rest).1.2), (splitAtOps sep v rest).2)

/-- A chain at one precedence level: the pieces between the operators of the
level are read by `inner` and combined from left to right. -/
def chain (sep : Int → Bool) (inner : Nat → List (Int × Nat) → Nat) (v0 : Nat)
    (rest : List (Int × Nat)) : Nat :=
  (splitAtOps sep v0 rest).2.foldl (fun acc x => applyOp x.1 acc (inner x.2.1 x.2.2))
    (inner (splitAtOps sep v0 rest).1.1 (splitAtOps sep v0 rest).1.2)

/-- A product: literals combined by `*` and `/`, left to right. -/
def product (v0 : Nat) (rest : List (Int × Nat)) : Nat := chain isMulOp (fun v _ => v) v0 rest

/-- A sum: products combined by `+` and `-`, left to right. -/
def sum (v0 : Nat) (rest : List (Int × Nat)) : Nat := chain isAddOp product v0 rest

/-- The conventional reading of `v0 o1 v1 ... on vn`: sums combined by `==`
and `!=`, left to right. -/
def conventional (v0 : Nat) (rest : List (Int × Nat)) : Nat := chain isCmpOp sum v0 rest

/-- The tokens `o1 l1 ... on ln` of a list of operator and literal pairs. -/
def flatPairs : List (Token × Token) → List Token
  | [] => []
  | x :: rest => x.1 :: x.2 :: flatPairs rest

/-- The operator types and operand values of a list of token pairs. -/
def opValues (rest : List (Token × Token)) : List (Int × Nat) :=
  rest.map (fun x => (x.1.type, literalValue x.2))

/-- The tokens from index `i` on are the pairs `ps`. -/
def PairsAt (tokens : List Token) : Int → List (Token × Token) → Prop
  | _, [] => True
  | i, x :: rest => tokAt tokens i = x.1 ∧ tokAt tokens (i + 1) = x.2 ∧ PairsAt tokens (i + 2) rest

/-- The tokens of `(1+2)`. -/
def parenSum : List Token :=
  [⟨TK_LPAR, []⟩, ⟨TK_DEC, ['1']⟩, ⟨TK_PLUS, []⟩, ⟨TK_DEC, ['2']⟩, ⟨TK_RPAR, []⟩]

/-- The tokens of `1+2*3`. -/
def sumProduct : List Token :=
  [⟨TK_DEC, ['1']⟩, ⟨TK_PLUS, []⟩, ⟨TK_DEC, ['2']⟩, ⟨TK_MULTIPLY, []⟩, ⟨TK_DEC, ['3']⟩]

/-- The globals after `make_token` on `2**3` from the initial buffer. -/
def twoStarStarThree : TokBuf :=
  ⟨[⟨TK_DEC, ['2']⟩, ⟨TK_MULTIPLY, []⟩, ⟨TK_MULTIPLY, []⟩, ⟨TK_DEC, ['3']⟩]
      ++ List.replicate 28 Token.zero, 4⟩

/-- A register file without registers and a memory that holds `addr + 1` at
every address. -/
def sampleEnv : Env := ⟨fun _ => (0, false), fun addr _ => (addr + 1) % WORD⟩

/-- The tokens of `10/2`. -/
def tenByTwo : List Token := [⟨TK_DEC, ['1', '0']⟩, ⟨TK_DIVIDE, []⟩, ⟨TK_DEC, ['2']⟩]

/-- The text of a decimal literal (digits) or of a hexadecimal literal (`0x`
or `0X` and hex digits), of any length. -/
def isLiteralText (hex : Bool) (s : List Char) : Bool :=
  if hex then
    match s with
    | z :: x :: d :: ds => (z = '0') && isX x && (d :: ds).all isHexDigit
    | _ => false
  else !s.isEmpty && s.all isDecDigit

/-- The token type of a literal. -/
def literalType (hex : Bool) : Int := if hex then TK_HEX else TK_DEC

/-- A decimal literal of 32 characters with value 1. -/
def longOne : List Char := List.replicate 31 '0' ++ ['1']

/-! ### Lists in the pool and reachable states -/

/-- Following `next` from the pointer `s` visits the nodes `l` in order and
arrives at the pointer `t`. -/
def IsSeg (nodes : List WP) : Option Nat → List Nat → Option Nat → Prop
  | s, [], t => s = t
  | s, i :: l, t => s = some i ∧ i < nodes.length ∧ IsSeg nodes (nodes.getD i WP.zero).next l t

/-- The list that starts at the pointer `s` consists of the nodes `l` and
ends with `NULL`. -/
def IsChain (nodes : List WP) (s : Option Nat) (l : List Nat) : Prop := IsSeg nodes s l none

/-- The states of the pool that the program can reach: the state after
`init_wp_pool()` at program start, and the states after a call of `new_wp`,
`free_wp` or `scan_watch_points` that returns, or after a store of the
command layer into a watchpoint. -/
inductive Reachable : Pool → Prop
  | init : Reachable (init_wp_pool Pool.start)
  | new_wp (p p1 : Pool) (wp : Nat) : Reachable p → new_wp p = some (p1, wp) → Reachable p1
  | free_wp (p p1 : Pool) (free_no : Int) (r : FreeReport) :
      Reachable p → free_wp p free_no = some (p1, r) → Reachable p1
  | scan (env : Env) (p p1 : Pool) (b b1 : TokBuf) (found_change : Int) :
      Reachable p → scan_watch_points env p b = some (ScanResult.ret p1 b1 found_change) →
      Reachable p1
  | store (p : Pool) (wp : Nat) (e : List Char) (val old_val : Nat) :
      Reachable p → Reachable (p.store wp e val old_val)

/-- The partition of the pool into an active list and a free list: both
lists end with `NULL`, and together they hold each of the `NR_WP` nodes
once. -/
def Partition (p : Pool) (active free : List Nat) : Prop :=
  IsChain p.wp_pool p.head active ∧ IsChain p.wp_pool p.free_ free ∧
    (active ++ free).Perm (List.range NR_WP)

/-- A number of `new_wp()` calls in a row, with the pointers they return. -/
def creates : Nat → Pool → Option (Pool × List Nat)
  | 0, p => some (p, [])
  | n + 1, p =>
    match new_wp p with
    | none => none
    | some (p1, wp) => (creates n p1).map (fun r => (r.1, wp :: r.2))

/-- The text `1+1+ ... +1` with 17 ones: 33 tokens. -/
def seventeenOnes : List Char :=
  '1' :: (List.replicate 16 ['+', '1']).flatten

/-- The pool after `n` calls of `new_wp()` from the initial state. -/
def created (n : Nat) : Pool := ((creates n (init_wp_pool Pool.start)).map Prod.fst).getD Pool.start

/-- The pool after 32 calls of `new_wp()` from the initial state. -/
def fullPool : Pool := created 32

/-- One watchpoint on the expression `1+1+...+1` of 33 tokens. -/
def watchLong : Pool := (created 1).store 0 seventeenOnes 0 0

/-- Two watchpoints: the head, node 1, on `1`, and node 0 on the expression
`1+1+...+1` of 33 tokens. -/
def watchTwo : Pool := ((created 2).store 1 ['1'] 0 0).store 0 seventeenOnes 0 0

/-- The ranges of the recursive calls that `eval(p, q, success)` makes when it
is entered with `*success` true. -/
def subcalls (tokens : List Token) (p q : Int) : List (Int × Int) :=
  if p ≥ q then []
  else if check_parentheses tokens p q then [(p + 1, q - 1)]
  else
    let op := dominant_op tokens p q
    if op = -1 then
      if (tokAt tokens p).type = TK_DEREF then [(p + 1, q)] else []
    else if (tokAt tokens op).type = TK_DEREF then [(op + 1, q)]
    else [(p, op - 1), (op + 1, q)]

/-- The ranges that the evaluation of a range reaches through nested calls. -/
inductive Recurses (tokens : List Token) : Int × Int → Int × Int → Prop
  | refl (r : Int × Int) : Recurses tokens r r
  | step (p q : Int) (r t : Int × Int) :
      r ∈ subcalls tokens p q → Recurses tokens r t → Recurses tokens (p, q) t

/-- What every reachable state of the pool satisfies: the arrays have `NR_WP`
entries, `used_wp` holds only zeros, the lists partition the pool, and every
active node has the id 1. -/
def Inv (p : Pool) : Prop :=
  p.wp_pool.length = NR_WP ∧ p.used_wp = List.replicate NR_WP 0 ∧
    ∃ active free, Partition p active free ∧ ∀ i ∈ active, (p.node i).NO = 1

/-- The list predicate `IsSeg` can be computed. -/
instance IsSeg.decide (nodes : List WP) : ∀ (s : Option Nat) (l : List Nat) (t : Option Nat),
    Decidable (IsSeg nodes s l t)
  | s, [], t => inferInstanceAs (Decidable (s = t))
  | _, _ :: l, t =>
    @instDecidableAnd _ _ _ (@instDecidableAnd _ _ _ (IsSeg.decide nodes _ l t))

/-- The list predicate `IsChain` can be computed. -/
instance IsChain.decide (nodes : List WP) (s : Option Nat) (l : List Nat) :
    Decidable (IsChain nodes s l) :=
  IsSeg.decide nodes s l none

/-- The tokens of `1/0+2`. -/
def quotientPlusTwo : List Token :=
  [⟨TK_DEC, ['1']⟩, ⟨TK_DIVIDE, []⟩, ⟨TK_DEC, ['0']⟩, ⟨TK_PLUS, []⟩, ⟨TK_DEC, ['2']⟩]

/-- Two states of the token array that agree on the part `eval` reads: the
types of the first `n` tokens and the texts of those that carry one. -/
def TokSim (n : Nat) (t1 t2 : List Token) : Prop :=
  ∀ i, i < n → (t1.getD i Token.zero).type = (t2.getD i Token.zero).type ∧
    (carriesText (t1.getD i Token.zero).type = true →
      (t1.getD i Token.zero).str = (t2.getD i Token.zero).str)

/-- Two outcomes of `make_token` that differ at most in the part of the token
array that `eval` does not read. -/
def LexSim : Option LexResult → Option LexResult → Prop
  | none, none => True
  | some LexResult.overflow, some LexResult.overflow => True
  | some (LexResult.noMatch _ b), some (LexResult.noMatch _ b1) =>
    b.tokens.length = 32 ∧ b1.tokens.length = 32
  | some (LexResult.ok b), some (LexResult.ok b1) =>
    b.nr_token = b1.nr_token ∧ b.nr_token ≤ 32 ∧ b.tokens.length = 32 ∧ b1.tokens.length = 32 ∧
      TokSim b.nr_token b.tokens b1.tokens
  | _, _ => False

/-- What one iteration of the loop of `scan_watch_points` does to a node:
`val` moves to `old_val` and the new value is stored when `expr` succeeds on
the expression of the node with a value other than `val`. -/
def scan_node (env : Env) (w : WP) : WP :=
  match expr_value env TokBuf.init w.expr with
  | some (new_val, true) => if new_val ≠ w.val then { w with old_val := w.val, val := new_val } else w
  | _ => w

end Sdb

/-! ## General facts about the scan and the fuel of eval -/

namespace Sdb

theorem scan_step_op (tokens : List Token) (st : Scan) (i : Int) :
    (scan_step tokens st i).op = st.op ∨ (scan_step tokens st i).op = i := by
  unfold scan_step
  simp only []
  split_ifs <;> simp

theorem scan_loop_op (tokens : List Token) :
    ∀ (n : Nat) (i : Int) (st : Scan),
      (scan_loop tokens n i st).op = st.op ∨
        (i ≤ (scan_loop tokens n i st).op ∧ (scan_loop tokens n i st).op < i + n) := by
  intro n
  induction n with
  | zero => intro i st; left; rfl
  | succ n ih =>
    intro i st
    simp only [scan_loop]
    rcases ih (i + 1) (scan_step tokens st i) with h | h
    · rcases scan_step_op tokens st i with h2 | h2
      · left; rw [h, h2]
      · right; rw [h, h2]; push_cast; omega
    · right; push_cast; omega

theorem dominant_op_range (tokens : List Token) (p q : Int) (hpq : p ≤ q) :
    dominant_op tokens p q = -1 ∨ (p ≤ dominant_op tokens p q ∧ dominant_op tokens p q ≤ q) := by
  unfold dominant_op
  rcases scan_loop_op tokens (q + 1 - p).toNat p ⟨-1, 1000, 0⟩ with h | h
  · left; exact h
  · right
    have : ((q + 1 - p).toNat : Int) = q + 1 - p := Int.toNat_of_nonneg (by omega)
    omega

/-- One unfolding of `evalFuel`, with the sub-evaluations as binds. -/
theorem evalFuel_step (env : Env) (tokens : List Token) (n : Nat) (p q : Int) (s : Bool) :
    evalFuel env tokens (n + 1) p q s =
      if s = false then some (0, false)
      else if p > q then some (0, false)
      else if p = q then some (eval_atom env (tokAt tokens p))
      else if check_parentheses tokens p q then evalFuel env tokens n (p + 1) (q - 1) s
      else if dominant_op tokens p q = -1 then
        if (tokAt tokens p).type = TK_DEREF then
          (evalFuel env tokens n (p + 1) q s).bind
            (fun r => some (env.paddr_read r.1 4 % WORD, r.2))
        else some (0, false)
      else if (tokAt tokens (dominant_op tokens p q)).type = TK_DEREF then
        (evalFuel env tokens n (dominant_op tokens p q + 1) q s).bind
          (fun r => some (env.paddr_read r.1 4 % WORD, r.2))
      else
        (evalFuel env tokens n p (dominant_op tokens p q - 1) s).bind (fun r1 =>
          (evalFuel env tokens n (dominant_op tokens p q + 1) q r1.2).bind (fun r2 =>
            some (combine (tokAt tokens (dominant_op tokens p q)).type r1.1 r2.1 r2.2))) := by
  simp only [evalFuel]
  split_ifs
  · rfl
  · rfl
  · rfl
  · rfl
  · cases evalFuel env tokens n (p + 1) q s <;> rfl
  · rfl
  · cases evalFuel env tokens n (dominant_op tokens p q + 1) q s <;> rfl
  · cases h1 : evalFuel env tokens n p (dominant_op tokens p q - 1) s with
    | none => rfl
    | some r1 =>
      simp only [Option.bind]
      cases evalFuel env tokens n (dominant_op tokens p q + 1) q r1.2 <;> rfl

theorem evalFuel_succ (env : Env) (tokens : List Token) :
    ∀ (n : Nat) (p q : Int) (s : Bool) (r : Nat × Bool),
      evalFuel env tokens n p q s = some r → evalFuel env tokens (n + 1) p q s = some r := by
  intro n
  induction n with
  | zero => intro p q s r h; simp [evalFuel] at h
  | succ n ih =>
    intro p q s r h
    rw [evalFuel_step] at h
    rw [evalFuel_step]
    split_ifs at h ⊢
    · exact h
    · exact h
    · exact h
    · exact ih _ _ _ _ h
    · cases h8 : evalFuel env tokens n (p + 1) q s with
      | none => simp [h8] at h
      | some x => rw [h8] at h; rw [ih _ _ _ _ h8]; exact h
    · exact h
    · cases h8 : evalFuel env tokens n (dominant_op tokens p q + 1) q s with
      | none => simp [h8] at h
      | some x => rw [h8] at h; rw [ih _ _ _ _ h8]; exact h
    · cases h8 : evalFuel env tokens n p (dominant_op tokens p q - 1) s with
      | none => simp [h8] at h
      | some x =>
        rw [h8] at h; rw [ih _ _ _ _ h8]
        simp only [Option.bind] at h ⊢
        cases h9 : evalFuel env tokens n (dominant_op tokens p q + 1) q x.2 with
        | none => simp [h9] at h
        | some y => rw [h9] at h; rw [ih _ _ _ _ h9]; exact h

theorem evalFuel_mono (env : Env) (tokens : List Token) (n m : Nat) (hnm : n ≤ m)
    (p q : Int) (s : Bool) (r : Nat × Bool) (h : evalFuel env tokens n p q s = some r) :
    evalFuel env tokens m p q s = some r := by
  induction hnm with
  | refl => exact h
  | step _ ih => exact evalFuel_succ env tokens _ p q s r ih

theorem evalFuel_total (env : Env) (tokens : List Token) :
    ∀ (n : Nat) (p q : Int) (s : Bool), (q + 1 - p).toNat < n →
      ∃ r, evalFuel env tokens n p q s = some r := by
  intro n
  induction n with
  | zero => intro p q s h; omega
  | succ n ih =>
    intro p q s h
    rw [evalFuel_step]
    split_ifs
    · exact ⟨_, rfl⟩
    · exact ⟨_, rfl⟩
    · exact ⟨_, rfl⟩
    · exact ih _ _ _ (by omega)
    · obtain ⟨r, hr⟩ := ih (p + 1) q s (by omega)
      rw [hr]; exact ⟨_, rfl⟩
    · exact ⟨_, rfl⟩
    · have hr := dominant_op_range tokens p q (by omega)
      obtain ⟨r, hr⟩ := ih (dominant_op tokens p q + 1) q s (by omega)
      rw [hr]; exact ⟨_, rfl⟩
    · have hr := dominant_op_range tokens p q (by omega)
      obtain ⟨r1, hr1⟩ := ih p (dominant_op tokens p q - 1) s (by omega)
      rw [hr1]
      obtain ⟨r2, hr2⟩ := ih (dominant_op tokens p q + 1) q r1.2 (by omega)
      simp only [Option.bind]
      rw [hr2]; exact ⟨_, rfl⟩

theorem eval_total (env : Env) (tokens : List Token) (p q : Int) (s : Bool) :
    ∃ r, eval env tokens p q s = some r :=
  evalFuel_total env tokens _ p q s (by omega)

theorem evalFuel_eq_eval (env : Env) (tokens : List Token) (n : Nat) (p q : Int) (s : Bool)
    (h : (q + 1 - p).toNat < n) : evalFuel env tokens n p q s = eval env tokens p q s := by
  obtain ⟨r, hr⟩ := evalFuel_total env tokens ((q + 1 - p).toNat + 1) p q s (by omega)
  rw [evalFuel_mono env tokens _ n (by omega) p q s r hr]
  unfold eval
  rw [evalFuel_mono env tokens _ _ (by omega) p q s r hr]

/-- The recursion equation of `eval` on a range of at least two tokens. -/
theorem eval_step (env : Env) (tokens : List Token) (p q : Int) (hpq : p < q) :
    eval env tokens p q true =
      if check_parentheses tokens p q then eval env tokens (p + 1) (q - 1) true
      else if dominant_op tokens p q = -1 then
        if (tokAt tokens p).type = TK_DEREF then
          (eval env tokens (p + 1) q true).bind
            (fun r => some (env.paddr_read r.1 4 % WORD, r.2))
        else some (0, false)
      else if (tokAt tokens (dominant_op tokens p q)).type = TK_DEREF then
        (eval env tokens (dominant_op tokens p q + 1) q true).bind
          (fun r => some (env.paddr_read r.1 4 % WORD, r.2))
      else
        (eval env tokens p (dominant_op tokens p q - 1) true).bind (fun r1 =>
          (eval env tokens (dominant_op tokens p q + 1) q r1.2).bind (fun r2 =>
            some (combine (tokAt tokens (dominant_op tokens p q)).type r1.1 r2.1 r2.2))) := by
  have hr := dominant_op_range tokens p q (by omega)
  conv_lhs => unfold eval
  rw [evalFuel_step]
  have e1 : ∀ (a b : Int) (s : Bool), p ≤ a → b ≤ q → (a ≠ p ∨ b ≠ q) →
      evalFuel env tokens ((q - p).toNat + 1) a b s = eval env tokens a b s := by
    intro a b s h1 h2 h3
    exact evalFuel_eq_eval env tokens _ a b s (by omega)
  simp only [Bool.true_eq_false, if_false, if_neg (show ¬ p > q by omega),
    if_neg (show ¬ p = q by omega)]
  split_ifs
  · rw [e1 _ _ _ (by omega) (by omega) (by omega)]
  · rw [e1 _ _ _ (by omega) (by omega) (by omega)]
  · rfl
  · rw [e1 _ _ _ (by omega) (by omega) (by omega)]
  · rw [e1 _ _ _ (by omega) (by omega) (by omega)]
    congr 1
    funext r1
    rw [e1 _ _ _ (by omega) (by omega) (by omega)]

/-- A call with `*success == false` returns 0 at once. -/
theorem eval_false (env : Env) (tokens : List Token) (p q : Int) :
    eval env tokens p q false = some (0, false) := by
  unfold eval; rw [evalFuel_step]; simp

/-- The single-token case of `eval`. -/
theorem eval_single (env : Env) (tokens : List Token) (p : Int) :
    eval env tokens p p true = some (eval_atom env (tokAt tokens p)) := by
  unfold eval; rw [evalFuel_step]; simp

/-- The empty-range case of `eval`. -/
theorem eval_empty (env : Env) (tokens : List Token) (p q : Int) (s : Bool) (h : q < p) :
    eval env tokens p q s = some (0, false) := by
  unfold eval; rw [evalFuel_step]; simp [h]


/-! ## The tokenizer on the text of a token sequence -/

theorem spanLen_append (cls : Char → Bool) (a rest : List Char)
    (ha : ∀ c ∈ a, cls c = true) (hr : ∀ c, rest.head? = some c → cls c = false) :
    spanLen cls (a ++ rest) = a.length := by
  induction a with
  | nil =>
    cases rest with
    | nil => rfl
    | cons c cs => simp [spanLen, hr c rfl]
  | cons c cs ih =>
    have hc : cls c = true := ha c (List.mem_cons_self _ _)
    simp [spanLen, hc, ih (fun d hd => ha d (List.mem_cons_of_mem _ hd))]

theorem isChar_false (cls : Char → Bool) (a d : Char) (h1 : cls d = true) (h2 : cls a = false) :
    isChar a d = false := by
  simp only [isChar, decide_eq_false_iff_not]
  intro h; subst h; rw [h1] at h2; exact Bool.noConfusion h2

theorem isX_alnum (c : Char) (h : isX c = true) : isAlnum c = true := by
  simp only [isX, Bool.or_eq_true, decide_eq_true_eq] at h
  rcases h with h | h <;> subst h <;> decide

theorem isDecDigit_alnum (c : Char) (h : isDecDigit c = true) : isAlnum c = true := by
  simp only [isDecDigit, isAlnum] at *
  simp only [Bool.and_eq_true, Bool.or_eq_true, decide_eq_true_eq] at *
  omega

theorem isHexDigit_alnum (c : Char) (h : isHexDigit c = true) : isAlnum c = true := by
  simp only [isHexDigit, isAlnum] at *
  simp only [Bool.and_eq_true, Bool.or_eq_true, decide_eq_true_eq] at *
  omega

theorem not_alnum_of (cls : Char → Bool) (hcls : ∀ c, cls c = true → isAlnum c = true)
    (rest : List Char) (hr : ∀ c, rest.head? = some c → isAlnum c = false) :
    ∀ c, rest.head? = some c → cls c = false := by
  intro c hc
  cases h : cls c with
  | false => rfl
  | true => have := hcls c h; rw [hr c hc] at this; exact Bool.noConfusion this


theorem regexec_one (cls : Char → Bool) (rest : List Item) (c : Char) (cs : List Char) :
    regexec (⟨cls, false⟩ :: rest) (c :: cs) =
      if cls c then (regexec rest cs).map (fun n => n + 1) else none := rfl

theorem regexec_many (cls : Char → Bool) (rest : List Item) (s : List Char) :
    regexec (⟨cls, true⟩ :: rest) s =
      if spanLen cls s = 0 then none
      else (regexec rest (s.drop (spanLen cls s))).map (fun n => n + spanLen cls s) := by
  cases s <;> rfl

theorem regexec_nil (s : List Char) : regexec [] s = some 0 := by
  cases s <;> rfl

theorem first_match_skip (re : List Item) (ty : Int) (rest : List (List Item × Int))
    (s : List Char) (h : regexec re s = none) :
    first_match ((re, ty) :: rest) s = first_match rest s := by
  simp only [first_match, h]

theorem first_match_hit (re : List Item) (ty : Int) (rest : List (List Item × Int))
    (s : List Char) (n : Nat) (h : regexec re s = some n) :
    first_match ((re, ty) :: rest) s = some (n, ty) := by
  simp only [first_match, h]

theorem regexec_lit_none (a : Char) (as : List Char) (c : Char) (cs : List Char)
    (h : isChar a c = false) : regexec (lit (a :: as)) (c :: cs) = none := by
  simp only [lit, List.map, regexec_one, h]
  rfl

theorem regexec_one_none (cls : Char → Bool) (rest : List Item) (c : Char) (cs : List Char)
    (h : cls c = false) : regexec (⟨cls, false⟩ :: rest) (c :: cs) = none := by
  simp only [regexec_one, h]
  rfl

theorem regexec_many_none (cls : Char → Bool) (rest : List Item) (c : Char) (cs : List Char)
    (h : cls c = false) : regexec (⟨cls, true⟩ :: rest) (c :: cs) = none := by
  simp [regexec_many, spanLen, h]

/-- The rules after the first seven (spaces, the four arithmetic operators
and the parentheses). -/
theorem first_match_skip7 (c : Char) (cs : List Char)
    (h0 : isChar (Char.ofNat 32) c = false) (h1 : isChar '+' c = false)
    (h2 : isChar '-' c = false) (h3 : isChar '*' c = false) (h4 : isChar '/' c = false)
    (h5 : isChar '(' c = false) (h6 : isChar ')' c = false) :
    first_match rules (c :: cs) = first_match (rules.drop 7) (c :: cs) := by
  unfold rules
  rw [first_match_skip _ _ _ _ (regexec_many_none _ _ _ _ h0),
    first_match_skip _ _ _ _ (regexec_lit_none _ _ _ _ h1),
    first_match_skip _ _ _ _ (regexec_lit_none _ _ _ _ h2),
    first_match_skip _ _ _ _ (regexec_lit_none _ _ _ _ h3),
    first_match_skip _ _ _ _ (regexec_lit_none _ _ _ _ h4),
    first_match_skip _ _ _ _ (regexec_lit_none _ _ _ _ h5),
    first_match_skip _ _ _ _ (regexec_lit_none _ _ _ _ h6)]
  rfl

theorem first_match_skip7_of (cls : Char → Bool) (c : Char) (cs : List Char) (hc : cls c = true)
    (h0 : cls (Char.ofNat 32) = false) (h1 : cls '+' = false)
    (h2 : cls '-' = false) (h3 : cls '*' = false) (h4 : cls '/' = false)
    (h5 : cls '(' = false) (h6 : cls ')' = false) :
    first_match rules (c :: cs) = first_match (rules.drop 7) (c :: cs) :=
  first_match_skip7 c cs (isChar_false cls _ c hc h0) (isChar_false cls _ c hc h1)
    (isChar_false cls _ c hc h2) (isChar_false cls _ c hc h3) (isChar_false cls _ c hc h4)
    (isChar_false cls _ c hc h5) (isChar_false cls _ c hc h6)

theorem first_match_dec (str rest : List Char) (h1 : str ≠ [])
    (h2 : ∀ c ∈ str, isDecDigit c = true)
    (hr : ∀ c, rest.head? = some c → isAlnum c = false) :
    first_match rules (str ++ rest) = some (str.length, TK_DEC) := by
  have hspan := spanLen_append isDecDigit str rest h2 (not_alnum_of _ isDecDigit_alnum rest hr)
  cases str with
  | nil => exact absurd rfl h1
  | cons d ds =>
    have hd : isDecDigit d = true := h2 d (List.mem_cons_self _ _)
    have hx : ∀ c, (ds ++ rest).head? = some c → isX c = false := by
      intro c hc
      cases ds with
      | nil => exact not_alnum_of _ isX_alnum rest hr c hc
      | cons e es =>
        simp only [List.cons_append, List.head?_cons, Option.some.injEq] at hc
        subst hc
        have he : isDecDigit e = true := h2 e (by simp)
        cases hxe : isX e with
        | false => rfl
        | true =>
          simp only [isX, Bool.or_eq_true, decide_eq_true_eq] at hxe
          rcases hxe with h | h <;> subst h <;> revert he <;> decide
    have hhex : regexec [⟨isChar '0', false⟩, ⟨isX, false⟩, ⟨isHexDigit, true⟩]
        (d :: (ds ++ rest)) = none := by
      rw [regexec_one]
      split_ifs with hz
      · cases hds : ds ++ rest with
        | nil => rfl
        | cons c cs =>
          have := hx c (by rw [hds]; rfl)
          rw [regexec_one_none _ _ _ _ this]; rfl
      · rfl
    rw [List.cons_append] at hspan ⊢
    rw [first_match_skip7_of isDecDigit d _ hd (by decide) (by decide) (by decide) (by decide)
      (by decide) (by decide) (by decide)]
    simp only [rules, List.drop]
    rw [first_match_skip _ _ _ _ hhex]
    apply first_match_hit
    rw [regexec_many, hspan, regexec_nil]
    simp

theorem first_match_hex (x : Char) (ds rest : List Char) (hx : isX x = true) (h1 : ds ≠ [])
    (h2 : ∀ c ∈ ds, isHexDigit c = true)
    (hr : ∀ c, rest.head? = some c → isAlnum c = false) :
    first_match rules ('0' :: x :: ds ++ rest) = some (ds.length + 2, TK_HEX) := by
  have hspan := spanLen_append isHexDigit ds rest h2 (not_alnum_of _ isHexDigit_alnum rest hr)
  rw [List.cons_append, List.cons_append]
  rw [first_match_skip7_of (isChar '0') '0' _ (by decide) (by decide) (by decide) (by decide)
    (by decide) (by decide) (by decide) (by decide)]
  simp only [rules, List.drop]
  apply first_match_hit
  rw [regexec_one, if_pos (by decide), regexec_one, if_pos hx, regexec_many, hspan, regexec_nil]
  cases ds with
  | nil => exact absurd rfl h1
  | cons e es => simp

theorem first_match_reg (ds rest : List Char) (h1 : ds ≠ [])
    (h2 : ∀ c ∈ ds, isAlnum c = true)
    (hr : ∀ c, rest.head? = some c → isAlnum c = false) :
    first_match rules ('$' :: ds ++ rest) = some (ds.length + 1, TK_REG) := by
  have hspan := spanLen_append isAlnum ds rest h2 hr
  rw [List.cons_append]
  rw [first_match_skip7_of (isChar '$') '$' _ (by decide) (by decide) (by decide) (by decide)
    (by decide) (by decide) (by decide) (by decide)]
  simp only [rules, List.drop]
  rw [first_match_skip _ _ _ _ (regexec_one_none _ _ _ _ (by decide)),
    first_match_skip _ _ _ _ (regexec_many_none _ _ _ _ (by decide))]
  apply first_match_hit
  rw [regexec_one, if_pos (by decide), regexec_many, hspan, regexec_nil]
  cases ds with
  | nil => exact absurd rfl h1
  | cons e es => simp

theorem first_match_spaces (g : Nat) (rest : List Char) (hg : 0 < g)
    (hr : ∀ c, rest.head? = some c → isChar (Char.ofNat 32) c = false) :
    first_match rules (List.replicate g (Char.ofNat 32) ++ rest) = some (g, TK_NOTYPE) := by
  have hspan := spanLen_append (isChar (Char.ofNat 32)) (List.replicate g (Char.ofNat 32)) rest
    (by intro c hc; rw [List.eq_of_mem_replicate hc]; decide) hr
  unfold rules
  apply first_match_hit
  rw [regexec_many, hspan, regexec_nil, List.length_replicate]
  simp; omega


theorem getD_set_self (l : List Token) (i : Nat) (a : Token) (h : i < l.length) :
    (l.set i a).getD i Token.zero = a := by
  simp [List.getD_eq_getElem?_getD, List.getElem?_set_self, h]

theorem getD_set_ne (l : List Token) (i j : Nat) (a : Token) (h : i ≠ j) :
    (l.set i a).getD j Token.zero = l.getD j Token.zero := by
  simp [List.getD_eq_getElem?_getD, List.getElem?_set_ne h]

theorem first_match_lexeme (t : Token) (rest : List Char) (ht : lexerToken t = true)
    (hr : carriesText t.type = true → ∀ c, rest.head? = some c → isAlnum c = false) :
    first_match rules (lexeme t ++ rest) = some ((lexeme t).length, t.type) := by
  obtain ⟨ty, str⟩ := t
  unfold lexerToken at ht
  simp only at ht hr
  by_cases hdec : ty = TK_DEC
  · subst hdec
    simp only [if_true, Bool.and_eq_true, Bool.not_eq_true', List.isEmpty_eq_false,
      List.all_eq_true, decide_eq_true_eq] at ht
    have : lexeme ⟨TK_DEC, str⟩ = str := rfl
    rw [this]
    exact first_match_dec str rest (by simpa using ht.1.1) ht.1.2 (hr rfl)
  by_cases hhex : ty = TK_HEX
  · subst hhex
    have : lexeme ⟨TK_HEX, str⟩ = str := rfl
    rw [this]
    match str, ht with
    | z :: x :: d :: ds, ht =>
      simp only [TK_HEX, TK_DEC, if_true, Bool.and_eq_true, List.all_eq_true,
        decide_eq_true_eq] at ht
      simp only [show ((261 : Int) = 260) = False by decide, if_false, Bool.and_eq_true,
        List.all_eq_true, decide_eq_true_eq] at ht
      obtain ⟨⟨⟨hz, hx⟩, hds⟩, _⟩ := ht
      subst hz
      exact first_match_hex x (d :: ds) rest hx (by simp) hds (hr rfl)
  by_cases hreg : ty = TK_REG
  · subst hreg
    have : lexeme ⟨TK_REG, str⟩ = str := rfl
    rw [this]
    match str, ht with
    | a :: d :: ds, ht =>
      simp only [show ((268 : Int) = 260) = False by decide, show ((268 : Int) = 261) = False by decide,
        TK_REG, TK_DEC, TK_HEX, if_true, if_false, Bool.and_eq_true,
        List.all_eq_true, decide_eq_true_eq] at ht
      obtain ⟨⟨ha, hds⟩, _⟩ := ht
      subst ha
      exact first_match_reg (d :: ds) rest (by simp) hds (hr rfl)
  simp only [hdec, hhex, hreg, if_false, Bool.decide_or, Bool.or_eq_true, decide_eq_true_eq] at ht
  rcases ht with h | h | h | h | h | h | h | h | h <;> subst h <;> rfl

theorem lexeme_length (t : Token) (ht : lexerToken t = true) :
    0 < (lexeme t).length ∧ (lexeme t).length ≤ 31 ∧ t.type ≠ TK_NOTYPE := by
  obtain ⟨ty, str⟩ := t
  unfold lexerToken at ht
  simp only at ht
  by_cases hdec : ty = TK_DEC
  · subst hdec
    simp only [if_true, Bool.and_eq_true, Bool.not_eq_true', List.isEmpty_eq_false,
      List.all_eq_true, decide_eq_true_eq] at ht
    have : lexeme ⟨TK_DEC, str⟩ = str := rfl
    rw [this]
    refine ⟨?_, ht.2, by simp⟩
    cases str with
    | nil => simp at ht
    | cons _ _ => simp
  by_cases hhex : ty = TK_HEX
  · subst hhex
    have : lexeme ⟨TK_HEX, str⟩ = str := rfl
    rw [this]
    match str, ht with
    | z :: x :: d :: ds, ht =>
      simp only [show ((261 : Int) = 260) = False by decide, TK_HEX, TK_DEC, if_true, if_false,
        Bool.and_eq_true, List.all_eq_true, decide_eq_true_eq] at ht
      exact ⟨by simp, ht.2, by simp⟩
  by_cases hreg : ty = TK_REG
  · subst hreg
    have : lexeme ⟨TK_REG, str⟩ = str := rfl
    rw [this]
    match str, ht with
    | a :: d :: ds, ht =>
      simp only [show ((268 : Int) = 260) = False by decide, show ((268 : Int) = 261) = False by decide,
        TK_REG, TK_DEC, TK_HEX, if_true, if_false, Bool.and_eq_true,
        List.all_eq_true, decide_eq_true_eq] at ht
      exact ⟨by simp, ht.2, by simp⟩
  simp only [hdec, hhex, hreg, if_false, Bool.decide_or, Bool.or_eq_true, decide_eq_true_eq] at ht
  rcases ht with h | h | h | h | h | h | h | h | h <;> subst h <;> simp [lexeme, carriesText]

/-- The first character of a lexeme is no space, and that of an operator or
parenthesis is not alphanumeric. -/
theorem lexeme_head (t : Token) (ht : lexerToken t = true) :
    ∃ c cs, lexeme t = c :: cs ∧ isChar (Char.ofNat 32) c = false ∧
      (carriesText t.type = false → isAlnum c = false) := by
  obtain ⟨ty, str⟩ := t
  unfold lexerToken at ht
  simp only at ht
  by_cases hdec : ty = TK_DEC
  · subst hdec
    simp only [if_true, Bool.and_eq_true, Bool.not_eq_true', List.isEmpty_eq_false,
      List.all_eq_true, decide_eq_true_eq] at ht
    have : lexeme ⟨TK_DEC, str⟩ = str := rfl
    rw [this]
    cases str with
    | nil => simp at ht
    | cons c cs =>
      exact ⟨c, cs, rfl, isChar_false isDecDigit _ c (ht.1.2 c (by simp)) (by decide),
        fun h => absurd h (by simp [carriesText])⟩
  by_cases hhex : ty = TK_HEX
  · subst hhex
    have : lexeme ⟨TK_HEX, str⟩ = str := rfl
    rw [this]
    match str, ht with
    | z :: x :: d :: ds, ht =>
      simp only [show ((261 : Int) = 260) = False by decide, TK_HEX, TK_DEC, if_true, if_false,
        Bool.and_eq_true, List.all_eq_true, decide_eq_true_eq] at ht
      obtain ⟨⟨⟨hz, _⟩, _⟩, _⟩ := ht
      subst hz
      exact ⟨_, _, rfl, by decide, fun h => absurd h (by simp [carriesText])⟩
  by_cases hreg : ty = TK_REG
  · subst hreg
    have : lexeme ⟨TK_REG, str⟩ = str := rfl
    rw [this]
    match str, ht with
    | a :: d :: ds, ht =>
      simp only [show ((268 : Int) = 260) = False by decide, show ((268 : Int) = 261) = False by decide,
        TK_REG, TK_DEC, TK_HEX, if_true, if_false, Bool.and_eq_true,
        List.all_eq_true, decide_eq_true_eq] at ht
      obtain ⟨⟨ha, _⟩, _⟩ := ht
      subst ha
      exact ⟨_, _, rfl, by decide, fun h => absurd h (by simp [carriesText])⟩
  simp only [hdec, hhex, hreg, if_false, Bool.decide_or, Bool.or_eq_true, decide_eq_true_eq] at ht
  rcases ht with h | h | h | h | h | h | h | h | h <;> subst h <;>
    exact ⟨_, _, rfl, by decide, fun _ => by decide⟩


theorem make_token_loop_nil (fuel : Nat) (position : Nat) (b : TokBuf) :
    make_token_loop (fuel + 1) [] position b = some (LexResult.ok b) := by
  simp [make_token_loop]

/-- One iteration of the loop on a run of spaces. -/
theorem make_token_loop_spaces (fuel : Nat) (g : Nat) (rest : List Char) (position : Nat)
    (b : TokBuf) (hg : 0 < g)
    (hr : ∀ c, rest.head? = some c → isChar (Char.ofNat 32) c = false) :
    make_token_loop (fuel + 1) (List.replicate g (Char.ofNat 32) ++ rest) position b =
      make_token_loop fuel rest (position + g) b := by
  have hne : List.replicate g (Char.ofNat 32) ++ rest ≠ [] := by
    cases g with
    | zero => omega
    | succ n => simp [List.replicate_succ]
  rw [make_token_loop, if_neg hne, first_match_spaces g rest hg hr]
  simp

/-- One iteration of the loop on the lexeme of a token. -/
theorem make_token_loop_lexeme (fuel : Nat) (t : Token) (rest : List Char) (position : Nat)
    (b : TokBuf) (ht : lexerToken t = true) (hb : b.nr_token < 32)
    (hr : carriesText t.type = true → ∀ c, rest.head? = some c → isAlnum c = false) :
    make_token_loop (fuel + 1) (lexeme t ++ rest) position b =
      make_token_loop fuel rest (position + (lexeme t).length) (stored b t) := by
  obtain ⟨h1, h2, h3⟩ := lexeme_length t ht
  have hne : lexeme t ++ rest ≠ [] := by
    intro h
    have h4 := congrArg List.length h
    rw [List.length_append, List.length_nil] at h4
    omega
  rw [make_token_loop, if_neg hne, first_match_lexeme t rest ht hr]
  simp only [if_neg h3, if_neg (show ¬ b.nr_token ≥ 32 by omega), List.drop_left]
  by_cases hc : carriesText t.type = true
  · have hc2 : t.type = TK_DEC ∨ t.type = TK_HEX ∨ t.type = TK_REG := by
      simpa [carriesText] using hc
    have hlex : lexeme t = t.str := by simp [lexeme, hc]
    rw [if_pos hc2, if_neg (show ¬ (lexeme t).length ≥ 32 by omega), List.take_left]
    simp [stored, storedToken, hc, hlex]
  · have hc2 : ¬ (t.type = TK_DEC ∨ t.type = TK_HEX ∨ t.type = TK_REG) := by
      simpa [carriesText] using hc
    rw [if_neg hc2]
    simp [stored, storedToken, hc]

theorem spaced_cons (gap : Nat → Nat) (k : Nat) (t : Token) (ts : List Token) :
    spaced gap k (t :: ts) =
      lexeme t ++ (List.replicate (if ts = [] then 0 else gap (k + 1)) (Char.ofNat 32)
        ++ spaced gap (k + 1) ts) := by
  cases ts with
  | nil => simp [spaced]
  | cons u rest => simp [spaced]

/-- The text of a sequence of lexer tokens starts with no space. -/
theorem spaced_head_not_space (gap : Nat → Nat) (k : Nat) (ts : List Token)
    (hts : ∀ t ∈ ts, lexerToken t = true) :
    ∀ c, (spaced gap k ts).head? = some c → isChar (Char.ofNat 32) c = false := by
  intro c hc
  cases ts with
  | nil => simp [spaced] at hc
  | cons t ts =>
    obtain ⟨d, ds, hd, h1, _⟩ := lexeme_head t (hts t (by simp))
    rw [spaced_cons, hd] at hc
    simp only [List.cons_append, List.head?_cons, Option.some.injEq] at hc
    subst hc
    exact h1

/-- What follows a token that carries text starts with no alphanumeric
character, when the next token carries none. -/
theorem spaced_head_not_alnum (gap : Nat → Nat) (k g : Nat) (ts : List Token)
    (hts : ∀ t ∈ ts, lexerToken t = true)
    (hnext : ∀ u rest, ts = u :: rest → carriesText u.type = false) :
    ∀ c, (List.replicate g (Char.ofNat 32) ++ spaced gap k ts).head? = some c →
      isAlnum c = false := by
  intro c hc
  cases g with
  | succ n =>
    simp only [List.replicate_succ, List.cons_append, List.head?_cons, Option.some.injEq] at hc
    subst hc
    decide
  | zero =>
    simp only [List.replicate_zero, List.nil_append] at hc
    cases ts with
    | nil => simp [spaced] at hc
    | cons t ts =>
      obtain ⟨d, ds, hd, _, h2⟩ := lexeme_head t (hts t (by simp))
      rw [spaced_cons, hd] at hc
      simp only [List.cons_append, List.head?_cons, Option.some.injEq] at hc
      subst hc
      exact h2 (hnext t ts rfl)

theorem spaced_length_cons (gap : Nat → Nat) (k : Nat) (t : Token) (ts : List Token) :
    (spaced gap k (t :: ts)).length =
      (lexeme t).length + ((if ts = [] then 0 else gap (k + 1)) + (spaced gap (k + 1) ts).length) := by
  rw [spaced_cons]
  simp

/-- The loop of `make_token` on the text of a sequence of lexer tokens, from
any state of the buffer with room for them: it stores the tokens in order
from slot `nr_token` on and leaves the slots before untouched. -/
theorem make_token_loop_spaced (gap : Nat → Nat) :
    ∀ (ts : List Token) (g k fuel position : Nat) (b : TokBuf),
      (∀ t ∈ ts, lexerToken t = true) → noAdjacentText ts = true →
      b.nr_token + ts.length ≤ 32 → 32 ≤ b.tokens.length →
      g + (spaced gap k ts).length < fuel →
      ∃ b1, make_token_loop fuel (List.replicate g (Char.ofNat 32) ++ spaced gap k ts) position b
            = some (LexResult.ok b1) ∧
        b1.nr_token = b.nr_token + ts.length ∧
        b1.tokens.length = b.tokens.length ∧
        (∀ i, i < b.nr_token → b1.tokens.getD i Token.zero = b.tokens.getD i Token.zero) ∧
        (∀ j, j < ts.length →
          b1.tokens.getD (b.nr_token + j) Token.zero
            = storedToken (b.tokens.getD (b.nr_token + j) Token.zero) (ts.getD j Token.zero)) := by
  intro ts
  induction ts with
  | nil =>
    intro g k fuel position b _ _ _ _ hfuel
    refine ⟨b, ?_, by simp, rfl, fun _ _ => rfl, fun j hj => by simp at hj⟩
    simp only [spaced, List.append_nil]
    cases g with
    | zero =>
      obtain ⟨f, rfl⟩ : ∃ f, fuel = f + 1 := ⟨fuel - 1, by omega⟩
      exact make_token_loop_nil _ _ _
    | succ n =>
      obtain ⟨f, rfl⟩ : ∃ f, fuel = f + 2 := ⟨fuel - 2, by simp [spaced] at hfuel; omega⟩
      have := make_token_loop_spaces (f + 1) (n + 1) [] position b (by omega) (by simp)
      rw [List.append_nil] at this
      rw [this]
      exact make_token_loop_nil _ _ _
  | cons t ts ih =>
    intro g k fuel position b hts hadj hroom hlen hfuel
    have htl : ∀ u ∈ ts, lexerToken u = true := fun u hu => hts u (List.mem_cons_of_mem _ hu)
    have hadj2 : noAdjacentText ts = true := by
      cases ts with
      | nil => rfl
      | cons u rest =>
        simp only [noAdjacentText, Bool.and_eq_true] at hadj
        exact hadj.2
    have hnext : carriesText t.type = true → ∀ u rest, ts = u :: rest → carriesText u.type = false := by
      intro hc u rest hu
      subst hu
      simp only [noAdjacentText, Bool.and_eq_true, Bool.not_eq_true', hc, Bool.true_and] at hadj
      exact hadj.1
    have hlt : (lexeme t).length > 0 := (lexeme_length t (hts t (by simp))).1
    rw [spaced_length_cons] at hfuel
    simp only [List.length_cons] at hroom
    -- the state after the token `t`
    have key : ∀ (f pos : Nat), (if ts = [] then 0 else gap (k + 1)) + (spaced gap (k + 1) ts).length < f →
        ∃ b1, make_token_loop (f + 1) (spaced gap k (t :: ts)) pos b = some (LexResult.ok b1) ∧
          b1.nr_token = b.nr_token + (ts.length + 1) ∧
          b1.tokens.length = b.tokens.length ∧
          (∀ i, i < b.nr_token → b1.tokens.getD i Token.zero = b.tokens.getD i Token.zero) ∧
          (∀ j, j < ts.length + 1 →
            b1.tokens.getD (b.nr_token + j) Token.zero
              = storedToken (b.tokens.getD (b.nr_token + j) Token.zero)
                  ((t :: ts).getD j Token.zero)) := by
      intro f pos hf
      rw [spaced_cons, make_token_loop_lexeme f t _ pos b (hts t (by simp)) (by omega)
        (fun hc => spaced_head_not_alnum gap (k + 1) _ ts htl (hnext hc))]
      obtain ⟨b1, h1, h2, h3, h4, h5⟩ := ih (if ts = [] then 0 else gap (k + 1)) (k + 1) f
        (pos + (lexeme t).length) (stored b t) htl hadj2
        (by simp only [stored]; omega) (by simp only [stored, List.length_set]; exact hlen) hf
      refine ⟨b1, h1, ?_, ?_, ?_, ?_⟩
      · rw [h2]; simp only [stored]; omega
      · rw [h3]; simp [stored]
      · intro i hi
        rw [h4 i (by simp only [stored]; omega)]
        simp only [stored]
        exact getD_set_ne _ _ _ _ (by omega)
      · intro j hj
        cases j with
        | zero =>
          rw [Nat.add_zero, h4 b.nr_token (by simp [stored])]
          simp only [stored, List.getD_cons_zero]
          rw [getD_set_self _ _ _ (by omega)]
        | succ j =>
          have := h5 j (by omega)
          simp only [stored] at this
          rw [getD_set_ne _ _ _ _ (by omega)] at this
          rw [List.getD_cons_succ]
          rw [show b.nr_token + (j + 1) = b.nr_token + 1 + j by omega]
          exact this
    cases g with
    | zero =>
      obtain ⟨f, rfl⟩ : ∃ f, fuel = f + 1 := ⟨fuel - 1, by omega⟩
      simp only [List.replicate_zero, List.nil_append, List.length_cons]
      exact key f position (by omega)
    | succ n =>
      obtain ⟨f, rfl⟩ : ∃ f, fuel = f + 2 := ⟨fuel - 2, by omega⟩
      rw [make_token_loop_spaces (f + 1) (n + 1) _ position b (by omega)
        (spaced_head_not_space gap k (t :: ts) hts)]
      simp only [List.length_cons]
      exact key f _ (by omega)


/-! ## Literals, operators and chains -/


theorem strtoul_digits_eq (base : Nat) :
    ∀ (ds : List Char) (acc : Nat),
      (∀ c ∈ ds, ∃ d, digitVal c = some d ∧ d < base) →
      strtoul_digits base ds acc = ds.foldl (fun a c => a * base + (digitVal c).getD 0) acc := by
  intro ds
  induction ds with
  | nil => intro acc _; rfl
  | cons c cs ih =>
    intro acc h
    obtain ⟨d, hd, hlt⟩ := h c (List.mem_cons_self _ _)
    simp only [strtoul_digits, hd, hlt, if_true, List.foldl_cons, Option.getD_some]
    exact ih _ (fun c hc => h c (List.mem_cons_of_mem _ hc))

theorem saturate_eq_min (v : Nat) : (if ULONG_MAX < v then ULONG_MAX else v) = min v ULONG_MAX := by
  split_ifs with h
  · rw [Nat.min_eq_right (by omega)]
  · rw [Nat.min_eq_left (by omega)]

theorem digitVal_dec (c : Char) (h : isDecDigit c = true) : ∃ d, digitVal c = some d ∧ d < 10 := by
  simp only [isDecDigit, Bool.and_eq_true, decide_eq_true_eq] at h
  refine ⟨c.toNat - 48, ?_, by omega⟩
  simp [digitVal, h]

theorem digitVal_hex (c : Char) (h : isHexDigit c = true) : ∃ d, digitVal c = some d ∧ d < 16 := by
  simp only [isHexDigit, Bool.and_eq_true, Bool.or_eq_true, decide_eq_true_eq] at h
  unfold digitVal
  split_ifs with h1 h2 h3
  · exact ⟨_, rfl, by omega⟩
  · exact ⟨_, rfl, by omega⟩
  · exact ⟨_, rfl, by omega⟩
  · omega

theorem not_isspace_of_digit (c : Char) (h : isHexDigit c = true) : isspace c = false := by
  simp only [isHexDigit, isspace] at *
  simp only [Bool.and_eq_true, Bool.or_eq_true, decide_eq_true_eq, Bool.or_eq_false_iff,
    Bool.and_eq_false_iff, decide_eq_false_iff_not] at *
  omega

theorem isDecDigit_hex (c : Char) (h : isDecDigit c = true) : isHexDigit c = true := by
  simp only [isDecDigit, isHexDigit] at *
  simp only [Bool.and_eq_true, Bool.or_eq_true, decide_eq_true_eq] at *
  omega

/-- The call `strtoul(str, NULL, 10)` on a non-empty string of decimal digits. -/
theorem strtoul_dec (str : List Char) (h1 : str ≠ []) (h2 : ∀ c ∈ str, isDecDigit c = true) :
    strtoul str 10 = min (digitsValue 10 str) ULONG_MAX := by
  cases str with
  | nil => exact absurd rfl h1
  | cons d ds =>
    have hd := h2 d (List.mem_cons_self _ _)
    have hw := not_isspace_of_digit d (isDecDigit_hex d hd)
    have hm : d ≠ '-' := by intro h; subst h; revert hd; decide
    have hp : d ≠ '+' := by intro h; subst h; revert hd; decide
    have := strtoul_digits_eq 10 (d :: ds) 0 (fun c hc => digitVal_dec c (h2 c hc))
    simp only [strtoul, List.dropWhile, hw, List.head?_cons, Option.some.injEq, hm, hp, or_self,
      if_false, false_and, decide_False, Bool.false_eq_true, digitsValue,
      show ((10 : Nat) = 16) = False by decide, this]
    exact saturate_eq_min _

/-- The call `strtoul(str, NULL, 16)` on `0x` or `0X` and hex digits. -/
theorem strtoul_hex (x : Char) (ds : List Char) (hx : isX x = true)
    (h2 : ∀ c ∈ ds, isHexDigit c = true) :
    strtoul ('0' :: x :: ds) 16 = min (digitsValue 16 ds) ULONG_MAX := by
  have hx2 : x = 'x' ∨ x = 'X' := by simpa [isX] using hx
  have := strtoul_digits_eq 16 ds 0 (fun c hc => digitVal_hex c (h2 c hc))
  have hw : isspace '0' = false := by decide
  simp only [strtoul, List.dropWhile, hw, List.head?_cons, Option.some.injEq,
    show ('0' = '-') = False by decide, show ('0' = '+') = False by decide, or_self,
    if_false, List.drop, hx2, and_self, if_true, decide_False, Bool.false_eq_true, false_and,
    digitsValue, this]
  exact saturate_eq_min _


/-- The single-token branch of `eval` on a literal below `2^32`. -/
theorem eval_atom_literal (env : Env) (t : Token) (h1 : isLiteral t = true)
    (h2 : literalValue t < WORD) : eval_atom env t = (literalValue t, true) := by
  obtain ⟨ty, str⟩ := t
  simp only [isLiteral, Bool.and_eq_true, Bool.decide_or, Bool.or_eq_true, decide_eq_true_eq] at h1
  obtain ⟨hty, hlex⟩ := h1
  unfold lexerToken at hlex
  simp only at hlex
  rcases hty with hty | hty
  · subst hty
    simp only [if_true, Bool.and_eq_true, Bool.not_eq_true', List.isEmpty_eq_false,
      List.all_eq_true, decide_eq_true_eq] at hlex
    have hv : literalValue ⟨TK_DEC, str⟩ = digitsValue 10 str := rfl
    rw [hv] at h2 ⊢
    have hs := strtoul_dec str (by simpa using hlex.1.1) hlex.1.2
    simp only [eval_atom, if_true, hs]
    rw [Nat.min_eq_left (by simp only [WORD, ULONG_MAX] at *; omega), Nat.mod_eq_of_lt h2]
  · subst hty
    match str, hlex with
    | z :: x :: d :: ds, hlex =>
      simp only [show ((261 : Int) = 260) = False by decide, TK_HEX, TK_DEC, if_true, if_false,
        Bool.and_eq_true, List.all_eq_true, decide_eq_true_eq] at hlex
      obtain ⟨⟨⟨hz, hx⟩, hds⟩, _⟩ := hlex
      subst hz
      have hv : literalValue ⟨TK_HEX, '0' :: x :: d :: ds⟩ = digitsValue 16 (d :: ds) := rfl
      rw [hv] at h2 ⊢
      have hs := strtoul_hex x (d :: ds) hx hds
      simp only [eval_atom, show ((261 : Int) = 260) = False by decide, TK_HEX, TK_DEC, if_true,
        if_false]
      rw [hs, Nat.min_eq_left (by simp only [WORD, ULONG_MAX] at *; omega), Nat.mod_eq_of_lt h2]

/-- The `switch` of `eval` computes the meaning of the operator. -/
theorem combine_eq_applyOp (type : Int) (a b : Nat) (s : Bool) (ha : a < WORD) (hb : b < WORD)
    (hop : isBinaryOp type = true) (hdiv : type = TK_DIVIDE → b ≠ 0) :
    combine type a b s = (applyOp type a b, s) := by
  simp only [isBinaryOp, Bool.decide_or, Bool.or_eq_true, decide_eq_true_eq] at hop
  rcases hop with h | h | h | h | h | h <;> subst h
  · rfl
  · simp only [combine, applyOp, show ((263 : Int) = 262) = False by decide, TK_MINUS, TK_PLUS,
      if_true, if_false, Prod.mk.injEq, and_true]
    simp only [WORD] at *
    omega
  · rfl
  · have := hdiv rfl
    simp [combine, applyOp, this]
  · simp [combine, applyOp]
  · simp only [combine, applyOp]
    simp only [show ((258 : Int) = 262) = False by decide, show ((258 : Int) = 263) = False by decide,
      show ((258 : Int) = 264) = False by decide, show ((258 : Int) = 265) = False by decide,
      show ((258 : Int) = 257) = False by decide, TK_NEQ, TK_PLUS, TK_MINUS, TK_MULTIPLY,
      TK_DIVIDE, TK_EQ, if_true, if_false, Prod.mk.injEq, and_true]
    by_cases hab : a = b <;> simp [hab]

theorem applyOp_lt (type : Int) (a b : Nat) (ha : a < WORD) : applyOp type a b < WORD := by
  unfold applyOp
  split_ifs
  · exact Nat.mod_lt _ (by decide)
  · simp only [WORD] at *
    omega
  · exact Nat.mod_lt _ (by decide)
  · exact lt_of_le_of_lt (Nat.div_le_self _ _) ha
  · decide
  · decide
  · decide
  · decide
  · decide

/-! ### The chain at one precedence level -/

theorem splitAtOps_no_sep (sep : Int → Bool) :
    ∀ (rest : List (Int × Nat)) (v0 : Nat), (∀ x ∈ rest, sep x.1 = false) →
      splitAtOps sep v0 rest = ((v0, rest), []) := by
  intro rest
  induction rest with
  | nil => intro v0 _; rfl
  | cons x rest ih =>
    intro v0 h
    obtain ⟨o, v⟩ := x
    have ho : sep o = false := h (o, v) (List.mem_cons_self _ _)
    simp only [splitAtOps, ho, Bool.false_eq_true, if_false,
      ih v (fun y hy => h y (List.mem_cons_of_mem _ hy))]

theorem splitAtOps_append (sep : Int → Bool) (o : Int) (v : Nat) (ys : List (Int × Nat))
    (ho : sep o = true) (hys : ∀ x ∈ ys, sep x.1 = false) :
    ∀ (xs : List (Int × Nat)) (v0 : Nat),
      splitAtOps sep v0 (xs ++ (o, v) :: ys) =
        ((splitAtOps sep v0 xs).1, (splitAtOps sep v0 xs).2 ++ [(o, (v, ys))]) := by
  intro xs
  induction xs with
  | nil =>
    intro v0
    simp only [List.nil_append, splitAtOps, ho, if_true, splitAtOps_no_sep sep ys v hys]
  | cons x xs ih =>
    intro v0
    obtain ⟨o1, v1⟩ := x
    rw [List.cons_append]
    simp only [splitAtOps]
    rw [ih v1]
    split_ifs <;> simp

theorem chain_no_sep (sep : Int → Bool) (inner : Nat → List (Int × Nat) → Nat) (v0 : Nat)
    (rest : List (Int × Nat)) (h : ∀ x ∈ rest, sep x.1 = false) :
    chain sep inner v0 rest = inner v0 rest := by
  simp only [chain, splitAtOps_no_sep sep rest v0 h, List.foldl_nil]

theorem chain_append (sep : Int → Bool) (inner : Nat → List (Int × Nat) → Nat) (v0 : Nat)
    (xs : List (Int × Nat)) (o : Int) (v : Nat) (ys : List (Int × Nat))
    (ho : sep o = true) (hys : ∀ x ∈ ys, sep x.1 = false) :
    chain sep inner v0 (xs ++ (o, v) :: ys) = applyOp o (chain sep inner v0 xs) (inner v ys) := by
  simp only [chain, splitAtOps_append sep o v ys ho hys xs v0, List.foldl_append,
    List.foldl_cons, List.foldl_nil]

theorem priority_of_binary (type : Int) (h : isBinaryOp type = true) :
    (isCmpOp type = true ∧ priority_of type = 1) ∨
    (isAddOp type = true ∧ isCmpOp type = false ∧ priority_of type = 4) ∨
    (isMulOp type = true ∧ isAddOp type = false ∧ isCmpOp type = false ∧ priority_of type = 5) := by
  simp only [isBinaryOp, Bool.decide_or, Bool.or_eq_true, decide_eq_true_eq] at h
  rcases h with h | h | h | h | h | h <;> subst h <;> decide

/-- The conventional reading splits at the rightmost operator of the lowest
precedence that occurs. -/
theorem conventional_split (v0 : Nat) (xs : List (Int × Nat)) (o : Int) (v : Nat)
    (ys : List (Int × Nat)) (ho : isBinaryOp o = true)
    (hxs : ∀ x ∈ xs, isBinaryOp x.1 = true ∧ priority_of o ≤ priority_of x.1)
    (hys : ∀ x ∈ ys, isBinaryOp x.1 = true ∧ priority_of o < priority_of x.1) :
    conventional v0 (xs ++ (o, v) :: ys) = applyOp o (conventional v0 xs) (conventional v ys) := by
  have cmp_of : ∀ (l : List (Int × Nat)) (m : Int), 1 < m →
      (∀ x ∈ l, isBinaryOp x.1 = true ∧ m ≤ priority_of x.1) → ∀ x ∈ l, isCmpOp x.1 = false := by
    intro l m hm h x hx
    rcases priority_of_binary x.1 (h x hx).1 with h1 | h1 | h1
    · have := (h x hx).2; omega
    · exact h1.2.1
    · exact h1.2.2.1
  have add_of : ∀ (l : List (Int × Nat)) (m : Int), 4 < m →
      (∀ x ∈ l, isBinaryOp x.1 = true ∧ m ≤ priority_of x.1) → ∀ x ∈ l, isAddOp x.1 = false := by
    intro l m hm h x hx
    rcases priority_of_binary x.1 (h x hx).1 with h1 | h1 | h1
    · have := (h x hx).2; omega
    · have := (h x hx).2; omega
    · exact h1.2.1
  have hys2 : ∀ x ∈ ys, isBinaryOp x.1 = true ∧ priority_of o + 1 ≤ priority_of x.1 :=
    fun x hx => ⟨(hys x hx).1, by have := (hys x hx).2; omega⟩
  rcases priority_of_binary o ho with h | h | h
  · -- a comparison: the right part is a sum
    have hy := cmp_of ys (priority_of o + 1) (by omega) hys2
    unfold conventional
    rw [chain_append isCmpOp sum v0 xs o v ys h.1 hy, chain_no_sep isCmpOp sum v ys hy]
  · -- an additive operator: no comparison at all, the right part is a product
    have hx := cmp_of xs (priority_of o) (by omega) hxs
    have hy := cmp_of ys (priority_of o + 1) (by omega) hys2
    have hy2 := add_of ys (priority_of o + 1) (by omega) hys2
    have hall : ∀ x ∈ xs ++ (o, v) :: ys, isCmpOp x.1 = false := by
      intro x hx1
      rcases List.mem_append.1 hx1 with h1 | h1
      · exact hx x h1
      · rcases List.mem_cons.1 h1 with h2 | h2
        · subst h2; exact h.2.1
        · exact hy x h2
    unfold conventional
    rw [chain_no_sep isCmpOp sum v0 _ hall, chain_no_sep isCmpOp sum v0 xs hx,
      chain_no_sep isCmpOp sum v ys hy]
    unfold sum
    rw [chain_append isAddOp product v0 xs o v ys h.1 hy2, chain_no_sep isAddOp product v ys hy2]
  · -- a multiplicative operator: a product, and nothing to the right
    have hx := cmp_of xs (priority_of o) (by omega) hxs
    have hx2 := add_of xs (priority_of o) (by omega) hxs
    have hnil : ys = [] := by
      cases ys with
      | nil => rfl
      | cons y ys =>
        have h1 := hys y (List.mem_cons_self _ _)
        rcases priority_of_binary y.1 h1.1 with h2 | h2 | h2 <;> omega
    subst hnil
    have hall : ∀ x ∈ xs ++ [(o, v)], isCmpOp x.1 = false := by
      intro x hx1
      rcases List.mem_append.1 hx1 with h1 | h1
      · exact hx x h1
      · rw [List.mem_singleton] at h1; subst h1; exact h.2.2.1
    have hall2 : ∀ x ∈ xs ++ [(o, v)], isAddOp x.1 = false := by
      intro x hx1
      rcases List.mem_append.1 hx1 with h1 | h1
      · exact hx2 x h1
      · rw [List.mem_singleton] at h1; subst h1; exact h.2.1
    unfold conventional
    rw [chain_no_sep isCmpOp sum v0 _ hall, chain_no_sep isCmpOp sum v0 xs hx,
      chain_no_sep isCmpOp sum v [] (by simp)]
    unfold sum
    rw [chain_no_sep isAddOp product v0 _ hall2, chain_no_sep isAddOp product v0 xs hx2,
      chain_no_sep isAddOp product v [] (by simp)]
    unfold product
    rw [chain_append isMulOp (fun v _ => v) v0 xs o v [] h.1 (by simp)]
    rw [chain_no_sep isMulOp (fun v _ => v) v [] (by simp)]

theorem conventional_nil (v0 : Nat) : conventional v0 [] = v0 := rfl

/-- A non-empty list of operators has a rightmost one of lowest priority. -/
theorem exists_rightmost_min {α : Type} (f : α → Int) :
    ∀ (l : List α), l ≠ [] → ∃ xs a ys, l = xs ++ a :: ys ∧
      (∀ x ∈ xs, f a ≤ f x) ∧ (∀ y ∈ ys, f a < f y) := by
  intro l
  induction l with
  | nil => intro h; exact absurd rfl h
  | cons b l ih =>
    intro _
    by_cases hl : l = []
    · subst hl
      exact ⟨[], b, [], rfl, by simp, by simp⟩
    · obtain ⟨xs, a, ys, h1, h2, h3⟩ := ih hl
      by_cases hb : f b < f a
      · refine ⟨[], b, l, rfl, by simp, ?_⟩
        intro y hy
        rw [h1] at hy
        rcases List.mem_append.1 hy with h4 | h4
        · have := h2 y h4; omega
        · rcases List.mem_cons.1 h4 with h5 | h5
          · subst h5; exact hb
          · have := h3 y h5; omega
      · refine ⟨b :: xs, a, ys, by rw [h1]; rfl, ?_, h3⟩
        intro x hx
        rcases List.mem_cons.1 hx with h5 | h5
        · subst h5; omega
        · exact h2 x h5


/-! ### The scan on a chain of literals and binary operators -/

theorem isLiteral_type (t : Token) (h : isLiteral t = true) :
    t.type = TK_DEC ∨ t.type = TK_HEX := by
  simp only [isLiteral, Bool.and_eq_true, Bool.decide_or, Bool.or_eq_true, decide_eq_true_eq] at h
  exact h.1

theorem scan_step_literal (tokens : List Token) (st : Scan) (i : Int)
    (h : (tokAt tokens i).type = TK_DEC ∨ (tokAt tokens i).type = TK_HEX) :
    scan_step tokens st i = st := by
  unfold scan_step
  rcases h with h | h <;> simp [h]

theorem scan_step_binary (tokens : List Token) (st : Scan) (i : Int)
    (h : isBinaryOp (tokAt tokens i).type = true) (hl : st.parens_layer ≤ 0) :
    scan_step tokens st i =
      if priority_of (tokAt tokens i).type ≤ st.min_priority then
        { st with min_priority := priority_of (tokAt tokens i).type, op := i }
      else st := by
  have hl2 : ¬ st.parens_layer > 0 := by omega
  simp only [isBinaryOp, Bool.decide_or, Bool.or_eq_true, decide_eq_true_eq] at h
  have hr : 257 ≤ (tokAt tokens i).type ∧ (tokAt tokens i).type ≤ 265 ∧
      (tokAt tokens i).type ≠ 260 ∧ (tokAt tokens i).type ≠ 261 := by
    simp only [TK_PLUS, TK_MINUS, TK_MULTIPLY, TK_DIVIDE, TK_EQ, TK_NEQ] at h
    omega
  have t40 : ¬ (tokAt tokens i).type = 40 := by omega
  have t41 : ¬ (tokAt tokens i).type = 41 := by omega
  have tlit : ¬ ((tokAt tokens i).type = TK_DEC ∨ (tokAt tokens i).type = TK_HEX ∨
      (tokAt tokens i).type = TK_REG) := by
    simp only [TK_DEC, TK_HEX, TK_REG]
    omega
  have tderef : ¬ (tokAt tokens i).type = TK_DEREF := by
    simp only [TK_DEREF]
    omega
  simp only [scan_step, if_neg t40, if_neg t41, if_neg hl2, if_neg tlit, if_neg tderef]
  split_ifs <;> rfl

theorem scan_loop_add (tokens : List Token) :
    ∀ (a b : Nat) (i : Int) (st : Scan),
      scan_loop tokens (a + b) i st = scan_loop tokens b (i + a) (scan_loop tokens a i st) := by
  intro a
  induction a with
  | zero => intro b i st; simp [scan_loop]
  | succ a ih =>
    intro b i st
    rw [show a + 1 + b = (a + b) + 1 by omega]
    simp only [scan_loop]
    rw [ih]
    congr 1
    push_cast
    omega

theorem scan_loop_two (tokens : List Token) (i : Int) (st : Scan) :
    scan_loop tokens 2 i st = scan_step tokens (scan_step tokens st i) (i + 1) := rfl

theorem PairsAt_append (tokens : List Token) :
    ∀ (xs ys : List (Token × Token)) (i : Int),
      PairsAt tokens i (xs ++ ys) ↔ PairsAt tokens i xs ∧ PairsAt tokens (i + 2 * xs.length) ys := by
  intro xs
  induction xs with
  | nil => intro ys i; simp [PairsAt]
  | cons x xs ih =>
    intro ys i
    have e : i + 2 + 2 * (xs.length : Int) = i + 2 * ((xs.length + 1 : Nat) : Int) := by
      push_cast; omega
    rw [List.cons_append]
    simp only [PairsAt]
    rw [ih, List.length_cons, ← e]
    tauto

/-- The scan over one operator and its right operand. -/
theorem scan_pair (tokens : List Token) (i : Int) (st : Scan) (x : Token × Token)
    (h1 : tokAt tokens i = x.1) (h2 : tokAt tokens (i + 1) = x.2)
    (hop : isBinaryOp x.1.type = true) (hlit : isLiteral x.2 = true) (hl : st.parens_layer ≤ 0) :
    scan_loop tokens 2 i st =
      if priority_of x.1.type ≤ st.min_priority then
        { st with min_priority := priority_of x.1.type, op := i }
      else st := by
  rw [scan_loop_two, scan_step_literal tokens _ (i + 1) (by rw [h2]; exact isLiteral_type _ hlit),
    scan_step_binary tokens st i (by rw [h1]; exact hop) hl, h1]

/-- Operators of priority at least `m` leave the minimum at least `m`. -/
theorem scan_pairs_ge (tokens : List Token) (m : Int) :
    ∀ (ps : List (Token × Token)) (i : Int) (st : Scan), PairsAt tokens i ps →
      (∀ x ∈ ps, isBinaryOp x.1.type = true ∧ isLiteral x.2 = true ∧ m ≤ priority_of x.1.type) →
      st.parens_layer ≤ 0 → m ≤ st.min_priority →
      (scan_loop tokens (2 * ps.length) i st).parens_layer = st.parens_layer ∧
        m ≤ (scan_loop tokens (2 * ps.length) i st).min_priority := by
  intro ps
  induction ps with
  | nil => intro i st _ _ _ h; exact ⟨rfl, h⟩
  | cons x ps ih =>
    intro i st hp hx hl hm
    obtain ⟨h1, h2, h3⟩ := hp
    obtain ⟨hop, hlit, hpr⟩ := hx x (List.mem_cons_self _ _)
    rw [List.length_cons, show 2 * (ps.length + 1) = 2 + 2 * ps.length by omega, scan_loop_add,
      scan_pair tokens i st x h1 h2 hop hlit hl]
    have hx2 := fun y hy => hx y (List.mem_cons_of_mem _ hy)
    split_ifs with hc
    · have := ih (i + (2 : Nat)) { st with min_priority := priority_of x.1.type, op := i } h3 hx2 hl hpr
      exact this
    · exact ih (i + (2 : Nat)) st h3 hx2 hl hm

/-- Operators of priority above the minimum leave the scan state as it is. -/
theorem scan_pairs_gt (tokens : List Token) :
    ∀ (ps : List (Token × Token)) (i : Int) (st : Scan), PairsAt tokens i ps →
      (∀ x ∈ ps, isBinaryOp x.1.type = true ∧ isLiteral x.2 = true ∧
        st.min_priority < priority_of x.1.type) →
      st.parens_layer ≤ 0 → scan_loop tokens (2 * ps.length) i st = st := by
  intro ps
  induction ps with
  | nil => intro i st _ _ _; rfl
  | cons x ps ih =>
    intro i st hp hx hl
    obtain ⟨h1, h2, h3⟩ := hp
    obtain ⟨hop, hlit, hpr⟩ := hx x (List.mem_cons_self _ _)
    rw [List.length_cons, show 2 * (ps.length + 1) = 2 + 2 * ps.length by omega, scan_loop_add,
      scan_pair tokens i st x h1 h2 hop hlit hl, if_neg (by omega)]
    exact ih (i + (2 : Nat)) st h3 (fun y hy => hx y (List.mem_cons_of_mem _ hy)) hl

/-- On a chain of literals and binary operators the scan selects the
rightmost operator of lowest priority. -/
theorem dominant_op_chain (tokens : List Token) (p : Int) (xs ys : List (Token × Token))
    (x : Token × Token)
    (h0 : isLiteral (tokAt tokens p) = true)
    (hp : PairsAt tokens (p + 1) (xs ++ x :: ys))
    (hx : isBinaryOp x.1.type = true ∧ isLiteral x.2 = true)
    (hxs : ∀ y ∈ xs, isBinaryOp y.1.type = true ∧ isLiteral y.2 = true ∧
      priority_of x.1.type ≤ priority_of y.1.type)
    (hys : ∀ y ∈ ys, isBinaryOp y.1.type = true ∧ isLiteral y.2 = true ∧
      priority_of x.1.type < priority_of y.1.type) :
    dominant_op tokens p (p + 2 * ((xs ++ x :: ys).length : Nat)) = p + 2 * (xs.length : Nat) + 1 := by
  obtain ⟨hpx, hpy⟩ := (PairsAt_append tokens xs (x :: ys) (p + 1)).1 hp
  obtain ⟨h1, h2, hpy⟩ := hpy
  have hprio : priority_of x.1.type ≤ 1000 := by
    rcases priority_of_binary x.1.type hx.1 with h | h | h <;> omega
  unfold dominant_op
  have hcount : (p + 2 * ((xs ++ x :: ys).length : Nat) + 1 - p).toNat
      = 1 + (2 * xs.length + (2 + 2 * ys.length)) := by
    simp only [List.length_append, List.length_cons]
    push_cast
    omega
  rw [hcount, scan_loop_add, scan_loop_add, scan_loop_add]
  have e1 : scan_loop tokens 1 p ⟨-1, 1000, 0⟩ = ⟨-1, 1000, 0⟩ := by
    show scan_step tokens _ p = _
    exact scan_step_literal tokens _ p (isLiteral_type _ h0)
  rw [e1]
  obtain ⟨g1, g2⟩ := scan_pairs_ge tokens (priority_of x.1.type) xs (p + (1 : Nat)) ⟨-1, 1000, 0⟩
    (by simpa using hpx) hxs (by simp) (by simpa using hprio)
  generalize scan_loop tokens (2 * xs.length) (p + (1 : Nat)) ⟨-1, 1000, 0⟩ = st1 at g1 g2 ⊢
  simp only at g1
  have h1b : tokAt tokens (p + (1 : Nat) + ((2 * xs.length : Nat) : Int)) = x.1 := by
    exact h1
  have h2b : tokAt tokens (p + (1 : Nat) + ((2 * xs.length : Nat) : Int) + 1) = x.2 := by
    exact h2
  have hpyb : PairsAt tokens (p + (1 : Nat) + ((2 * xs.length : Nat) : Int) + (2 : Nat)) ys := by
    exact hpy
  rw [scan_pair tokens _ st1 x h1b h2b hx.1 hx.2 (by omega), if_pos g2]
  rw [scan_pairs_gt tokens ys _ _ hpyb (by simpa using hys) (by simp only; omega)]
  simp only
  push_cast
  omega


theorem tokAt_natCast (tokens : List Token) (n : Nat) :
    tokAt tokens (n : Int) = tokens.getD n Token.zero := by
  simp [tokAt]

theorem check_parentheses_not_lpar (tokens : List Token) (p q : Int)
    (h : (tokAt tokens p).type ≠ TK_LPAR) : check_parentheses tokens p q = false := by
  simp [check_parentheses, h]

theorem opValues_append (xs ys : List (Token × Token)) (x : Token × Token) :
    opValues (xs ++ x :: ys) = opValues xs ++ (x.1.type, literalValue x.2) :: opValues ys := by
  simp [opValues]

/-- The evaluation of a chain of literals and binary operators anywhere in
the token array gives its conventional reading. -/
theorem eval_chain (env : Env) (tokens : List Token) :
    ∀ (n : Nat) (rest : List (Token × Token)), rest.length = n → ∀ (p : Int), 0 ≤ p →
      isLiteral (tokAt tokens p) = true → literalValue (tokAt tokens p) < WORD →
      PairsAt tokens (p + 1) rest →
      (∀ x ∈ rest, isBinaryOp x.1.type = true ∧ isLiteral x.2 = true ∧ literalValue x.2 < WORD ∧
        (x.1.type = TK_DIVIDE → literalValue x.2 ≠ 0)) →
      eval env tokens p (p + 2 * (rest.length : Nat)) true
          = some (conventional (literalValue (tokAt tokens p)) (opValues rest), true) ∧
        conventional (literalValue (tokAt tokens p)) (opValues rest) < WORD := by
  intro n
  induction n using Nat.strong_induction_on with
  | _ n ih =>
    intro rest hn p hp0 hl0 hv0 hpairs hrest
    by_cases hne : rest = []
    · subst hne
      simp only [List.length_nil, Nat.cast_zero, mul_zero, add_zero, opValues, List.map_nil,
        conventional_nil]
      rw [eval_single, eval_atom_literal env _ hl0 hv0]
      exact ⟨rfl, hv0⟩
    · obtain ⟨xs, x, ys, hsplit, hxs, hys⟩ :=
        exists_rightmost_min (fun y : Token × Token => priority_of y.1.type) rest hne
      subst hsplit
      have hx := hrest x (by simp)
      have hxs2 := fun y (hy : y ∈ xs) => hrest y (by simp [hy])
      have hys2 := fun y (hy : y ∈ ys) => hrest y (by simp [hy])
      have hop := dominant_op_chain tokens p xs ys x hl0 hpairs ⟨hx.1, hx.2.1⟩
        (fun y hy => ⟨(hxs2 y hy).1, (hxs2 y hy).2.1, hxs y hy⟩)
        (fun y hy => ⟨(hys2 y hy).1, (hys2 y hy).2.1, hys y hy⟩)
      obtain ⟨hpx, hpy⟩ := (PairsAt_append tokens xs (x :: ys) (p + 1)).1 hpairs
      obtain ⟨h1, h2, hpy⟩ := hpy
      have hlenx : xs.length < n := by rw [← hn]; simp
      have hleny : ys.length < n := by rw [← hn]; simp; omega
      obtain ⟨el, vl⟩ := ih xs.length hlenx xs rfl p hp0 hl0 hv0 hpx hxs2
      have hr0 : tokAt tokens (p + 2 * (xs.length : Nat) + 1 + 1) = x.2 := by
        rw [← h2]; congr 1; omega
      obtain ⟨er, vr⟩ := ih ys.length hleny ys rfl (p + 2 * (xs.length : Nat) + 1 + 1) (by omega)
        (by rw [hr0]; exact hx.2.1) (by rw [hr0]; exact hx.2.2.1)
        (by convert hpy using 1; omega) hys2
      rw [hr0] at er vr
      have hq : p + 2 * ((xs ++ x :: ys).length : Nat)
          = p + 2 * (xs.length : Nat) + 1 + 1 + 2 * (ys.length : Nat) := by
        simp only [List.length_append, List.length_cons]; push_cast; omega
      have hopt : tokAt tokens (p + 2 * (xs.length : Nat) + 1) = x.1 := by
        rw [← h1]; congr 1; omega
      have hnd : ¬ (x.1.type = TK_DEREF) := by
        have := hx.1
        simp only [isBinaryOp, Bool.decide_or, Bool.or_eq_true, decide_eq_true_eq] at this
        simp only [TK_PLUS, TK_MINUS, TK_MULTIPLY, TK_DIVIDE, TK_EQ, TK_NEQ, TK_DEREF] at *
        omega
      have hcp : check_parentheses tokens p (p + 2 * ((xs ++ x :: ys).length : Nat)) = false := by
        apply check_parentheses_not_lpar
        rcases isLiteral_type _ hl0 with h | h <;> rw [h] <;> decide
      rw [eval_step env tokens p _ (by rw [hq]; omega), hcp, hop]
      simp only [Bool.false_eq_true, if_false, if_neg (show ¬ p + 2 * (xs.length : Nat) + 1 = -1 by omega),
        hopt, if_neg hnd]
      rw [show p + 2 * (xs.length : Nat) + 1 - 1 = p + 2 * (xs.length : Nat) by omega, el]
      simp only [Option.bind]
      rw [hq, er]
      simp only
      have hys3 : ys = [] ∨ ¬ x.1.type = TK_DIVIDE := by
        by_cases hd : x.1.type = TK_DIVIDE
        · left
          cases ys with
          | nil => rfl
          | cons y ys =>
            have h3 := hys y (List.mem_cons_self _ _)
            have h4 := (hys2 y (List.mem_cons_self _ _)).1
            have e5 : priority_of TK_DIVIDE = 5 := by decide
            simp only [hd, e5] at h3
            rcases priority_of_binary y.1.type h4 with h5 | h5 | h5 <;> omega
        · right; exact hd
      rw [combine_eq_applyOp _ _ _ _ vl vr hx.1 (by
        intro hd
        rcases hys3 with h | h
        · subst h
          simp only [opValues, List.map_nil, conventional_nil]
          exact hx.2.2.2 hd
        · exact absurd hd h)]
      rw [opValues_append, conventional_split _ _ _ _ _ hx.1
        (by
          intro y hy
          simp only [opValues, List.mem_map] at hy
          obtain ⟨z, hz, rfl⟩ := hy
          exact ⟨(hxs2 z hz).1, hxs z hz⟩)
        (by
          intro y hy
          simp only [opValues, List.mem_map] at hy
          obtain ⟨z, hz, rfl⟩ := hy
          exact ⟨(hys2 z hz).1, hys z hz⟩)]
      exact ⟨rfl, applyOp_lt _ _ _ vl⟩

/-- The pairs of a chain that starts the token array lie where `PairsAt`
expects them. -/
theorem PairsAt_of_append :
    ∀ (rest : List (Token × Token)) (pre junk : List Token),
      PairsAt (pre ++ flatPairs rest ++ junk) (pre.length : Nat) rest := by
  intro rest
  induction rest with
  | nil => intro pre junk; trivial
  | cons x rest ih =>
    intro pre junk
    refine ⟨?_, ?_, ?_⟩
    · rw [tokAt_natCast, List.append_assoc, List.getD_append_right _ _ _ _ (le_refl _)]
      simp [flatPairs]
    · rw [show ((pre.length : Nat) : Int) + 1 = ((pre.length + 1 : Nat) : Int) by push_cast; rfl,
        tokAt_natCast, List.append_assoc, List.getD_append_right _ _ _ _ (by omega)]
      simp [flatPairs]
    · have := ih (pre ++ [x.1, x.2]) junk
      simp only [List.length_append, List.length_cons, List.length_nil, flatPairs,
        List.append_assoc, List.cons_append, List.nil_append] at this ⊢
      convert this using 2


/-! ## check_parentheses -/

theorem check_parentheses_loop_pos (tokens : List Token) (q : Int) :
    ∀ (n : Nat) (i cur : Int), 0 < cur → i + n ≤ q →
      check_parentheses_loop tokens q n i cur = false := by
  intro n
  induction n with
  | zero =>
    intro i cur hc _
    simp only [check_parentheses_loop, beq_eq_false_iff_ne, ne_eq]
    omega
  | succ n ih =>
    intro i cur hc hi
    simp only [check_parentheses_loop]
    push_cast at hi
    split_ifs <;> first | rfl | exact ih _ _ (by omega) (by omega)

/-- The function `check_parentheses` rejects every range with a non-empty
interior: the counter starts at 0 on the token after the opening parenthesis. -/
theorem check_parentheses_interior (tokens : List Token) (p q : Int) (h : p + 1 < q) :
    check_parentheses tokens p q = false := by
  unfold check_parentheses
  split_ifs
  · rfl
  · obtain ⟨n, hn⟩ : ∃ n, (q - (p + 1)).toNat = n + 1 := ⟨(q - (p + 1)).toNat - 1, by omega⟩
    rw [hn]
    simp only [check_parentheses_loop]
    split_ifs <;> first | rfl | exact check_parentheses_loop_pos tokens q _ _ _ (by omega) (by omega)

/-! ## The output of make_token and the dereference pass -/

theorem first_match_mem :
    ∀ (l : List (List Item × Int)) (s : List Char) (n : Nat) (ty : Int),
      first_match l s = some (n, ty) → ty ∈ l.map Prod.snd := by
  intro l
  induction l with
  | nil => intro s n ty h; simp [first_match] at h
  | cons r l ih =>
    intro s n ty h
    obtain ⟨re, t⟩ := r
    simp only [first_match] at h
    cases hr : regexec re s with
    | none =>
      rw [hr] at h
      simp only [List.map_cons, List.mem_cons]
      exact Or.inr (ih s n ty h)
    | some m =>
      rw [hr] at h
      simp only [Option.some.injEq, Prod.mk.injEq] at h
      simp [h.2]

/-- No rule of the table produces a dereference token. -/
theorem first_match_not_deref (s : List Char) (n : Nat) (ty : Int)
    (h : first_match rules s = some (n, ty)) : ty ≠ TK_DEREF := by
  have := first_match_mem rules s n ty h
  simp only [rules, List.map_cons, List.map_nil, List.mem_cons, List.mem_singleton] at this
  simp only [TK_NOTYPE, TK_PLUS, TK_MINUS, TK_MULTIPLY, TK_DIVIDE, TK_LPAR, TK_RPAR, TK_HEX, TK_DEC,
    TK_REG, TK_EQ, TK_NEQ, TK_AND, TK_DEREF, List.mem_nil_iff, or_false] at this ⊢
  omega

theorem getD_set (l : List Token) (i j : Nat) (a : Token) (h : i < l.length) :
    (l.set i a).getD j Token.zero = if i = j then a else l.getD j Token.zero := by
  by_cases hij : i = j
  · subst hij; rw [if_pos rfl]; exact getD_set_self l i a h
  · rw [if_neg hij]; exact getD_set_ne l i j a hij

/-- What `make_token` leaves on success: at most 32 tokens, none of them a
dereference. -/
theorem make_token_loop_ok :
    ∀ (fuel : Nat) (s : List Char) (position : Nat) (b b1 : TokBuf),
      make_token_loop fuel s position b = some (LexResult.ok b1) →
      b.nr_token ≤ 32 → b.tokens.length = 32 →
      (∀ i, i < b.nr_token → (b.tokens.getD i Token.zero).type ≠ TK_DEREF) →
      b1.nr_token ≤ 32 ∧ b1.tokens.length = 32 ∧
        ∀ i, i < b1.nr_token → (b1.tokens.getD i Token.zero).type ≠ TK_DEREF := by
  intro fuel
  induction fuel with
  | zero => intro s position b b1 h; simp [make_token_loop] at h
  | succ fuel ih =>
    intro s position b b1 h hnr hlen hno
    rw [make_token_loop] at h
    by_cases hs : s = []
    · rw [if_pos hs] at h
      simp only [Option.some.injEq, LexResult.ok.injEq] at h
      subst h
      exact ⟨hnr, hlen, hno⟩
    · rw [if_neg hs] at h
      cases hm : first_match rules s with
      | none => rw [hm] at h; simp at h
      | some r =>
        obtain ⟨substr_len, type⟩ := r
        have hty := first_match_not_deref s substr_len type hm
        rw [hm] at h
        simp only at h
        by_cases h1 : type = TK_NOTYPE
        · rw [if_pos h1] at h
          exact ih _ _ _ _ h hnr hlen hno
        · rw [if_neg h1] at h
          by_cases h2 : b.nr_token ≥ 32
          · rw [if_pos h2] at h; simp at h
          · rw [if_neg h2] at h
            have hstore : ∀ (str : List Char) (i : Nat), i < b.nr_token + 1 →
                ((b.tokens.set b.nr_token ⟨type, str⟩).getD i Token.zero).type ≠ TK_DEREF := by
              intro str i hi
              rw [getD_set _ _ _ _ (by omega)]
              split_ifs with h4
              · exact hty
              · exact hno i (by omega)
            by_cases h3 : type = TK_DEC ∨ type = TK_HEX ∨ type = TK_REG
            · rw [if_pos h3] at h
              exact ih _ _ _ _ h (by simp only; omega) (by simp [hlen]) (hstore _)
            · rw [if_neg h3] at h
              exact ih _ _ _ _ h (by simp only; omega) (by simp [hlen]) (hstore _)

theorem make_token_ok (b b1 : TokBuf) (e : List Char) (hb : b.tokens.length = 32)
    (h : make_token b e = some (LexResult.ok b1)) :
    b1.nr_token ≤ 32 ∧ b1.tokens.length = 32 ∧
      ∀ i, i < b1.nr_token → (b1.tokens.getD i Token.zero).type ≠ TK_DEREF :=
  make_token_loop_ok _ _ _ _ _ h (by simp) hb (by simp)

theorem deref_pass_succ (tokens : List Token) (k : Nat) :
    deref_pass tokens (k + 1) = deref_step (deref_pass tokens k) k := by
  simp [deref_pass, List.range_succ, List.foldl_append]

/-- The state of the dereference pass after `k` iterations. -/
theorem deref_pass_inv (tokens : List Token) (n : Nat) (hn : n ≤ tokens.length)
    (hno : ∀ i, i < n → (tokens.getD i Token.zero).type ≠ TK_DEREF) :
    ∀ k, k ≤ n →
      (deref_pass tokens k).length = tokens.length ∧
      (∀ i, k ≤ i → (deref_pass tokens k).getD i Token.zero = tokens.getD i Token.zero) ∧
      (∀ i, i < k →
        (((deref_pass tokens k).getD i Token.zero).type = TK_DEREF ↔
          (tokens.getD i Token.zero).type = TK_MULTIPLY ∧
            (i = 0 ∨ deref_context ((deref_pass tokens k).getD (i - 1) Token.zero).type = true)) ∧
        (((deref_pass tokens k).getD i Token.zero).type ≠ TK_DEREF →
          (deref_pass tokens k).getD i Token.zero = tokens.getD i Token.zero) ∧
        ((deref_pass tokens k).getD i Token.zero).str = (tokens.getD i Token.zero).str) := by
  intro k
  induction k with
  | zero =>
    intro _
    exact ⟨rfl, fun _ _ => rfl, fun i hi => absurd hi (by omega)⟩
  | succ k ih =>
    intro hk
    obtain ⟨h1, h2, h3⟩ := ih (by omega)
    rw [deref_pass_succ]
    generalize deref_pass tokens k = T at h1 h2 h3 ⊢
    have hTk : T.getD k Token.zero = tokens.getD k Token.zero := h2 k (le_refl _)
    have hkT : k < T.length := by omega
    have hnd : (tokens.getD k Token.zero).type ≠ TK_DEREF := hno k (by omega)
    by_cases hd : (T.getD k Token.zero).type = TK_MULTIPLY ∧
        (k = 0 ∨ deref_context (T.getD (k - 1) Token.zero).type = true)
    · -- the token becomes a dereference
      have hstep : deref_step T k = T.set k ⟨TK_DEREF, (T.getD k Token.zero).str⟩ := by
        unfold deref_step
        rw [if_pos hd.1]
        by_cases hk0 : k = 0
        · simp only [hk0, if_true]
        · rcases hd.2 with h | h
          · exact absurd h hk0
          · simp only [if_neg hk0, h, if_true]
      rw [hstep]
      refine ⟨by simp [h1], ?_, ?_⟩
      · intro i hi
        rw [getD_set _ _ _ _ hkT, if_neg (by omega)]
        exact h2 i (by omega)
      · intro i hi
        rw [getD_set _ _ _ _ hkT, getD_set _ _ _ _ hkT]
        by_cases hik : k = i
        · subst hik
          rw [if_pos rfl]
          refine ⟨⟨fun _ => ⟨by rw [← hTk]; exact hd.1, ?_⟩, fun _ => rfl⟩,
            fun h => absurd rfl h, by rw [hTk]⟩
          by_cases hk0 : k = 0
          · exact Or.inl hk0
          · rw [if_neg (by omega)]
            rcases hd.2 with h | h
            · exact absurd h hk0
            · exact Or.inr h
        · rw [if_neg hik, if_neg (by omega)]
          exact h3 i (by omega)
    · -- the token stays as it is
      have hstep : deref_step T k = T := by
        unfold deref_step
        by_cases hm : (T.getD k Token.zero).type = TK_MULTIPLY
        · rw [if_pos hm]
          have h := fun h => hd ⟨hm, h⟩
          by_cases hk0 : k = 0
          · exact absurd (Or.inl hk0) h
          · have : deref_context (T.getD (k - 1) Token.zero).type = false := by
              cases hc : deref_context (T.getD (k - 1) Token.zero).type with
              | false => rfl
              | true => exact absurd (Or.inr hc) h
            simp only [if_neg hk0, this, Bool.false_eq_true, if_false]
        · rw [if_neg hm]
      rw [hstep]
      refine ⟨h1, fun i hi => h2 i (by omega), ?_⟩
      intro i hi
      by_cases hik : i = k
      · subst hik
        rw [hTk] at hd ⊢
        exact ⟨⟨fun h => absurd h hnd, fun h => absurd h hd⟩, fun _ => rfl, rfl⟩
      · exact h3 i (by omega)


theorem flatPairs_length (rest : List (Token × Token)) :
    (flatPairs rest).length = 2 * rest.length := by
  induction rest with
  | nil => rfl
  | cons x rest ih => simp only [flatPairs, List.length_cons, ih]; omega


/-! ## expr on particular texts -/

/-- The value of `expr` on a text that `make_token` accepts is that of `eval`
over all tokens after the dereference pass. -/
theorem expr_value_eq_eval (env : Env) (b b1 : TokBuf) (e : List Char)
    (h : make_token b e = some (LexResult.ok b1)) :
    expr_value env b e
      = eval env (deref_pass b1.tokens b1.nr_token) 0 ((b1.nr_token : Int) - 1) true := by
  obtain ⟨r, hr⟩ := eval_total env (deref_pass b1.tokens b1.nr_token) 0 ((b1.nr_token : Int) - 1) true
  simp only [expr_value, expr, h, hr, Option.bind, ExprResult.value]

/-- The function `make_token` on the text of a sequence of lexer tokens. -/
theorem make_token_spaced (gap : Nat → Nat) (ts : List Token) (b : TokBuf)
    (hb : b.tokens.length = 32) (hlen : ts.length ≤ 32) (hts : ∀ t ∈ ts, lexerToken t = true)
    (hadj : noAdjacentText ts = true) :
    ∃ b1, make_token b (spaced gap 0 ts) = some (LexResult.ok b1) ∧
      b1.nr_token = ts.length ∧ b1.tokens.length = 32 ∧
      ∀ j, j < ts.length →
        b1.tokens.getD j Token.zero
          = storedToken (b.tokens.getD j Token.zero) (ts.getD j Token.zero) := by
  obtain ⟨b1, h1, h2, h3, _, h5⟩ := make_token_loop_spaced gap ts 0 0 ((spaced gap 0 ts).length + 1) 0
    ⟨b.tokens, 0⟩ hts hadj (by simpa using hlen) (by simp [hb]) (by omega)
  refine ⟨b1, ?_, by simpa using h2, by simpa [hb] using h3, ?_⟩
  · simpa [make_token] using h1
  · intro j hj
    simpa using h5 j hj

theorem deref_context_iff (type : Int) :
    deref_context type = true ↔
      type ∈ [TK_PLUS, TK_MINUS, TK_MULTIPLY, TK_DIVIDE, TK_LPAR, TK_EQ, TK_NEQ, TK_AND, TK_DEREF] := by
  simp [deref_context]

/-- A token that is no multiplication is left as it is by the dereference
pass, when the tokens hold no dereference before. -/
theorem deref_pass_keeps (tokens : List Token) (n : Nat) (hn : n ≤ tokens.length)
    (hno : ∀ i, i < n → (tokens.getD i Token.zero).type ≠ TK_DEREF) (i : Nat) (hi : i < n)
    (hm : (tokens.getD i Token.zero).type ≠ TK_MULTIPLY) :
    (deref_pass tokens n).getD i Token.zero = tokens.getD i Token.zero := by
  obtain ⟨_, _, h3⟩ := deref_pass_inv tokens n hn hno n (le_refl _)
  obtain ⟨h4, h5, _⟩ := h3 i hi
  apply h5
  intro h
  exact hm (h4.1 h).1

theorem storedToken_carries (old t : Token) (hc : carriesText t.type = true) :
    storedToken old t = t := by
  obtain ⟨ty, str⟩ := t
  simp only at hc
  simp [storedToken, hc]

theorem storedToken_type (old t : Token) : (storedToken old t).type = t.type := rfl

theorem isLiteral_lexerToken (t : Token) (h : isLiteral t = true) :
    lexerToken t = true ∧ carriesText t.type = true := by
  simp only [isLiteral, Bool.and_eq_true, Bool.decide_or, Bool.or_eq_true, decide_eq_true_eq] at h
  refine ⟨h.2, ?_⟩
  rcases h.1 with h1 | h1 <;> simp [carriesText, h1]

/-- A division whose right operand evaluates to 0 fails. -/
theorem eval_divide_zero (env : Env) (tokens : List Token) (p q : Int) (hpq : p < q)
    (hcp : check_parentheses tokens p q = false)
    (hop : (tokAt tokens (dominant_op tokens p q)).type = TK_DIVIDE)
    (hr : eval env tokens (dominant_op tokens p q + 1) q true = some (0, true)) :
    eval env tokens p q true = some (0, false) := by
  have hne : dominant_op tokens p q ≠ -1 := by
    intro h
    rw [h] at hop
    exact absurd hop (by simp [tokAt, Token.zero])
  obtain ⟨r1, h1⟩ := eval_total env tokens p (dominant_op tokens p q - 1) true
  rw [eval_step env tokens p q hpq, hcp]
  simp only [Bool.false_eq_true, if_false, if_neg hne, hop,
    show ¬ (TK_DIVIDE = TK_DEREF) by decide, h1, Option.bind]
  obtain ⟨v1, s1⟩ := r1
  cases s1 with
  | true => simp only [hr]; rfl
  | false => simp only [eval_false]; rfl

/-- A division whose operands evaluate, the right one to a non-zero word,
yields the floor quotient. -/
theorem eval_divide_quotient (env : Env) (tokens : List Token) (p q : Int) (hpq : p < q)
    (hcp : check_parentheses tokens p q = false)
    (hop : (tokAt tokens (dominant_op tokens p q)).type = TK_DIVIDE) (v1 v2 : Nat)
    (hl : eval env tokens p (dominant_op tokens p q - 1) true = some (v1, true))
    (hr : eval env tokens (dominant_op tokens p q + 1) q true = some (v2, true))
    (hv : v2 ≠ 0) :
    eval env tokens p q true = some (v1 / v2, true) := by
  have hne : dominant_op tokens p q ≠ -1 := by
    intro h
    rw [h] at hop
    exact absurd hop (by simp [tokAt, Token.zero])
  rw [eval_step env tokens p q hpq, hcp]
  simp only [Bool.false_eq_true, if_false, if_neg hne, hop,
    show ¬ (TK_DIVIDE = TK_DEREF) by decide, hl, hr, Option.bind]
  simp [combine, hv]


theorem lexeme_carries (t : Token) (h : carriesText t.type = true) : lexeme t = t.str := by
  unfold lexeme
  rw [if_pos h]

theorem scan_step_deref_init (tokens : List Token) (i : Int)
    (h : (tokAt tokens i).type = TK_DEREF) :
    scan_step tokens ⟨-1, 1000, 0⟩ i = ⟨i, 10, 0⟩ := by
  simp [scan_step, h, priority_of]

/-- The text `*A` for a literal `A`: one read of memory at the value of `A`. -/
theorem expr_deref_literal (env : Env) (b : TokBuf) (A : Token) (hb : b.tokens.length = 32)
    (hA : isLiteral A = true) (hv : literalValue A < WORD) :
    expr_value env b ('*' :: A.str) = some (env.paddr_read (literalValue A) 4 % WORD, true) := by
  obtain ⟨hlexA, hcA⟩ := isLiteral_lexerToken A hA
  have hAm : A.type ≠ TK_MULTIPLY := by
    rcases isLiteral_type A hA with h | h <;> rw [h] <;> decide
  have hs : spaced (fun _ => 0) 0 [⟨TK_MULTIPLY, []⟩, A] = '*' :: A.str := by
    show lexeme _ ++ List.replicate 0 _ ++ lexeme A = _
    rw [lexeme_carries A hcA]
    rfl
  obtain ⟨b1, h1, h2, h3, h4⟩ := make_token_spaced (fun _ => 0) [⟨TK_MULTIPLY, []⟩, A] b hb
    (by simp) (by
      intro t ht
      simp only [List.mem_cons, List.mem_singleton, List.not_mem_nil, or_false] at ht
      rcases ht with rfl | rfl
      · decide
      · exact hlexA) (by simp [noAdjacentText, carriesText])
  obtain ⟨_, _, hno⟩ := make_token_ok b b1 _ hb h1
  rw [hs] at h1
  rw [expr_value_eq_eval env b b1 _ h1, h2]
  simp only [List.length_cons, List.length_nil] at h2 h4 ⊢
  rw [h2] at hno
  have g0 := congrArg Token.type (h4 0 (by omega))
  have g1 : b1.tokens.getD 1 Token.zero = A := by
    rw [h4 1 (by omega)]; exact storedToken_carries _ _ hcA
  simp only [List.getD_cons_zero, storedToken_type] at g0
  obtain ⟨_, _, hinv⟩ := deref_pass_inv b1.tokens 2 (by omega) hno 2 (le_refl _)
  have k0 : ((deref_pass b1.tokens 2).getD 0 Token.zero).type = TK_DEREF :=
    ((hinv 0 (by omega)).1).2 ⟨g0, Or.inl rfl⟩
  have k1 : (deref_pass b1.tokens 2).getD 1 Token.zero = A := by
    rw [deref_pass_keeps b1.tokens 2 (by omega) hno 1 (by omega) (by rw [g1]; exact hAm), g1]
  generalize deref_pass b1.tokens 2 = T at k0 k1 ⊢
  have t0 : tokAt T 0 = T.getD 0 Token.zero := by simp [tokAt]
  have t1 : tokAt T 1 = A := by rw [← k1]; simp [tokAt]
  have hcp : check_parentheses T 0 1 = false :=
    check_parentheses_not_lpar T 0 1 (by rw [t0, k0]; decide)
  have hop : dominant_op T 0 1 = 0 := by
    show (scan_step T (scan_step T ⟨-1, 1000, 0⟩ 0) (0 + 1)).op = 0
    rw [scan_step_deref_init T 0 (by rw [t0, k0]),
      scan_step_literal T _ (0 + 1) (by
        rw [show (0 : Int) + 1 = 1 by rfl, t1]; exact isLiteral_type A hA)]
  have e : ((0 + 1 + 1 : Nat) : Int) - 1 = 1 := by norm_num
  rw [e, eval_step env T 0 1 (by decide), hcp, hop]
  simp only [Bool.false_eq_true, if_false, show ¬ ((0 : Int) = -1) by decide, t0, k0, if_true]
  rw [show (0 : Int) + 1 = 1 by rfl, eval_single, t1, eval_atom_literal env A hA hv]
  rfl

theorem first_match_literal (hex : Bool) (s rest : List Char) (hs : isLiteralText hex s = true)
    (hr : ∀ c, rest.head? = some c → isAlnum c = false) :
    first_match rules (s ++ rest) = some (s.length, literalType hex) ∧ 0 < s.length := by
  cases hex with
  | false =>
    simp only [isLiteralText, Bool.false_eq_true, if_false, Bool.and_eq_true, Bool.not_eq_true',
      List.isEmpty_eq_false, List.all_eq_true] at hs
    have hne : s ≠ [] := by simpa using hs.1
    refine ⟨first_match_dec s rest hne hs.2 hr, ?_⟩
    cases s with
    | nil => exact absurd rfl hne
    | cons _ _ => simp
  | true =>
    match s, hs with
    | z :: x :: d :: ds, hs =>
      simp only [isLiteralText, if_true, Bool.and_eq_true, decide_eq_true_eq,
        List.all_eq_true] at hs
      obtain ⟨⟨hz, hx⟩, hds⟩ := hs
      subst hz
      exact ⟨first_match_hex x (d :: ds) rest hx (by simp) hds hr, by simp⟩

/-- One iteration of the loop of `make_token` on a literal of any length:
the token holds at most the first 31 characters. -/
theorem make_token_loop_literal (fuel : Nat) (hex : Bool) (s rest : List Char) (position : Nat)
    (b : TokBuf) (hs : isLiteralText hex s = true) (hb : b.nr_token < 32)
    (hr : ∀ c, rest.head? = some c → isAlnum c = false) :
    make_token_loop (fuel + 1) (s ++ rest) position b =
      make_token_loop fuel rest (position + s.length)
        ⟨b.tokens.set b.nr_token ⟨literalType hex, s.take 31⟩, b.nr_token + 1⟩ := by
  obtain ⟨hm, hpos⟩ := first_match_literal hex s rest hs hr
  have hne : s ++ rest ≠ [] := by
    intro h
    have h4 := congrArg List.length h
    rw [List.length_append, List.length_nil] at h4
    omega
  have hty : literalType hex ≠ TK_NOTYPE := by cases hex <;> decide
  have hty2 : literalType hex = TK_DEC ∨ literalType hex = TK_HEX ∨ literalType hex = TK_REG := by
    cases hex <;> decide
  rw [make_token_loop, if_neg hne, hm]
  simp only [if_neg hty, if_neg (show ¬ b.nr_token ≥ 32 by omega), if_pos hty2, List.drop_left]
  have htake : List.take (if s.length ≥ 32 then 31 else s.length) (s ++ rest) = s.take 31 := by
    split_ifs with h
    · rw [List.take_append_of_le_length (by omega)]
    · rw [List.take_left, List.take_of_length_le (by omega)]
  rw [htake]

/-- The first 31 characters of a literal are a literal. -/
theorem isLiteral_take (hex : Bool) (s : List Char) (hs : isLiteralText hex s = true) :
    isLiteral ⟨literalType hex, s.take 31⟩ = true := by
  cases hex with
  | false =>
    simp only [isLiteralText, Bool.false_eq_true, if_false, Bool.and_eq_true, Bool.not_eq_true',
      List.isEmpty_eq_false, List.all_eq_true] at hs
    cases s with
    | nil => simp at hs
    | cons c cs =>
      simp only [isLiteral, literalType, lexerToken, Bool.false_eq_true, if_false, if_true,
        Bool.and_eq_true, Bool.decide_or, Bool.or_eq_true, decide_eq_true_eq, true_or,
        Bool.not_eq_true', List.isEmpty_eq_false, List.all_eq_true, true_and]
      refine ⟨⟨by simp, ?_⟩, by simp⟩
      intro d hd
      exact hs.2 d (List.mem_of_mem_take hd)
  | true =>
    match s, hs with
    | z :: x :: d :: ds, hs =>
      simp only [isLiteralText, if_true, Bool.and_eq_true, decide_eq_true_eq,
        List.all_eq_true] at hs
      obtain ⟨⟨hz, hx⟩, hds⟩ := hs
      have e : List.take 31 (z :: x :: d :: ds) = z :: x :: d :: ds.take 28 := by simp
      rw [e]
      simp only [isLiteral, literalType, lexerToken, if_true, TK_HEX, TK_DEC,
        show ((261 : Int) = 260) = False by decide, if_false, Bool.and_eq_true, Bool.decide_or,
        Bool.or_eq_true, decide_eq_true_eq, or_true, true_and, List.all_eq_true]
      refine ⟨⟨⟨hz, hx⟩, ?_⟩, by simp⟩
      intro c hc
      rcases List.mem_cons.1 hc with h | h
      · exact hds c (by simp [h])
      · exact hds c (List.mem_cons_of_mem _ (List.mem_of_mem_take h))

/-- The evaluation of three tokens `a / 0` fails. -/
theorem eval_literal_div_zero (env : Env) (T : List Token)
    (t0 : isLiteral (tokAt T 0) = true) (t1 : (tokAt T 1).type = TK_DIVIDE)
    (t2 : tokAt T 2 = ⟨TK_DEC, ['0']⟩) : eval env T 0 2 true = some (0, false) := by
  have hcp : check_parentheses T 0 2 = false :=
    check_parentheses_not_lpar T 0 2 (by
      rcases isLiteral_type _ t0 with h | h <;> rw [h] <;> decide)
  have hop : dominant_op T 0 2 = 1 := by
    have := dominant_op_chain T 0 [] [] (tokAt T 1, tokAt T 2) t0
      ⟨rfl, rfl, trivial⟩ ⟨by simp only [t1]; decide, by simp only [t2]; decide⟩
      (by simp) (by simp)
    simpa using this
  apply eval_divide_zero env T 0 2 (by decide) hcp (by rw [hop]; exact t1)
  rw [hop, show (1 : Int) + 1 = 2 by rfl, eval_single, t2]
  rfl

/-- The text `a/0` for a literal `a` of any length: the division fails. -/
theorem expr_literal_text_div_zero (env : Env) (b : TokBuf) (hex : Bool) (s : List Char)
    (hb : b.tokens.length = 32) (hs : isLiteralText hex s = true) :
    expr_value env b (s ++ ['/', '0']) = some (0, false) := by
  have hspaced : spaced (fun _ => 0) 0 [⟨TK_DIVIDE, []⟩, ⟨TK_DEC, ['0']⟩] = ['/', '0'] := rfl
  obtain ⟨_, hpos⟩ := first_match_literal hex s [] hs (by simp)
  obtain ⟨b1, h1, h2, h3, h4, h5⟩ := make_token_loop_spaced (fun _ => 0)
    [⟨TK_DIVIDE, []⟩, ⟨TK_DEC, ['0']⟩] 0 0 (s.length + 2) (0 + s.length)
    ⟨b.tokens.set 0 ⟨literalType hex, s.take 31⟩, 0 + 1⟩
    (by
      intro t ht
      simp only [List.mem_cons, List.mem_singleton, List.not_mem_nil, or_false] at ht
      rcases ht with rfl | rfl <;> decide)
    (by decide) (by simp) (by simp [hb]) (by rw [hspaced]; simp; omega)
  rw [hspaced] at h1
  simp only [List.replicate_zero, List.nil_append] at h1
  have hmk : make_token b (s ++ ['/', '0']) = some (LexResult.ok b1) := by
    unfold make_token
    rw [show (s ++ ['/', '0']).length + 1 = (s.length + 2) + 1 by simp,
      make_token_loop_literal (s.length + 2) hex s ['/', '0'] 0 ⟨b.tokens, 0⟩ hs (by simp)
        (by intro c hc; simp at hc; subst hc; decide)]
    exact h1
  obtain ⟨_, _, hno⟩ := make_token_ok b b1 _ hb hmk
  rw [expr_value_eq_eval env b b1 _ hmk, h2]
  simp only [List.length_cons, List.length_nil] at h2 h5 ⊢
  rw [h2] at hno
  have g0 : b1.tokens.getD 0 Token.zero = ⟨literalType hex, s.take 31⟩ := by
    rw [h4 0 (by simp)]
    exact getD_set_self _ _ _ (by omega)
  have g1 := congrArg Token.type (h5 0 (by omega))
  have g2 : b1.tokens.getD 2 Token.zero = ⟨TK_DEC, ['0']⟩ := by
    have := h5 1 (by omega)
    simp only [zero_add, List.getD_cons_succ, List.getD_cons_zero] at this
    rw [this]; exact storedToken_carries _ _ rfl
  simp only [zero_add, add_zero, List.getD_cons_zero, storedToken_type] at g1
  have hlit := isLiteral_take hex s hs
  have ham : literalType hex ≠ TK_MULTIPLY := by cases hex <;> decide
  have k0 : (deref_pass b1.tokens 3).getD 0 Token.zero = ⟨literalType hex, s.take 31⟩ := by
    rw [deref_pass_keeps b1.tokens 3 (by omega) hno 0 (by omega) (by rw [g0]; exact ham), g0]
  have k1 : ((deref_pass b1.tokens 3).getD 1 Token.zero).type = TK_DIVIDE := by
    rw [deref_pass_keeps b1.tokens 3 (by omega) hno 1 (by omega) (by rw [g1]; decide), g1]
  have k2 : (deref_pass b1.tokens 3).getD 2 Token.zero = ⟨TK_DEC, ['0']⟩ := by
    rw [deref_pass_keeps b1.tokens 3 (by omega) hno 2 (by omega) (by rw [g2]; decide), g2]
  generalize deref_pass b1.tokens 3 = T at k0 k1 k2 ⊢
  have e : ((0 + 1 + 1 + 1 : Nat) : Int) - 1 = 2 := by norm_num
  rw [e]
  exact eval_literal_div_zero env T (by rw [show tokAt T 0 = T.getD 0 Token.zero by simp [tokAt], k0]; exact hlit)
    (by rw [← k1]; simp [tokAt]) (by rw [← k2]; simp [tokAt])


/-! ## make_token and expr return on every text -/

theorem spanLen_le (cls : Char → Bool) : ∀ s : List Char, spanLen cls s ≤ s.length := by
  intro s
  induction s with
  | nil => simp [spanLen]
  | cons c cs ih =>
    simp only [spanLen, List.length_cons]
    split_ifs <;> omega

/-- A match of a non-empty pattern takes at least one character of the text. -/
theorem regexec_bounds :
    ∀ (re : List Item) (s : List Char) (n : Nat), regexec re s = some n →
      n ≤ s.length ∧ (re ≠ [] → 0 < n) := by
  intro re
  induction re with
  | nil =>
    intro s n h
    rw [regexec_nil] at h
    simp only [Option.some.injEq] at h
    subst h
    exact ⟨Nat.zero_le _, fun h => absurd rfl h⟩
  | cons it rest ih =>
    intro s n h
    obtain ⟨cls, many⟩ := it
    cases many with
    | true =>
      rw [regexec_many] at h
      split_ifs at h with h0
      cases hr : regexec rest (s.drop (spanLen cls s)) with
      | none => rw [hr] at h; simp at h
      | some m =>
        rw [hr] at h
        simp only [Option.map_some', Option.some.injEq] at h
        have := (ih _ _ hr).1
        have hle := spanLen_le cls s
        rw [List.length_drop] at this
        exact ⟨by omega, fun _ => by omega⟩
    | false =>
      cases s with
      | nil => simp [regexec] at h
      | cons c cs =>
        rw [regexec_one] at h
        split_ifs at h
        cases hr : regexec rest cs with
        | none => rw [hr] at h; simp at h
        | some m =>
          rw [hr] at h
          simp only [Option.map_some', Option.some.injEq] at h
          have := (ih _ _ hr).1
          simp only [List.length_cons]
          exact ⟨by omega, fun _ => by omega⟩

theorem first_match_bounds :
    ∀ (l : List (List Item × Int)) (s : List Char) (n : Nat) (ty : Int),
      (∀ r ∈ l, r.1 ≠ []) → first_match l s = some (n, ty) → 0 < n ∧ n ≤ s.length := by
  intro l
  induction l with
  | nil => intro s n ty _ h; simp [first_match] at h
  | cons r l ih =>
    intro s n ty hne h
    obtain ⟨re, t⟩ := r
    simp only [first_match] at h
    cases hr : regexec re s with
    | none =>
      rw [hr] at h
      exact ih s n ty (fun r hr => hne r (List.mem_cons_of_mem _ hr)) h
    | some m =>
      rw [hr] at h
      simp only [Option.some.injEq, Prod.mk.injEq] at h
      obtain ⟨h1, h2⟩ := regexec_bounds re s m hr
      rw [← h.1]
      exact ⟨h2 (hne (re, t) (List.mem_cons_self _ _)), h1⟩

theorem rules_nonempty : ∀ r ∈ rules, r.1 ≠ [] := by
  intro r hr
  simp only [rules, List.mem_cons, List.mem_singleton, List.not_mem_nil, or_false] at hr
  rcases hr with h | h | h | h | h | h | h | h | h | h | h | h | h <;> subst h <;> simp [lit]

/-- The loop of `make_token` ends on every text: each iteration takes at
least one character. -/
theorem make_token_loop_total :
    ∀ (fuel : Nat) (s : List Char) (position : Nat) (b : TokBuf), s.length < fuel →
      ∃ r, make_token_loop fuel s position b = some r := by
  intro fuel
  induction fuel with
  | zero => intro s position b h; omega
  | succ fuel ih =>
    intro s position b h
    rw [make_token_loop]
    by_cases hs : s = []
    · rw [if_pos hs]; exact ⟨_, rfl⟩
    · rw [if_neg hs]
      cases hm : first_match rules s with
      | none => exact ⟨_, rfl⟩
      | some r =>
        obtain ⟨n, ty⟩ := r
        obtain ⟨h1, h2⟩ := first_match_bounds rules s n ty rules_nonempty hm
        have hlen : (s.drop n).length < fuel := by rw [List.length_drop]; omega
        simp only
        split_ifs <;> first | exact ih _ _ _ hlen | exact ⟨_, rfl⟩

/-- The function `make_token` returns on every text. -/
theorem make_token_total (b : TokBuf) (e : List Char) : ∃ r, make_token b e = some r :=
  make_token_loop_total _ _ _ _ (by omega)

/-- The function `expr` returns on every text. -/
theorem expr_total (env : Env) (b : TokBuf) (e : List Char) : ∃ r, expr env b e = some r := by
  obtain ⟨r, hr⟩ := make_token_total b e
  unfold expr
  rw [hr]
  cases r with
  | ok b1 =>
    obtain ⟨v, hv⟩ := eval_total env (deref_pass b1.tokens b1.nr_token) 0 ((b1.nr_token : Int) - 1) true
    simp only [hv]
    exact ⟨_, rfl⟩
  | noMatch position b1 => exact ⟨_, rfl⟩
  | overflow => exact ⟨_, rfl⟩


/-! ## The watchpoint pool: lists, the invariant of the reachable states -/

theorem getD_set_eq {α : Type} (l : List α) (i j : Nat) (a d : α) (h : i < l.length) :
    (l.set i a).getD j d = if i = j then a else l.getD j d := by
  by_cases hij : i = j
  · subst hij
    simp [List.getD_eq_getElem?_getD, List.getElem?_set_self, h]
  · simp [List.getD_eq_getElem?_getD, List.getElem?_set_ne hij, hij]

theorem getD_set_other {α : Type} (l : List α) (i j : Nat) (a d : α) (h : i ≠ j) :
    (l.set i a).getD j d = l.getD j d := by
  simp [List.getD_eq_getElem?_getD, List.getElem?_set_ne h]

/-- Nodes with the same links form the same lists. -/
theorem IsSeg_congr (nodes nodes1 : List WP) (hlen : nodes1.length = nodes.length) :
    ∀ (l : List Nat) (s t : Option Nat),
      (∀ j ∈ l, (nodes1.getD j WP.zero).next = (nodes.getD j WP.zero).next) →
      IsSeg nodes s l t → IsSeg nodes1 s l t := by
  intro l
  induction l with
  | nil => intro s t _ h; exact h
  | cons i l ih =>
    intro s t hn h
    obtain ⟨h1, h2, h3⟩ := h
    refine ⟨h1, by omega, ?_⟩
    rw [hn i (List.mem_cons_self _ _)]
    exact ih _ _ (fun j hj => hn j (List.mem_cons_of_mem _ hj)) h3

theorem IsSeg_append (nodes : List WP) :
    ∀ (l1 l2 : List Nat) (s t : Option Nat),
      IsSeg nodes s (l1 ++ l2) t ↔ ∃ m, IsSeg nodes s l1 m ∧ IsSeg nodes m l2 t := by
  intro l1
  induction l1 with
  | nil =>
    intro l2 s t
    simp only [List.nil_append, IsSeg]
    constructor
    · intro h; exact ⟨s, rfl, h⟩
    · rintro ⟨m, rfl, h⟩; exact h
  | cons i l1 ih =>
    intro l2 s t
    show (s = some i ∧ i < nodes.length ∧ IsSeg nodes (nodes.getD i WP.zero).next (l1 ++ l2) t) ↔
      ∃ m, (s = some i ∧ i < nodes.length ∧ IsSeg nodes (nodes.getD i WP.zero).next l1 m) ∧
        IsSeg nodes m l2 t
    rw [ih]
    constructor
    · rintro ⟨h1, h2, m, h3, h4⟩; exact ⟨m, ⟨h1, h2, h3⟩, h4⟩
    · rintro ⟨m, ⟨h1, h2, h3⟩, h4⟩; exact ⟨h1, h2, m, h3, h4⟩

/-- A pointer starts at most one list that ends with `NULL`. -/
theorem IsChain_unique (nodes : List WP) :
    ∀ (l l1 : List Nat) (s : Option Nat), IsChain nodes s l → IsChain nodes s l1 → l = l1 := by
  intro l
  induction l with
  | nil =>
    intro l1 s h h1
    cases l1 with
    | nil => rfl
    | cons j l1 =>
      simp only [IsChain, IsSeg] at h h1
      rw [h] at h1
      exact absurd h1.1 (by simp)
  | cons i l ih =>
    intro l1 s h h1
    cases l1 with
    | nil =>
      simp only [IsChain, IsSeg] at h h1
      rw [h1] at h
      exact absurd h.1 (by simp)
    | cons j l1 =>
      obtain ⟨a1, _, a3⟩ := h
      obtain ⟨b1, _, b3⟩ := h1
      rw [a1] at b1
      simp only [Option.some.injEq] at b1
      subst b1
      rw [ih l1 _ a3 b3]

theorem IsSeg_mem_lt (nodes : List WP) :
    ∀ (l : List Nat) (s t : Option Nat), IsSeg nodes s l t → ∀ i ∈ l, i < nodes.length := by
  intro l
  induction l with
  | nil => intro s t _ i hi; simp at hi
  | cons j l ih =>
    intro s t h i hi
    obtain ⟨_, h2, h3⟩ := h
    rcases List.mem_cons.1 hi with h4 | h4
    · subst h4; exact h2
    · exact ih _ _ h3 i h4

theorem first_unused_zeros : first_unused (List.replicate NR_WP 0) = some 0 := by decide

/-- The result of `new_wp()` on a non-empty free list: the free head becomes the
active head; `x` is the id it ends with. -/
theorem new_wp_eq (p : Pool) (wp : Nat) (hf : p.free_ = some wp) (hlt : wp < p.wp_pool.length) :
    ∃ x : Int, new_wp p = some (⟨(p.wp_pool.set wp { p.node wp with next := p.head }).set wp
      { p.node wp with next := p.head, NO := x }, some wp, (p.node wp).next, p.used_wp⟩, wp) ∧
      (p.used_wp = List.replicate NR_WP 0 → x = 1) := by
  cases hfu : first_unused p.used_wp with
  | none =>
    refine ⟨(p.node wp).NO, ?_, ?_⟩
    · simp only [new_wp, hf, hfu]
      rw [List.set_set]
    · intro hu
      rw [hu, first_unused_zeros] at hfu
      exact absurd hfu (by simp)
  | some i =>
    refine ⟨(i : Int) + 1, ?_, ?_⟩
    · simp only [new_wp, hf, hfu]
      rw [getD_set_eq _ _ _ _ _ hlt, if_pos rfl]
    · intro hu
      rw [hu, first_unused_zeros] at hfu
      simp only [Option.some.injEq] at hfu
      subst hfu
      rfl

theorem Partition_nodup (p : Pool) (active free : List Nat) (h : Partition p active free) :
    (active ++ free).Nodup :=
  (List.Perm.nodup_iff h.2.2).2 (List.nodup_range _)

/-- On a partitioned pool `new_wp()` moves the free head to the front of the
active list and touches no other node. -/
theorem new_wp_inv (p : Pool) (active f : List Nat) (wp : Nat)
    (hP : Partition p active (wp :: f)) :
    ∃ p1 x, new_wp p = some (p1, wp) ∧ p1.wp_pool.length = p.wp_pool.length ∧
      p1.used_wp = p.used_wp ∧ Partition p1 (wp :: active) f ∧ p1.head = some wp ∧
      (∀ j, j ≠ wp → p1.node j = p.node j) ∧
      p1.node wp = { p.node wp with next := p.head, NO := x } ∧
      (p.used_wp = List.replicate NR_WP 0 → x = 1) := by
  have hnd := Partition_nodup p active (wp :: f) hP
  obtain ⟨ha, hf, hperm⟩ := hP
  obtain ⟨hf1, hf2, hf3⟩ := hf
  obtain ⟨x, hx, hx1⟩ := new_wp_eq p wp hf1 hf2
  have hnode : ∀ j, ((p.wp_pool.set wp { p.node wp with next := p.head }).set wp
      { p.node wp with next := p.head, NO := x }).getD j WP.zero =
      if wp = j then { p.node wp with next := p.head, NO := x } else p.node j := by
    intro j
    rw [getD_set_eq _ _ _ _ _ (by simpa using hf2)]
    by_cases hj : wp = j
    · simp [hj]
    · rw [if_neg hj, if_neg hj, getD_set_other _ _ _ _ _ hj]; rfl
  have hwpa : wp ∉ active := by
    intro hmem
    have := List.nodup_append.1 hnd
    exact this.2.2 hmem (List.mem_cons_self _ _) 
  have hwpf : wp ∉ f := by
    have := (List.nodup_append.1 hnd).2.1
    exact (List.nodup_cons.1 this).1
  refine ⟨_, x, hx, by simp, rfl, ⟨?_, ?_, ?_⟩, rfl, ?_, ?_, hx1⟩
  · refine ⟨rfl, by simpa using hf2, ?_⟩
    show IsSeg _ (List.getD _ wp WP.zero).next active none
    rw [hnode wp, if_pos rfl]
    refine IsSeg_congr p.wp_pool _ (by simp) active _ _ ?_ ha
    intro j hj
    rw [hnode j, if_neg (fun (h : wp = j) => hwpa (h ▸ hj))]; rfl
  · refine IsSeg_congr p.wp_pool _ (by simp) f _ _ ?_ hf3
    intro j hj
    rw [hnode j, if_neg (fun (h : wp = j) => hwpf (h ▸ hj))]; rfl
  · refine List.Perm.trans ?_ hperm
    exact (List.perm_middle).symm
  · intro j hj
    show List.getD _ j WP.zero = _
    rw [hnode j, if_neg (fun h => hj h.symm)]
  · show List.getD _ wp WP.zero = _
    rw [hnode wp, if_pos rfl]

theorem new_wp_none_iff (p : Pool) : new_wp p = none ↔ p.free_ = none := by
  unfold new_wp
  cases h : p.free_ with
  | none => simp
  | some wp => simp

theorem release_eq (nodes : List WP) (head : Option Nat) (p : Pool) (wp : Nat)
    (h : 1 ≤ (nodes.getD wp WP.zero).NO ∧ (nodes.getD wp WP.zero).NO ≤ (NR_WP : Int)) :
    release nodes head p wp =
      some (⟨nodes.set wp { nodes.getD wp WP.zero with next := p.free_, expr := [] }, head, some wp,
        p.used_wp.set ((nodes.getD wp WP.zero).NO - 1).toNat 0⟩, FreeReport.freed) := by
  simp only [release, if_pos h]

theorem set_zeros (n k : Nat) : (List.replicate n 0).set k 0 = List.replicate n 0 := by
  apply List.ext_getElem?
  intro i
  by_cases h : k = i
  · subst h
    by_cases hk : k < n
    · simp [List.getElem?_set_self, hk]
    · simp [List.getElem?_set, hk]
  · simp [List.getElem?_set_ne h]

/-- A list that ends with `NULL` has no repeated node. -/
theorem IsChain_nodup (nodes : List WP) :
    ∀ (l : List Nat) (s : Option Nat), IsChain nodes s l → l.Nodup := by
  intro l
  induction l with
  | nil => intro s _; exact List.nodup_nil
  | cons i l ih =>
    intro s h
    obtain ⟨h1, h2, h3⟩ := h
    refine List.nodup_cons.2 ⟨?_, ih _ h3⟩
    intro hmem
    obtain ⟨l1, l2, hl⟩ := List.append_of_mem hmem
    have h4 : IsSeg nodes (nodes.getD i WP.zero).next (l1 ++ i :: l2) none := hl ▸ h3
    obtain ⟨m, _, h6⟩ := (IsSeg_append nodes l1 (i :: l2) _ _).1 h4
    have h7 : IsChain nodes (some i) (i :: l2) := ⟨rfl, h6.2.1, h6.2.2⟩
    have h8 : IsChain nodes (some i) (i :: l) := ⟨rfl, h2, h3⟩
    have h9 := IsChain_unique nodes _ _ _ h7 h8
    have h10 : l2.length = l.length := by
      have := congrArg List.length h9
      simpa using this
    rw [hl] at h10
    simp at h10
    omega

theorem IsChain_length_le (nodes : List WP) (l : List Nat) (s : Option Nat)
    (h : IsChain nodes s l) : l.length ≤ nodes.length := by
  have hnd := IsChain_nodup nodes l s h
  have hsub : l ⊆ List.range nodes.length := by
    intro i hi
    exact List.mem_range.2 (IsSeg_mem_lt nodes l s none h i hi)
  have := (List.subperm_of_subset hnd hsub).length_le
  simpa using this

theorem find_prev_none (nodes : List WP) (free_no : Int) :
    ∀ (l : List Nat) (prev fuel : Nat), IsSeg nodes (some prev) (prev :: l) none →
      (∀ j ∈ l, (nodes.getD j WP.zero).NO ≠ free_no) → l.length < fuel →
      ∃ q, find_prev nodes free_no fuel prev = some q ∧ (nodes.getD q WP.zero).next = none := by
  intro l
  induction l with
  | nil =>
    intro prev fuel h _ hfuel
    obtain ⟨_, _, h3⟩ := h
    cases fuel with
    | zero => simp at hfuel
    | succ fuel =>
      refine ⟨prev, ?_, h3⟩
      have h4 : (nodes.getD prev WP.zero).next = none := h3
      simp only [find_prev, h4]
  | cons n l ih =>
    intro prev fuel h hno hfuel
    obtain ⟨_, _, h3, h4, h5⟩ := h
    cases fuel with
    | zero => simp at hfuel
    | succ fuel =>
      have h6 : (nodes.getD prev WP.zero).next = some n := h3
      have h7 := hno n (List.mem_cons_self _ _)
      obtain ⟨q, hq1, hq2⟩ := ih n fuel ⟨rfl, h4, h5⟩
        (fun j hj => hno j (List.mem_cons_of_mem _ hj)) (by simpa using hfuel)
      refine ⟨q, ?_, hq2⟩
      simp only [find_prev, h6, if_pos h7, hq1]

theorem find_prev_found (nodes : List WP) (free_no : Int) (n : Nat) (l2 : List Nat)
    (t : Option Nat) (hn : (nodes.getD n WP.zero).NO = free_no) :
    ∀ (l1 : List Nat) (prev fuel : Nat), IsSeg nodes (some prev) (prev :: l1 ++ n :: l2) t →
      (∀ j ∈ l1, (nodes.getD j WP.zero).NO ≠ free_no) → l1.length < fuel →
      ∃ q l0, find_prev nodes free_no fuel prev = some q ∧ prev :: l1 = l0 ++ [q] ∧
        (nodes.getD q WP.zero).next = some n := by
  intro l1
  induction l1 with
  | nil =>
    intro prev fuel h _ hfuel
    obtain ⟨_, _, h3, _, _⟩ := h
    cases fuel with
    | zero => simp at hfuel
    | succ fuel =>
      have h6 : (nodes.getD prev WP.zero).next = some n := h3
      refine ⟨prev, [], ?_, rfl, h6⟩
      simp only [find_prev, h6, hn, ne_eq, not_true_eq_false, if_false]
  | cons m l1 ih =>
    intro prev fuel h hno hfuel
    obtain ⟨_, _, h3, h4, h5⟩ := h
    cases fuel with
    | zero => simp at hfuel
    | succ fuel =>
      have h6 : (nodes.getD prev WP.zero).next = some m := h3
      have h7 := hno m (List.mem_cons_self _ _)
      obtain ⟨q, l0, hq1, hq2, hq3⟩ := ih m fuel ⟨rfl, h4, h5⟩
        (fun j hj => hno j (List.mem_cons_of_mem _ hj)) (by simpa using hfuel)
      refine ⟨q, prev :: l0, ?_, ?_, hq3⟩
      · simp only [find_prev, h6, if_pos h7, hq1]
      · rw [hq2]; rfl

/-- Unlinking the node after `q` keeps the rest of the list in order. -/
theorem IsSeg_unlink (nodes nodes1 : List WP) (hlen : nodes1.length = nodes.length)
    (l0 l2 : List Nat) (q n : Nat) (s : Option Nat)
    (h : IsSeg nodes s (l0 ++ q :: n :: l2) none) (hnd : (l0 ++ q :: n :: l2).Nodup)
    (hq : (nodes1.getD q WP.zero).next = (nodes.getD n WP.zero).next)
    (hrest : ∀ j, j ≠ q → j ≠ n → (nodes1.getD j WP.zero).next = (nodes.getD j WP.zero).next) :
    IsSeg nodes1 s (l0 ++ q :: l2) none := by
  obtain ⟨m, h1, h2⟩ := (IsSeg_append nodes _ _ _ _).1 h
  obtain ⟨h3, h4, h5, h6, h7⟩ := h2
  have hnd1 := List.nodup_append.1 hnd
  have hnd2 := List.nodup_cons.1 hnd1.2.1
  have hnd3 := List.nodup_cons.1 hnd2.2
  refine (IsSeg_append nodes1 _ _ _ _).2 ⟨m, ?_, h3, by omega, ?_⟩
  · refine IsSeg_congr nodes nodes1 hlen l0 _ _ ?_ h1
    intro j hj
    refine hrest j ?_ ?_
    · rintro rfl; exact hnd1.2.2 hj (List.mem_cons_self _ _)
    · rintro rfl; exact hnd1.2.2 hj (List.mem_cons_of_mem _ (List.mem_cons_self _ _))
  · rw [hq]
    refine IsSeg_congr nodes nodes1 hlen l2 _ _ ?_ h7
    intro j hj
    refine hrest j ?_ ?_
    · rintro rfl; exact hnd2.1 (List.mem_cons_of_mem _ hj)
    · rintro rfl; exact hnd3.1 hj

/-- Deleting an id that no active node carries changes nothing. -/
theorem free_wp_absent (p : Pool) (active : List Nat) (free_no : Int)
    (hlen : p.wp_pool.length = NR_WP) (ha : IsChain p.wp_pool p.head active)
    (hno : ∀ i ∈ active, (p.node i).NO ≠ free_no) :
    (active = [] ∧ free_wp p free_no = some (p, FreeReport.noActive)) ∨
      (active ≠ [] ∧ free_wp p free_no = some (p, FreeReport.notInList)) := by
  have hle := IsChain_length_le _ _ _ ha
  cases active with
  | nil =>
    left
    have h : p.head = none := ha
    exact ⟨rfl, by simp only [free_wp, h]⟩
  | cons h rest =>
    right
    refine ⟨by simp, ?_⟩
    obtain ⟨h1, h2, h3⟩ := ha
    have h4 := hno h (List.mem_cons_self _ _)
    obtain ⟨q, hq1, hq2⟩ := find_prev_none p.wp_pool free_no rest h NR_WP ⟨rfl, h2, h3⟩
      (fun j hj => hno j (List.mem_cons_of_mem _ hj)) (by simp at hle; omega)
    have hq3 : (p.node q).next = none := hq2
    simp only [free_wp, h1, if_neg h4, hq1, hq3]

/-- Deleting an id that an active node carries unlinks the first such node and
pushes it on the free list. -/
theorem free_wp_found (p : Pool) (l1 l2 free : List Nat) (n : Nat) (free_no : Int)
    (hP : Partition p (l1 ++ n :: l2) free)
    (hl1 : ∀ j ∈ l1, (p.node j).NO ≠ free_no) (hn : (p.node n).NO = free_no)
    (hid : 1 ≤ free_no ∧ free_no ≤ (NR_WP : Int)) :
    ∃ p1, free_wp p free_no = some (p1, FreeReport.freed) ∧
      p1.wp_pool.length = p.wp_pool.length ∧
      p1.used_wp = p.used_wp.set (free_no - 1).toNat 0 ∧
      Partition p1 (l1 ++ l2) (n :: free) ∧
      p1.node n = { p.node n with next := p.free_, expr := [] } ∧
      (∀ j, j ≠ n → (p1.node j).NO = (p.node j).NO ∧ (p1.node j).expr = (p.node j).expr ∧
        (p1.node j).val = (p.node j).val ∧ (p1.node j).old_val = (p.node j).old_val) := by
  have hnd := Partition_nodup _ _ _ hP
  obtain ⟨ha, hf, hperm⟩ := hP
  have hlenle : (l1 ++ n :: l2 ++ free).length = NR_WP := by
    rw [hperm.length_eq]; simp
  have hnd1 := List.nodup_append.1 hnd
  have hnfree : n ∉ free := fun hmem => hnd1.2.2 (by simp) hmem
  have hnlt : n < p.wp_pool.length := IsSeg_mem_lt _ _ _ _ ha n (by simp)
  have hperm1 : (l1 ++ l2 ++ n :: free).Perm (List.range NR_WP) := by
    refine List.Perm.trans ?_ hperm
    have h1 : (l1 ++ l2 ++ n :: free).Perm (n :: (l1 ++ l2 ++ free)) := List.perm_middle
    have h2 : (l1 ++ n :: l2 ++ free).Perm (n :: (l1 ++ l2 ++ free)) := by
      have : l1 ++ n :: l2 ++ free = l1 ++ n :: (l2 ++ free) := by simp
      rw [this]
      have h3 : (l1 ++ n :: (l2 ++ free)).Perm (n :: (l1 ++ (l2 ++ free))) := List.perm_middle
      simp
    exact h1.trans h2.symm
  cases l1 with
  | nil =>
    obtain ⟨h1, h2, h3⟩ := ha
    have hw : 1 ≤ (p.wp_pool.getD n WP.zero).NO ∧ (p.wp_pool.getD n WP.zero).NO ≤ (NR_WP : Int) := by
      have : (p.wp_pool.getD n WP.zero).NO = free_no := hn
      rw [this]; exact hid
    have hnl2 : n ∉ l2 := (List.nodup_cons.1 hnd1.1).1
    have hnode : ∀ j, (p.wp_pool.set n { p.wp_pool.getD n WP.zero with next := p.free_, expr := [] }).getD j WP.zero =
        if n = j then { p.node n with next := p.free_, expr := [] } else p.node j := by
      intro j
      rw [getD_set_eq _ _ _ _ _ hnlt]; rfl
    refine ⟨⟨p.wp_pool.set n { p.wp_pool.getD n WP.zero with next := p.free_, expr := [] },
      (p.node n).next, some n, p.used_wp.set ((p.wp_pool.getD n WP.zero).NO - 1).toNat 0⟩,
      ?_, ?_, ?_, ⟨?_, ⟨rfl, by simpa using hnlt, ?_⟩, hperm1⟩, ?_, ?_⟩
    · simp only [free_wp, h1, hn, if_true]
      exact release_eq _ _ _ _ hw
    · simp
    · show p.used_wp.set ((p.wp_pool.getD n WP.zero).NO - 1).toNat 0 = _
      have : (p.wp_pool.getD n WP.zero).NO = free_no := hn
      rw [this]
    · show IsSeg _ (p.node n).next ([] ++ l2) none
      refine IsSeg_congr p.wp_pool _ (by simp) l2 _ _ ?_ h3
      intro j hj
      rw [hnode j, if_neg (fun (h : n = j) => hnl2 (h ▸ hj))]; rfl
    · show IsSeg _ (List.getD _ n WP.zero).next free none
      rw [hnode n, if_pos rfl]
      refine IsSeg_congr p.wp_pool _ (by simp) free _ _ ?_ hf
      intro j hj
      rw [hnode j, if_neg (fun (h : n = j) => hnfree (h ▸ hj))]; rfl
    · show List.getD _ n WP.zero = _
      rw [hnode n, if_pos rfl]
    · intro j hj
      show (List.getD _ j WP.zero).NO = _ ∧ (List.getD _ j WP.zero).expr = _ ∧
        (List.getD _ j WP.zero).val = _ ∧ (List.getD _ j WP.zero).old_val = _
      rw [hnode j, if_neg (fun h => hj h.symm)]
      exact ⟨rfl, rfl, rfl, rfl⟩
  | cons h l1 =>
    have ha0 := ha
    obtain ⟨h1, h2, h3⟩ := ha
    have h4 := hl1 h (List.mem_cons_self _ _)
    obtain ⟨q, l0, hq1, hq2, hq3⟩ := find_prev_found p.wp_pool free_no n l2 none hn l1 h NR_WP
      ⟨rfl, h2, h3⟩ (fun j hj => hl1 j (List.mem_cons_of_mem _ hj))
      (by simp at hlenle; omega)
    have hq4 : (p.node q).next = some n := hq3
    have hact : h :: l1 ++ n :: l2 = l0 ++ q :: n :: l2 := by
      rw [hq2]; simp
    rw [hact] at ha0 hnd1
    have hnd2 := List.nodup_append.1 hnd1.1
    have hnd3 := List.nodup_cons.1 hnd2.2.1
    have hqn : q ≠ n := by
      rintro rfl; exact hnd3.1 (List.mem_cons_self _ _)
    have hqlt : q < p.wp_pool.length := IsSeg_mem_lt _ _ _ _ ha0 q (by simp)
    have hw0 : (p.wp_pool.set q { p.node q with next := (p.node n).next }).getD n WP.zero = p.node n :=
      getD_set_other _ _ _ _ _ hqn
    have hw : 1 ≤ ((p.wp_pool.set q { p.node q with next := (p.node n).next }).getD n WP.zero).NO ∧
        ((p.wp_pool.set q { p.node q with next := (p.node n).next }).getD n WP.zero).NO ≤ (NR_WP : Int) := by
      rw [hw0, hn]; exact hid
    have hnode : ∀ j, ((p.wp_pool.set q { p.node q with next := (p.node n).next }).set n
        { (p.wp_pool.set q { p.node q with next := (p.node n).next }).getD n WP.zero with
          next := p.free_, expr := [] }).getD j WP.zero =
        if n = j then { p.node n with next := p.free_, expr := [] }
        else if q = j then { p.node q with next := (p.node n).next } else p.node j := by
      intro j
      rw [getD_set_eq _ _ _ _ _ (by simpa using hnlt), hw0, getD_set_eq _ _ _ _ _ hqlt]; rfl
    have hl : h :: l1 ++ l2 = l0 ++ q :: l2 := by
      rw [hq2]; simp
    refine ⟨⟨(p.wp_pool.set q { p.node q with next := (p.node n).next }).set n
        { (p.wp_pool.set q { p.node q with next := (p.node n).next }).getD n WP.zero with
          next := p.free_, expr := [] }, p.head, some n,
      p.used_wp.set (((p.wp_pool.set q { p.node q with next := (p.node n).next }).getD n
        WP.zero).NO - 1).toNat 0⟩,
      ?_, ?_, ?_, ⟨?_, ⟨rfl, by simpa using hnlt, ?_⟩, hperm1⟩, ?_, ?_⟩
    · simp only [free_wp, h1, if_neg h4, hq1, hq4, hn, if_true]
      exact release_eq _ _ _ _ hw
    · simp
    · show p.used_wp.set (((p.wp_pool.set q { p.node q with next := (p.node n).next }).getD n WP.zero).NO - 1).toNat 0 = _
      rw [hw0, hn]
    · rw [hl]
      refine IsSeg_unlink p.wp_pool _ (by simp) l0 l2 q n _ ha0 hnd1.1 ?_ ?_
      · rw [hnode q, if_neg (fun h => hqn h.symm), if_pos rfl]; rfl
      · intro j hj1 hj2
        rw [hnode j, if_neg (fun h => hj2 h.symm), if_neg (fun h => hj1 h.symm)]; rfl
    · show IsSeg _ (List.getD _ n WP.zero).next free none
      rw [hnode n, if_pos rfl]
      refine IsSeg_congr p.wp_pool _ (by simp) free _ _ ?_ hf
      intro j hj
      have hqfree : q ∉ free := fun hmem => hnd1.2.2 (by simp) hmem
      rw [hnode j, if_neg (fun (h : n = j) => hnfree (h ▸ hj)),
        if_neg (fun (h : q = j) => hqfree (h ▸ hj))]; rfl
    · show List.getD _ n WP.zero = _
      rw [hnode n, if_pos rfl]
    · intro j hj
      show (List.getD _ j WP.zero).NO = _ ∧ (List.getD _ j WP.zero).expr = _ ∧
        (List.getD _ j WP.zero).val = _ ∧ (List.getD _ j WP.zero).old_val = _
      rw [hnode j, if_neg (fun h => hj h.symm)]
      by_cases hqj : q = j
      · rw [if_pos hqj, hqj]; exact ⟨rfl, rfl, rfl, rfl⟩
      · rw [if_neg hqj]; exact ⟨rfl, rfl, rfl, rfl⟩

theorem getD_set_frame (l : List WP) (wp j : Nat) (w : WP) :
    (l.set wp w).getD j WP.zero = l.getD j WP.zero ∨
      (wp = j ∧ (l.set wp w).getD j WP.zero = w) := by
  by_cases hlt : wp < l.length
  · rw [getD_set_eq _ _ _ _ _ hlt]
    by_cases h : wp = j
    · right; exact ⟨h, by rw [if_pos h]⟩
    · left; rw [if_neg h]
  · left
    rw [List.set_eq_of_length_le (by omega)]

theorem init_inv : Inv (init_wp_pool Pool.start) := by
  refine ⟨by decide, rfl, [], List.range NR_WP, ⟨?_, ?_, ?_⟩, ?_⟩
  · decide
  · decide
  · simp
  · intro i hi; simp at hi

/-- The scan writes only `val` and `old_val`. -/
theorem scan_loop_wp_frame (env : Env) :
    ∀ (fuel : Nat) (p : Pool) (b : TokBuf) (cur : Option Nat) (fc : Int) (p1 : Pool)
      (b1 : TokBuf) (fc1 : Int),
      scan_loop_wp env fuel p b cur fc = some (ScanResult.ret p1 b1 fc1) →
      p1.head = p.head ∧ p1.free_ = p.free_ ∧ p1.used_wp = p.used_wp ∧
        p1.wp_pool.length = p.wp_pool.length ∧
        ∀ j, (p1.node j).NO = (p.node j).NO ∧ (p1.node j).next = (p.node j).next ∧
          (p1.node j).expr = (p.node j).expr := by
  intro fuel
  induction fuel with
  | zero => intro p b cur fc p1 b1 fc1 h; simp [scan_loop_wp] at h
  | succ fuel ih =>
    intro p b cur fc p1 b1 fc1 h
    cases cur with
    | none =>
      simp only [scan_loop_wp, Option.some.injEq, ScanResult.ret.injEq] at h
      obtain ⟨rfl, _, _⟩ := h
      exact ⟨rfl, rfl, rfl, rfl, fun j => ⟨rfl, rfl, rfl⟩⟩
    | some wp =>
      simp only [scan_loop_wp] at h
      cases he : expr env b (p.node wp).expr with
      | none => rw [he] at h; simp at h
      | some r =>
        rw [he] at h
        cases r with
        | overflow => simp at h
        | ret new_val isSuccess b2 =>
          simp only at h
          by_cases hc : isSuccess = true ∧ new_val ≠ (p.node wp).val
          · rw [if_pos hc] at h
            obtain ⟨h1, h2, h3, h4, h5⟩ := ih _ _ _ _ _ _ _ h
            refine ⟨h1, h2, h3, by simpa using h4, ?_⟩
            intro j
            obtain ⟨a1, a2, a3⟩ := h5 j
            rw [a1, a2, a3]
            show (List.getD _ j WP.zero).NO = _ ∧ (List.getD _ j WP.zero).next = _ ∧
              (List.getD _ j WP.zero).expr = _
            rcases getD_set_frame p.wp_pool wp j
              { p.node wp with old_val := (p.node wp).val, val := new_val } with h6 | ⟨h6, h7⟩
            · rw [h6]; exact ⟨rfl, rfl, rfl⟩
            · rw [h7, ← h6]; exact ⟨rfl, rfl, rfl⟩
          · rw [if_neg hc] at h
            exact ih _ _ _ _ _ _ _ h

theorem Partition_frame (p p1 : Pool) (active free : List Nat) (h : Partition p active free)
    (hh : p1.head = p.head) (hf : p1.free_ = p.free_)
    (hl : p1.wp_pool.length = p.wp_pool.length)
    (hn : ∀ j, (p1.node j).next = (p.node j).next) : Partition p1 active free := by
  obtain ⟨h1, h2, h3⟩ := h
  refine ⟨?_, ?_, h3⟩
  · rw [hh]; exact IsSeg_congr _ _ hl _ _ _ (fun j _ => hn j) h1
  · rw [hf]; exact IsSeg_congr _ _ hl _ _ _ (fun j _ => hn j) h2

theorem store_frame (p : Pool) (wp : Nat) (e : List Char) (val old_val : Nat) (j : Nat) :
    ((p.store wp e val old_val).node j).NO = (p.node j).NO ∧
      ((p.store wp e val old_val).node j).next = (p.node j).next := by
  rcases getD_set_frame p.wp_pool wp j
    { p.node wp with expr := e, val := val, old_val := old_val } with h6 | ⟨h6, h7⟩
  · have h8 : (p.store wp e val old_val).node j = p.node j := h6
    rw [h8]; exact ⟨rfl, rfl⟩
  · have h8 : (p.store wp e val old_val).node j =
        { p.node wp with expr := e, val := val, old_val := old_val } := h7
    rw [h8, ← h6]; exact ⟨rfl, rfl⟩

/-- Every reachable state of the pool satisfies the invariant. -/
theorem reachable_inv (p : Pool) (h : Reachable p) : Inv p := by
  induction h with
  | init => exact init_inv
  | new_wp p p1 wp _ hnew ih =>
    obtain ⟨hlen, hu, active, free, hP, hno⟩ := ih
    cases free with
    | nil =>
      have : p.free_ = none := hP.2.1
      rw [(new_wp_none_iff p).2 this] at hnew
      simp at hnew
    | cons w f =>
      obtain ⟨p2, x, h1, h2, h3, h4, _, h6, h7, h8⟩ := new_wp_inv p active f w hP
      rw [h1] at hnew
      simp only [Option.some.injEq, Prod.mk.injEq] at hnew
      obtain ⟨rfl, rfl⟩ := hnew
      refine ⟨by rw [h2, hlen], by rw [h3, hu], w :: active, f, h4, ?_⟩
      intro i hi
      by_cases hiw : i = w
      · rw [hiw, h7]; exact h8 hu
      · rw [h6 i hiw]
        rcases List.mem_cons.1 hi with h9 | h9
        · exact absurd h9 hiw
        · exact hno i h9
  | free_wp p p1 free_no r _ hfree ih =>
    obtain ⟨hlen, hu, active, free, hP, hno⟩ := ih
    by_cases hex : ∃ i ∈ active, (p.node i).NO = free_no
    · obtain ⟨i, hi, hi1⟩ := hex
      cases active with
      | nil => simp at hi
      | cons n l2 =>
        have hn : (p.node n).NO = free_no := by
          rw [hno n (List.mem_cons_self _ _), ← hi1, hno i hi]
        have hid : 1 ≤ free_no ∧ free_no ≤ (NR_WP : Int) := by
          rw [← hn, hno n (List.mem_cons_self _ _)]; decide
        obtain ⟨p2, h1, h2, h3, h4, h5, h6⟩ := free_wp_found p [] l2 free n free_no hP
          (fun j hj => by simp at hj) hn hid
        rw [h1] at hfree
        simp only [Option.some.injEq, Prod.mk.injEq] at hfree
        obtain ⟨rfl, _⟩ := hfree
        refine ⟨by rw [h2, hlen], by rw [h3, hu, set_zeros], l2, n :: free, h4, ?_⟩
        intro j hj
        have hnd := List.nodup_cons.1 (List.nodup_append.1 (Partition_nodup _ _ _ hP)).1
        have hjn : j ≠ n := by rintro rfl; exact hnd.1 hj
        rw [(h6 j hjn).1]
        exact hno j (List.mem_cons_of_mem _ hj)
    · have hno2 : ∀ i ∈ active, (p.node i).NO ≠ free_no := fun i hi h => hex ⟨i, hi, h⟩
      rcases free_wp_absent p active free_no hlen hP.1 hno2 with ⟨_, h1⟩ | ⟨_, h1⟩
      · rw [h1] at hfree
        simp only [Option.some.injEq, Prod.mk.injEq] at hfree
        obtain ⟨rfl, _⟩ := hfree
        exact ⟨hlen, hu, active, free, hP, hno⟩
      · rw [h1] at hfree
        simp only [Option.some.injEq, Prod.mk.injEq] at hfree
        obtain ⟨rfl, _⟩ := hfree
        exact ⟨hlen, hu, active, free, hP, hno⟩
  | scan env p p1 b b1 fc _ hscan ih =>
    obtain ⟨hlen, hu, active, free, hP, hno⟩ := ih
    obtain ⟨h1, h2, h3, h4, h5⟩ := scan_loop_wp_frame env _ _ _ _ _ _ _ _ hscan
    refine ⟨by rw [h4, hlen], by rw [h3, hu], active, free,
      Partition_frame p p1 active free hP h1 h2 h4 (fun j => (h5 j).2.1), ?_⟩
    intro i hi
    rw [(h5 i).1]; exact hno i hi
  | store p wp e val old_val _ ih =>
    obtain ⟨hlen, hu, active, free, hP, hno⟩ := ih
    refine ⟨by simpa [Pool.store] using hlen, hu, active, free,
      Partition_frame p _ active free hP rfl rfl (by simp [Pool.store])
        (fun j => (store_frame p wp e val old_val j).2), ?_⟩
    intro i hi
    rw [(store_frame p wp e val old_val i).1]; exact hno i hi

/-! ## Failure in eval -/

theorem combine_false (type : Int) (v1 v2 : Nat) : (combine type v1 v2 false).2 = false := by
  unfold combine
  split_ifs <;> rfl

theorem combine_false_eq (type : Int) (v1 v2 : Nat) :
    combine type v1 v2 false = ((combine type v1 v2 false).1, false) :=
  Prod.ext rfl (combine_false type v1 v2)

/-- A failed direct sub-evaluation makes the evaluation of the range fail. -/
theorem eval_sub_fail (env : Env) (tokens : List Token) (p q : Int) (r : Int × Int)
    (hr : r ∈ subcalls tokens p q) (v : Nat)
    (hf : eval env tokens r.1 r.2 true = some (v, false)) :
    ∃ v1, eval env tokens p q true = some (v1, false) := by
  unfold subcalls at hr
  by_cases hpq : p ≥ q
  · rw [if_pos hpq] at hr; simp at hr
  · rw [if_neg hpq] at hr
    rw [eval_step env tokens p q (by omega)]
    by_cases hcp : check_parentheses tokens p q = true
    · rw [if_pos hcp] at hr ⊢
      simp only [List.mem_singleton] at hr
      subst hr
      exact ⟨v, hf⟩
    · rw [if_neg hcp] at hr ⊢
      simp only at hr
      by_cases hop : dominant_op tokens p q = -1
      · rw [if_pos hop] at hr ⊢
        by_cases hd : (tokAt tokens p).type = TK_DEREF
        · rw [if_pos hd] at hr ⊢
          simp only [List.mem_singleton] at hr
          subst hr
          exact ⟨_, by rw [hf]; rfl⟩
        · rw [if_neg hd] at hr; simp at hr
      · rw [if_neg hop] at hr ⊢
        by_cases hd : (tokAt tokens (dominant_op tokens p q)).type = TK_DEREF
        · rw [if_pos hd] at hr ⊢
          simp only [List.mem_singleton] at hr
          subst hr
          exact ⟨_, by rw [hf]; rfl⟩
        · rw [if_neg hd] at hr ⊢
          simp only [List.mem_cons, List.mem_singleton, List.not_mem_nil, or_false] at hr
          rcases hr with hr | hr
          · subst hr
            rw [hf]
            simp only [Option.bind, eval_false]
            exact ⟨_, by rw [combine_false_eq]⟩
          · subst hr
            obtain ⟨r1, hr1⟩ := eval_total env tokens p (dominant_op tokens p q - 1) true
            rw [hr1]
            cases hs : r1.2 with
            | true =>
              simp only [Option.bind, hs, hf]
              exact ⟨_, by rw [combine_false_eq]⟩
            | false =>
              simp only [Option.bind, hs, eval_false]
              exact ⟨_, by rw [combine_false_eq]⟩

theorem eval_recurses_fail (env : Env) (tokens : List Token) (r t : Int × Int)
    (h : Recurses tokens r t) (v : Nat) (hf : eval env tokens t.1 t.2 true = some (v, false)) :
    ∃ v1, eval env tokens r.1 r.2 true = some (v1, false) := by
  induction h with
  | refl r => exact ⟨v, hf⟩
  | step p q r t hr _ ih =>
    obtain ⟨v1, hv1⟩ := ih hf
    exact eval_sub_fail env tokens p q r hr v1 hv1

theorem creates_reachable : ∀ (n : Nat) (p p1 : Pool) (l : List Nat),
    Reachable p → creates n p = some (p1, l) → Reachable p1 := by
  intro n
  induction n with
  | zero =>
    intro p p1 l hp h
    simp only [creates, Option.some.injEq, Prod.mk.injEq] at h
    exact h.1 ▸ hp
  | succ n ih =>
    intro p p1 l hp h
    simp only [creates] at h
    cases hnew : new_wp p with
    | none => rw [hnew] at h; simp at h
    | some r =>
      obtain ⟨p2, wp⟩ := r
      rw [hnew] at h
      simp only [Option.map_eq_some', Prod.mk.injEq] at h
      obtain ⟨⟨p3, l3⟩, h1, h2, _⟩ := h
      subst h2
      exact ih p2 p3 l3 (Reachable.new_wp p p2 wp hp hnew) h1

theorem first_with (P : Nat → Prop) : ∀ (l : List Nat), (∃ i ∈ l, P i) →
    ∃ l1 n l2, l = l1 ++ n :: l2 ∧ (∀ j ∈ l1, ¬ P j) ∧ P n := by
  intro l
  induction l with
  | nil => rintro ⟨i, hi, _⟩; simp at hi
  | cons a l ih =>
    rintro ⟨i, hi, hP⟩
    by_cases ha : P a
    · exact ⟨[], a, l, rfl, by simp, ha⟩
    · rcases List.mem_cons.1 hi with h | h
      · subst h; exact absurd hP ha
      · obtain ⟨l1, n, l2, h1, h2, h3⟩ := ih ⟨i, h, hP⟩
        refine ⟨a :: l1, n, l2, by rw [h1]; rfl, ?_, h3⟩
        intro j hj
        rcases List.mem_cons.1 hj with h4 | h4
        · subst h4; exact ha
        · exact h2 j h4

set_option maxRecDepth 100000 in
theorem created_one_reachable : Reachable (created 1) :=
  creates_reachable 1 _ _ [0] Reachable.init (by decide)

set_option maxRecDepth 100000 in
theorem created_two_reachable : Reachable (created 2) :=
  creates_reachable 2 _ _ [0, 1] Reachable.init (by decide)

set_option maxRecDepth 100000 in
theorem created_three_reachable : Reachable (created 3) :=
  creates_reachable 3 _ _ [0, 1, 2] Reachable.init (by decide)

set_option maxRecDepth 100000 in
theorem fullPool_reachable : Reachable fullPool :=
  creates_reachable 32 _ _ (List.range 32) Reachable.init (by decide)

/-! ## The token array between two calls of expr -/

theorem TokSim_set (n : Nat) (t1 t2 : List Token) (k : Nat) (a1 a2 : Token)
    (h : TokSim k t1 t2) (hk1 : k < t1.length) (hk2 : k < t2.length)
    (hty : a1.type = a2.type) (hstr : carriesText a1.type = true → a1.str = a2.str)
    (hn : n ≤ k + 1) : TokSim n (t1.set k a1) (t2.set k a2) := by
  intro i hi
  rw [getD_set _ _ _ _ hk1, getD_set _ _ _ _ hk2]
  by_cases hki : k = i
  · rw [if_pos hki, if_pos hki]; exact ⟨hty, hstr⟩
  · rw [if_neg hki, if_neg hki]; exact h i (by omega)

theorem LexSim_ok (b b1 : TokBuf) (h1 : b.nr_token = b1.nr_token) (h2 : b.nr_token ≤ 32)
    (h3 : b.tokens.length = 32) (h4 : b1.tokens.length = 32)
    (h5 : TokSim b.nr_token b.tokens b1.tokens) :
    LexSim (some (LexResult.ok b)) (some (LexResult.ok b1)) := ⟨h1, h2, h3, h4, h5⟩

/-- The outcome of the loop of `make_token` does not depend on what the token
array held before, up to the texts of tokens without text. -/
theorem make_token_loop_sim :
    ∀ (fuel : Nat) (s : List Char) (position : Nat) (b b1 : TokBuf),
      b.nr_token = b1.nr_token → b.nr_token ≤ 32 → b.tokens.length = 32 →
      b1.tokens.length = 32 → TokSim b.nr_token b.tokens b1.tokens →
      LexSim (make_token_loop fuel s position b) (make_token_loop fuel s position b1) := by
  intro fuel
  induction fuel with
  | zero => intro s position b b1 _ _ _ _ _; simp [make_token_loop, LexSim]
  | succ fuel ih =>
    intro s position b b1 h1 h2 h3 h4 h5
    simp only [make_token_loop]
    by_cases hs : s = []
    · rw [if_pos hs, if_pos hs]; exact LexSim_ok b b1 h1 h2 h3 h4 h5
    · rw [if_neg hs, if_neg hs]
      cases hm : first_match rules s with
      | none => exact ⟨h3, h4⟩
      | some r =>
        obtain ⟨substr_len, type⟩ := r
        simp only
        by_cases ht : type = TK_NOTYPE
        · rw [if_pos ht, if_pos ht]; exact ih _ _ b b1 h1 h2 h3 h4 h5
        · rw [if_neg ht, if_neg ht]
          by_cases hov : b.nr_token ≥ 32
          · rw [if_pos hov, if_pos (show b1.nr_token ≥ 32 by omega)]; trivial
          · rw [if_neg hov, if_neg (show ¬ b1.nr_token ≥ 32 by omega)]
            by_cases htext : type = TK_DEC ∨ type = TK_HEX ∨ type = TK_REG
            · rw [if_pos htext, if_pos htext]
              refine ih _ _ _ _ (by simp [h1]) (by simp; omega) (by simpa using h3)
                (by simpa using h4) ?_
              rw [← h1]
              exact TokSim_set _ _ _ _ _ _ h5 (by omega) (by omega) rfl (fun _ => rfl) (le_refl _)
            · rw [if_neg htext, if_neg htext]
              refine ih _ _ _ _ (by simp [h1]) (by simp; omega) (by simpa using h3)
                (by simpa using h4) ?_
              rw [← h1]
              refine TokSim_set _ _ _ _ _ _ h5 (by omega) (by omega) rfl ?_ (le_refl _)
              intro hc
              simp only [carriesText, decide_eq_true_eq] at hc
              exact absurd hc htext

theorem make_token_sim (b b1 : TokBuf) (e : List Char) (h3 : b.tokens.length = 32)
    (h4 : b1.tokens.length = 32) : LexSim (make_token b e) (make_token b1 e) :=
  make_token_loop_sim _ _ _ _ _ rfl (by simp) h3 h4 (fun i hi => by simp at hi)

theorem deref_step_length (tokens : List Token) (i : Nat) :
    (deref_step tokens i).length = tokens.length := by
  unfold deref_step
  simp only []
  split_ifs <;> simp

theorem deref_pass_length (tokens : List Token) (n : Nat) :
    (deref_pass tokens n).length = tokens.length := by
  induction n with
  | zero => simp [deref_pass]
  | succ n ih => rw [deref_pass_succ, deref_step_length, ih]

theorem deref_step_sim (n : Nat) (t1 t2 : List Token) (i : Nat) (hi : i < n)
    (h : TokSim n t1 t2) (hl1 : n ≤ t1.length) (hl2 : n ≤ t2.length) :
    TokSim n (deref_step t1 i) (deref_step t2 i) := by
  unfold deref_step
  rw [(h i hi).1]
  by_cases hm : (t2.getD i Token.zero).type = TK_MULTIPLY
  · rw [if_pos hm, if_pos hm]
    by_cases h0 : i = 0
    · simp only [h0, if_true]
      intro j hj
      rw [getD_set _ _ _ _ (by omega), getD_set _ _ _ _ (by omega)]
      by_cases hj0 : 0 = j
      · rw [if_pos hj0, if_pos hj0]
        exact ⟨rfl, fun hc => absurd (show carriesText TK_DEREF = true from hc) (by decide)⟩
      · rw [if_neg hj0, if_neg hj0]; exact h j hj
    · simp only [if_neg h0]
      rw [(h (i - 1) (by omega)).1]
      by_cases hd : deref_context (t2.getD (i - 1) Token.zero).type = true
      · rw [if_pos hd, if_pos hd]
        intro j hj
        rw [getD_set _ _ _ _ (by omega), getD_set _ _ _ _ (by omega)]
        by_cases hj0 : i = j
        · rw [if_pos hj0, if_pos hj0]
          exact ⟨rfl, fun hc => absurd (show carriesText TK_DEREF = true from hc) (by decide)⟩
        · rw [if_neg hj0, if_neg hj0]; exact h j hj
      · rw [if_neg hd, if_neg hd]; exact h
  · rw [if_neg hm, if_neg hm]; exact h

theorem deref_pass_sim (n : Nat) (t1 t2 : List Token) (h : TokSim n t1 t2)
    (hl1 : n ≤ t1.length) (hl2 : n ≤ t2.length) :
    ∀ k, k ≤ n → TokSim n (deref_pass t1 k) (deref_pass t2 k) := by
  intro k
  induction k with
  | zero => intro _; simpa [deref_pass] using h
  | succ k ih =>
    intro hk
    rw [deref_pass_succ, deref_pass_succ]
    exact deref_step_sim n _ _ k (by omega) (ih (by omega))
      (by rw [deref_pass_length]; exact hl1) (by rw [deref_pass_length]; exact hl2)

theorem tokAt_sim (n : Nat) (t1 t2 : List Token) (h : TokSim n t1 t2) (i : Int)
    (h0 : 0 ≤ i) (hn : i < n) :
    (tokAt t1 i).type = (tokAt t2 i).type ∧
      (carriesText (tokAt t1 i).type = true → (tokAt t1 i).str = (tokAt t2 i).str) := by
  have : i = ((i.toNat : Nat) : Int) := (Int.toNat_of_nonneg h0).symm
  rw [this, tokAt_natCast, tokAt_natCast]
  exact h i.toNat (by omega)

theorem check_parentheses_loop_sim (n : Nat) (t1 t2 : List Token) (h : TokSim n t1 t2)
    (q : Int) : ∀ (cnt : Nat) (i cur : Int), 0 ≤ i → i + cnt ≤ n →
      check_parentheses_loop t1 q cnt i cur = check_parentheses_loop t2 q cnt i cur := by
  intro cnt
  induction cnt with
  | zero => intro i cur _ _; rfl
  | succ cnt ih =>
    intro i cur h0 hn
    simp only [check_parentheses_loop]
    rw [(tokAt_sim n t1 t2 h i h0 (by push_cast at hn; omega)).1]
    rw [ih (i + 1) _ (by omega) (by push_cast at hn ⊢; omega)]

theorem check_parentheses_sim (n : Nat) (t1 t2 : List Token) (h : TokSim n t1 t2)
    (p q : Int) (h0 : 0 ≤ p) (hpq : p < q) (hn : q < n) :
    check_parentheses t1 p q = check_parentheses t2 p q := by
  unfold check_parentheses
  rw [(tokAt_sim n t1 t2 h p h0 (by omega)).1, (tokAt_sim n t1 t2 h q (by omega) hn).1]
  rw [check_parentheses_loop_sim n t1 t2 h q _ _ _ (by omega)
    (by have : ((q - (p + 1)).toNat : Int) = q - (p + 1) := Int.toNat_of_nonneg (by omega)
        omega)]

theorem scan_step_sim (n : Nat) (t1 t2 : List Token) (h : TokSim n t1 t2) (st : Scan)
    (i : Int) (h0 : 0 ≤ i) (hn : i < n) : scan_step t1 st i = scan_step t2 st i := by
  unfold scan_step
  rw [(tokAt_sim n t1 t2 h i h0 hn).1]

theorem scan_loop_sim (n : Nat) (t1 t2 : List Token) (h : TokSim n t1 t2) :
    ∀ (cnt : Nat) (i : Int) (st : Scan), 0 ≤ i → i + cnt ≤ n →
      scan_loop t1 cnt i st = scan_loop t2 cnt i st := by
  intro cnt
  induction cnt with
  | zero => intro i st _ _; rfl
  | succ cnt ih =>
    intro i st h0 hn
    simp only [scan_loop]
    rw [scan_step_sim n t1 t2 h st i h0 (by push_cast at hn; omega)]
    exact ih (i + 1) _ (by omega) (by push_cast at hn ⊢; omega)

theorem dominant_op_sim (n : Nat) (t1 t2 : List Token) (h : TokSim n t1 t2)
    (p q : Int) (h0 : 0 ≤ p) (hpq : p ≤ q) (hn : q < n) :
    dominant_op t1 p q = dominant_op t2 p q := by
  unfold dominant_op
  rw [scan_loop_sim n t1 t2 h _ _ _ h0
    (by have : ((q + 1 - p).toNat : Int) = q + 1 - p := Int.toNat_of_nonneg (by omega)
        omega)]

theorem eval_atom_sim (env : Env) (a b : Token) (hty : a.type = b.type)
    (hstr : carriesText a.type = true → a.str = b.str) : eval_atom env a = eval_atom env b := by
  unfold eval_atom
  rw [← hty]
  by_cases hc : carriesText a.type = true
  · rw [← hstr hc]
  · simp only [carriesText, decide_eq_true_eq, not_or] at hc
    rw [if_neg hc.1, if_neg hc.2.1, if_neg hc.2.2, if_neg hc.1, if_neg hc.2.1, if_neg hc.2.2]

/-- The function `eval` reads only the types of the tokens of its range and the
texts of the literals and registers among them. -/
theorem evalFuel_sim (env : Env) (n : Nat) (t1 t2 : List Token) (h : TokSim n t1 t2) :
    ∀ (fuel : Nat) (p q : Int) (s : Bool), 0 ≤ p → q < n →
      evalFuel env t1 fuel p q s = evalFuel env t2 fuel p q s := by
  intro fuel
  induction fuel with
  | zero => intro p q s _ _; rfl
  | succ fuel ih =>
    intro p q s h0 hn
    rw [evalFuel_step, evalFuel_step]
    by_cases hs : s = false
    · rw [if_pos hs, if_pos hs]
    · rw [if_neg hs, if_neg hs]
      by_cases hgt : p > q
      · rw [if_pos hgt, if_pos hgt]
      · rw [if_neg hgt, if_neg hgt]
        by_cases heq : p = q
        · rw [if_pos heq, if_pos heq]
          obtain ⟨a1, a2⟩ := tokAt_sim n t1 t2 h p h0 (by omega)
          rw [eval_atom_sim env _ _ a1 a2]
        · rw [if_neg heq, if_neg heq]
          have hpq : p < q := by omega
          rw [check_parentheses_sim n t1 t2 h p q h0 hpq hn,
            dominant_op_sim n t1 t2 h p q h0 (by omega) hn,
            (tokAt_sim n t1 t2 h p h0 (by omega)).1,
            ih (p + 1) (q - 1) s (by omega) (by omega),
            ih (p + 1) q s (by omega) hn]
          by_cases hcp : check_parentheses t2 p q = true
          · rw [if_pos hcp, if_pos hcp]
          · rw [if_neg hcp, if_neg hcp]
            by_cases hop : dominant_op t2 p q = -1
            · rw [if_pos hop, if_pos hop]
            · rw [if_neg hop, if_neg hop]
              rcases dominant_op_range t2 p q (by omega) with hr | hr
              · exact absurd hr hop
              · rw [(tokAt_sim n t1 t2 h (dominant_op t2 p q) (by omega) (by omega)).1,
                  ih (dominant_op t2 p q + 1) q s (by omega) hn,
                  ih p (dominant_op t2 p q - 1) s h0 (by omega)]
                by_cases hd : (tokAt t2 (dominant_op t2 p q)).type = TK_DEREF
                · rw [if_pos hd, if_pos hd]
                · rw [if_neg hd, if_neg hd]
                  congr 1
                  funext r1
                  rw [ih (dominant_op t2 p q + 1) q r1.2 (by omega) hn]

/-- The outcome of `expr` on a text does not depend on what the token array
held before: both runs overflow the array, or both return the same word and
flag. -/
theorem expr_sim (env : Env) (b b1 : TokBuf) (e : List Char) (hb : b.tokens.length = 32)
    (hb1 : b1.tokens.length = 32) :
    (expr env b e = some ExprResult.overflow ∧ expr env b1 e = some ExprResult.overflow) ∨
      ∃ res success c c1, expr env b e = some (ExprResult.ret res success c) ∧
        expr env b1 e = some (ExprResult.ret res success c1) ∧
        c.tokens.length = 32 ∧ c1.tokens.length = 32 := by
  have hsim := make_token_sim b b1 e hb hb1
  obtain ⟨r, hr⟩ := make_token_total b e
  obtain ⟨r1, hr1⟩ := make_token_total b1 e
  rw [hr, hr1] at hsim
  unfold expr
  rw [hr, hr1]
  cases r with
  | overflow =>
    cases r1 with
    | overflow => left; exact ⟨rfl, rfl⟩
    | ok _ => exact absurd hsim (by simp [LexSim])
    | noMatch _ _ => exact absurd hsim (by simp [LexSim])
  | noMatch pos c =>
    cases r1 with
    | overflow => exact absurd hsim (by simp [LexSim])
    | ok _ => exact absurd hsim (by simp [LexSim])
    | noMatch pos1 c1 =>
      right
      exact ⟨0, false, c, c1, rfl, rfl, hsim.1, hsim.2⟩
  | ok c =>
    cases r1 with
    | overflow => exact absurd hsim (by simp [LexSim])
    | noMatch _ _ => exact absurd hsim (by simp [LexSim])
    | ok c1 =>
      right
      obtain ⟨h1, h2, h3, h4, h5⟩ := hsim
      have h6 := deref_pass_sim c.nr_token c.tokens c1.tokens h5 (by omega) (by omega)
        c.nr_token (le_refl _)
      have h7 : eval env (deref_pass c.tokens c.nr_token) 0 ((c.nr_token : Int) - 1) true
          = eval env (deref_pass c1.tokens c1.nr_token) 0 ((c1.nr_token : Int) - 1) true := by
        rw [← h1]
        unfold eval
        exact evalFuel_sim env c.nr_token _ _ h6 _ 0 _ true (le_refl _) (by omega)
      obtain ⟨v, hv⟩ := eval_total env (deref_pass c.tokens c.nr_token) 0
        ((c.nr_token : Int) - 1) true
      have hv1 := hv
      rw [h7] at hv1
      simp only [hv, hv1]
      exact ⟨v.1, v.2, _, _, rfl, rfl, by simp [deref_pass_length, h3],
        by simp [deref_pass_length, h4]⟩

theorem expr_value_sim (env : Env) (b b1 : TokBuf) (e : List Char)
    (hb : b.tokens.length = 32) (hb1 : b1.tokens.length = 32) :
    expr_value env b e = expr_value env b1 e := by
  unfold expr_value
  rcases expr_sim env b b1 e hb hb1 with ⟨h1, h2⟩ | ⟨res, success, c, c1, h1, h2, _, _⟩
  · rw [h1, h2]
  · rw [h1, h2]; rfl

/-! ## The scan of the watchpoints -/

theorem scan_node_eq (env : Env) (w : WP) (v : Nat) (s : Bool)
    (h : expr_value env TokBuf.init w.expr = some (v, s)) :
    scan_node env w = if s = true ∧ v ≠ w.val then { w with old_val := w.val, val := v } else w := by
  unfold scan_node
  rw [h]
  cases s with
  | true => simp
  | false => simp

theorem scan_node_expr (env : Env) (w : WP) :
    (scan_node env w).NO = w.NO ∧ (scan_node env w).next = w.next ∧
      (scan_node env w).expr = w.expr := by
  unfold scan_node
  split
  · split_ifs <;> exact ⟨rfl, rfl, rfl⟩
  · exact ⟨rfl, rfl, rfl⟩

/-- The loop of `scan_watch_points` over the rest `l` of the active list: every
node of `l` is updated as by one iteration, nothing else changes, and
`found_change` becomes 1 when a node changes. -/
theorem scan_loop_wp_spec (env : Env) :
    ∀ (l : List Nat) (fuel : Nat) (p : Pool) (b : TokBuf) (cur : Option Nat) (fc : Int),
      IsSeg p.wp_pool cur l none → l.Nodup → l.length < fuel → b.tokens.length = 32 →
      (∀ i ∈ l, expr_value env TokBuf.init (p.node i).expr ≠ none) →
      ∃ p1 b1 fc1, scan_loop_wp env fuel p b cur fc = some (ScanResult.ret p1 b1 fc1) ∧
        b1.tokens.length = 32 ∧ p1.head = p.head ∧ p1.free_ = p.free_ ∧
        p1.used_wp = p.used_wp ∧ p1.wp_pool.length = p.wp_pool.length ∧
        (∀ j, (j ∈ l → p1.node j = scan_node env (p.node j)) ∧ (j ∉ l → p1.node j = p.node j)) ∧
        (((∃ i ∈ l, scan_node env (p.node i) ≠ p.node i) ∧ fc1 = 1) ∨
          ((∀ i ∈ l, scan_node env (p.node i) = p.node i) ∧ fc1 = fc)) := by
  intro l
  induction l with
  | nil =>
    intro fuel p b cur fc hseg _ hfuel hb _
    cases fuel with
    | zero => simp at hfuel
    | succ fuel =>
      have hc : cur = none := hseg
      subst hc
      refine ⟨p, b, fc, by simp only [scan_loop_wp], hb, rfl, rfl, rfl, rfl, ?_, ?_⟩
      · intro j; exact ⟨fun h => absurd h (by simp), fun _ => rfl⟩
      · right; exact ⟨fun i hi => absurd hi (by simp), rfl⟩
  | cons i l ih =>
    intro fuel p b cur fc hseg hnd hfuel hb hov
    cases fuel with
    | zero => simp at hfuel
    | succ fuel =>
      obtain ⟨hc, hilt, hrest⟩ := hseg
      subst hc
      obtain ⟨hil, hndl⟩ := List.nodup_cons.1 hnd
      have hovi := hov i (List.mem_cons_self _ _)
      rcases expr_sim env b TokBuf.init (p.node i).expr hb rfl with
        ⟨_, h2⟩ | ⟨v, s, c, c1, h1, h2, hc32, _⟩
      · exact absurd (by simp [expr_value, h2, ExprResult.value]) hovi
      · have hval : expr_value env TokBuf.init (p.node i).expr = some (v, s) := by
          simp [expr_value, h2, ExprResult.value]
        have hsn := scan_node_eq env (p.node i) v s hval
        simp only [scan_loop_wp, h1]
        by_cases hcond : s = true ∧ v ≠ (p.node i).val
        · rw [if_pos hcond] at hsn ⊢
          have hnode : ∀ j, (p.wp_pool.set i
              { p.node i with old_val := (p.node i).val, val := v }).getD j WP.zero =
              if i = j then scan_node env (p.node i) else p.node j := by
            intro j
            rw [getD_set_eq _ _ _ _ _ hilt, hsn]; rfl
          obtain ⟨p1, b1, fc1, a1, a2, a3, a4, a5, a6, a7, a8⟩ := ih fuel
            ⟨p.wp_pool.set i { p.node i with old_val := (p.node i).val, val := v },
              p.head, p.free_, p.used_wp⟩ c (p.node i).next 1
            (IsSeg_congr p.wp_pool _ (by simp) l _ _ (by
              intro j _
              rw [hnode j]
              by_cases hij : i = j
              · rw [if_pos hij, ← hij]; exact (scan_node_expr env _).2.1
              · rw [if_neg hij]; rfl) hrest)
            hndl (by simpa using hfuel) hc32 (by
              intro j hj
              have hij : i ≠ j := fun h => hil (h ▸ hj)
              show expr_value env TokBuf.init (List.getD _ j WP.zero).expr ≠ none
              rw [hnode j, if_neg hij]
              exact hov j (List.mem_cons_of_mem _ hj))
          refine ⟨p1, b1, fc1, a1, a2, a3, a4, a5, by simpa using a6, ?_, ?_⟩
          · intro j
            by_cases hij : i = j
            · subst hij
              refine ⟨fun _ => ?_, fun h => absurd (List.mem_cons_self _ _) h⟩
              rw [(a7 i).2 hil]
              show List.getD _ i WP.zero = _
              rw [hnode i, if_pos rfl]
            · have hpj : Pool.node ⟨p.wp_pool.set i
                  { p.node i with old_val := (p.node i).val, val := v },
                  p.head, p.free_, p.used_wp⟩ j = p.node j := by
                show List.getD _ j WP.zero = _
                rw [hnode j, if_neg hij]
              constructor
              · intro hj
                rcases List.mem_cons.1 hj with h | h
                · exact absurd h.symm hij
                · rw [(a7 j).1 h, hpj]
              · intro hj
                rw [(a7 j).2 (fun h => hj (List.mem_cons_of_mem _ h)), hpj]
          · left
            have hfc : fc1 = 1 := by
              rcases a8 with ⟨_, h⟩ | ⟨_, h⟩
              · exact h
              · exact h
            refine ⟨⟨i, List.mem_cons_self _ _, ?_⟩, hfc⟩
            rw [hsn]
            intro heq
            have := congrArg WP.val heq
            exact hcond.2 this
        · rw [if_neg hcond] at hsn ⊢
          obtain ⟨p1, b1, fc1, a1, a2, a3, a4, a5, a6, a7, a8⟩ := ih fuel p c (p.node i).next fc
            hrest hndl (by simpa using hfuel) hc32
            (fun j hj => hov j (List.mem_cons_of_mem _ hj))
          refine ⟨p1, b1, fc1, a1, a2, a3, a4, a5, a6, ?_, ?_⟩
          · intro j
            constructor
            · intro hj
              rcases List.mem_cons.1 hj with h | h
              · subst h
                rw [(a7 j).2 hil, hsn]
              · exact (a7 j).1 h
            · intro hj
              exact (a7 j).2 (fun h => hj (List.mem_cons_of_mem _ h))
          · rcases a8 with ⟨⟨k, hk, hk1⟩, h⟩ | ⟨h0, h⟩
            · left; exact ⟨⟨k, List.mem_cons_of_mem _ hk, hk1⟩, h⟩
            · right
              refine ⟨?_, h⟩
              intro k hk
              rcases List.mem_cons.1 hk with h1 | h1
              · subst h1; exact hsn
              · exact h0 k h1

theorem scan_node_idem (env : Env) (w : WP) : scan_node env (scan_node env w) = scan_node env w := by
  cases h : expr_value env TokBuf.init w.expr with
  | none => 
    have h1 : scan_node env w = w := by unfold scan_node; rw [h]
    rw [h1, h1]
  | some r =>
    obtain ⟨v, s⟩ := r
    have hsn := scan_node_eq env w v s h
    by_cases hc : s = true ∧ v ≠ w.val
    · rw [if_pos hc] at hsn
      rw [hsn]
      have h2 : expr_value env TokBuf.init
          ({ w with old_val := w.val, val := v } : WP).expr = some (v, s) := h
      rw [scan_node_eq env _ v s h2, if_neg (by simp)]
    · rw [if_neg hc] at hsn
      rw [hsn, hsn]

theorem list_ext_getD (l1 l2 : List WP) (hlen : l1.length = l2.length)
    (h : ∀ j, l1.getD j WP.zero = l2.getD j WP.zero) : l1 = l2 := by
  apply List.ext_getElem hlen
  intro i h1 h2
  have := h i
  simpa [List.getD_eq_getElem?_getD, List.getElem?_eq_getElem h1, List.getElem?_eq_getElem h2]
    using this

theorem Pool.ext_node (p q : Pool) (h1 : p.head = q.head) (h2 : p.free_ = q.free_)
    (h3 : p.used_wp = q.used_wp) (h4 : p.wp_pool.length = q.wp_pool.length)
    (h5 : ∀ j, p.node j = q.node j) : p = q := by
  obtain ⟨a, b, c, d⟩ := p
  obtain ⟨a1, b1, c1, d1⟩ := q
  simp only at h1 h2 h3 h4
  have := list_ext_getD a a1 h4 h5
  subst h1 h2 h3 this
  rfl

/-- The scan of a pool none of whose active expressions overflows the token
array: it returns, every active node is updated as by one iteration of the
loop, the other nodes and the lists are unchanged, and the result is 1 exactly
when a node changed. -/
theorem scan_watch_points_spec (env : Env) (p : Pool) (b : TokBuf) (active : List Nat)
    (hlen : p.wp_pool.length = NR_WP) (ha : IsChain p.wp_pool p.head active)
    (hb : b.tokens.length = 32)
    (hov : ∀ i ∈ active, expr_value env TokBuf.init (p.node i).expr ≠ none) :
    ∃ p1 b1 fc, scan_watch_points env p b = some (ScanResult.ret p1 b1 fc) ∧
      b1.tokens.length = 32 ∧ p1.head = p.head ∧ p1.free_ = p.free_ ∧
      p1.used_wp = p.used_wp ∧ p1.wp_pool.length = p.wp_pool.length ∧
      (∀ j, (j ∈ active → p1.node j = scan_node env (p.node j)) ∧
        (j ∉ active → p1.node j = p.node j)) ∧
      (((∃ i ∈ active, scan_node env (p.node i) ≠ p.node i) ∧ fc = 1) ∨
        ((∀ i ∈ active, scan_node env (p.node i) = p.node i) ∧ fc = 0)) := by
  have hle := IsChain_length_le _ _ _ ha
  exact scan_loop_wp_spec env active (NR_WP + 1) p b p.head 0 ha (IsChain_nodup _ _ _ ha)
    (by omega) hb hov

/-- A second scan after a scan changes nothing and returns 0. -/
theorem scan_watch_points_twice (env : Env) (p : Pool) (b : TokBuf) (active : List Nat)
    (hlen : p.wp_pool.length = NR_WP) (ha : IsChain p.wp_pool p.head active)
    (hb : b.tokens.length = 32)
    (hov : ∀ i ∈ active, expr_value env TokBuf.init (p.node i).expr ≠ none) :
    ∃ p1 b1 fc b2, scan_watch_points env p b = some (ScanResult.ret p1 b1 fc) ∧
      scan_watch_points env p1 b1 = some (ScanResult.ret p1 b2 0) := by
  obtain ⟨p1, b1, fc, a1, a2, a3, a4, a5, a6, a7, _⟩ :=
    scan_watch_points_spec env p b active hlen ha hb hov
  have hnext : ∀ j, (p1.node j).next = (p.node j).next ∧ (p1.node j).expr = (p.node j).expr := by
    intro j
    by_cases hj : j ∈ active
    · rw [(a7 j).1 hj]
      exact ⟨(scan_node_expr env _).2.1, (scan_node_expr env _).2.2⟩
    · rw [(a7 j).2 hj]
      exact ⟨rfl, rfl⟩
  have ha1 : IsChain p1.wp_pool p1.head active := by
    rw [a3]
    exact IsSeg_congr p.wp_pool _ a6 active _ _ (fun j _ => (hnext j).1) ha
  obtain ⟨p2, b2, fc2, c1, _, c3, c4, c5, c6, c7, c8⟩ :=
    scan_watch_points_spec env p1 b1 active (by rw [a6, hlen]) ha1 a2
      (fun i hi => by rw [(hnext i).2]; exact hov i hi)
  have hfix : ∀ i ∈ active, scan_node env (p1.node i) = p1.node i := by
    intro i hi
    rw [(a7 i).1 hi, scan_node_idem]
  have hp : p2 = p1 := by
    refine Pool.ext_node p2 p1 c3 c4 c5 c6 ?_
    intro j
    by_cases hj : j ∈ active
    · rw [(c7 j).1 hj, hfix j hj]
    · exact (c7 j).2 hj
  have hfc : fc2 = 0 := by
    rcases c8 with ⟨⟨i, hi, hne⟩, _⟩ | ⟨_, h⟩
    · exact absurd (hfix i hi) hne
    · exact h
  subst hp hfc
  exact ⟨p2, b1, fc, b2, a1, c1⟩


/-! ## The properties -/

/-- Claim C1: a token sequence `L0 op1 L1 ... opn Ln` of at most 32 tokens,
with decimal or hex literals below `2^32`, operators among `+ - * / == !=` and
no division by a literal of value 0, evaluates successfully over its whole
range to its conventional reading: `*` and `/` bind tighter than `+` and `-`,
these tighter than `==` and `!=`, equal precedence groups left to right,
arithmetic is modulo `2^32`, division is the floor quotient. In particular
`1+2*3` gives 7 and `10-3-2` gives 5. -/
theorem eval_conventional_reading (env : Env) :
    (∀ (tokens : List Token) (l0 : Token) (rest : List (Token × Token)),
      l0 :: flatPairs rest <+: tokens → (l0 :: flatPairs rest).length ≤ 32 →
      isLiteral l0 = true → literalValue l0 < WORD →
      (∀ x ∈ rest, isBinaryOp x.1.type = true ∧ isLiteral x.2 = true ∧ literalValue x.2 < WORD) →
      (∀ x ∈ rest, x.1.type = TK_DIVIDE → literalValue x.2 ≠ 0) →
      eval env tokens 0 (((l0 :: flatPairs rest).length : Int) - 1) true
        = some (conventional (literalValue l0) (opValues rest), true)) ∧
    expr_value env TokBuf.init "1+2*3".toList = some (7, true) ∧
    expr_value env TokBuf.init "10-3-2".toList = some (5, true) := by
  refine ⟨?_, rfl, rfl⟩
  intro tokens l0 rest hpre _ hl0 hv0 hrest hdiv
  obtain ⟨junk, rfl⟩ := hpre
  have hp := PairsAt_of_append rest [l0] junk
  have h0 : tokAt ([l0] ++ flatPairs rest ++ junk) 0 = l0 := rfl
  have hlen := flatPairs_length rest
  have := eval_chain env ([l0] ++ flatPairs rest ++ junk) rest.length rest rfl 0 (le_refl _)
    (by rw [h0]; exact hl0) (by rw [h0]; exact hv0) (by simpa using hp)
    (fun x hx => ⟨(hrest x hx).1, (hrest x hx).2.1, (hrest x hx).2.2, hdiv x hx⟩)
  rw [h0] at this
  have e : (((l0 :: flatPairs rest).length : Nat) : Int) - 1 = 0 + 2 * (rest.length : Nat) := by
    simp only [List.length_cons, hlen]; push_cast; omega
  rw [e]
  exact this.1

/-- Claim C1 at the tokens of `1+2*3`. -/
theorem eval_conventional_reading_witness :
    eval sampleEnv sumProduct 0
        (((⟨TK_DEC, ['1']⟩ :: flatPairs [(⟨TK_PLUS, []⟩, ⟨TK_DEC, ['2']⟩),
          (⟨TK_MULTIPLY, []⟩, ⟨TK_DEC, ['3']⟩)]).length : Int) - 1) true
      = some (conventional (literalValue ⟨TK_DEC, ['1']⟩)
          (opValues [(⟨TK_PLUS, []⟩, ⟨TK_DEC, ['2']⟩), (⟨TK_MULTIPLY, []⟩, ⟨TK_DEC, ['3']⟩)]), true) :=
  (eval_conventional_reading sampleEnv).1 sumProduct ⟨TK_DEC, ['1']⟩
    [(⟨TK_PLUS, []⟩, ⟨TK_DEC, ['2']⟩), (⟨TK_MULTIPLY, []⟩, ⟨TK_DEC, ['3']⟩)]
    ⟨[], rfl⟩ (by decide) (by decide) (by decide) (by decide) (by decide)

/-- Claim C2, at the input `(1+2)*3`: the expression does not evaluate to 9.
The scan of `eval` compares token types with the characters `(` and `)`
instead of `TK_LPAR` and `TK_RPAR`, so its depth counter never moves and the
right parenthesis, of priority 0, is selected as the dominant operator; the
left operand `(1+2` then splits at its left parenthesis, whose left operand is
empty. The evaluation ends with `*success == false`. -/
theorem expr_paren_product_fails (env : Env) :
    expr_value env TokBuf.init "(1+2)*3".toList = some (0, false) := rfl

/-- Claim C3, at the range `(1+2)`: `check_parentheses` returns false on the
whole range although the outer parentheses match, `eval` of the whole range
fails, and `eval` of the interior `1+2` gives 3. -/
theorem strip_parentheses_inconsistent (env : Env) :
    check_parentheses parenSum 0 4 = false ∧
    eval env parenSum 0 4 true = some (0, false) ∧
    eval env parenSum 1 3 true = some (3, true) ∧
    expr_value env TokBuf.init "(1+2)".toList = some (0, false) ∧
    expr_value env TokBuf.init "1+2".toList = some (3, true) :=
  ⟨rfl, rfl, rfl, rfl, rfl⟩

/-- Claim C4: when the dominant operator of a range is a division, the
evaluation fails if the right operand evaluates to 0, and gives the floor
quotient if both operands evaluate and the right one is not 0. In particular
`a/0` fails for every decimal or hex literal `a`, of any length, and `10/2`
gives 5. -/
theorem eval_divide (env : Env) :
    (∀ (tokens : List Token) (p q : Int), p < q → check_parentheses tokens p q = false →
      (tokAt tokens (dominant_op tokens p q)).type = TK_DIVIDE →
      (eval env tokens (dominant_op tokens p q + 1) q true = some (0, true) →
        eval env tokens p q true = some (0, false)) ∧
      (∀ v1 v2, eval env tokens p (dominant_op tokens p q - 1) true = some (v1, true) →
        eval env tokens (dominant_op tokens p q + 1) q true = some (v2, true) → v2 ≠ 0 →
        eval env tokens p q true = some (v1 / v2, true))) ∧
    (∀ (b : TokBuf) (hex : Bool) (a : List Char), b.tokens.length = 32 →
      isLiteralText hex a = true → expr_value env b (a ++ ['/', '0']) = some (0, false)) ∧
    expr_value env TokBuf.init "10/2".toList = some (5, true) := by
  refine ⟨?_, ?_, rfl⟩
  · intro tokens p q hpq hcp hop
    exact ⟨eval_divide_zero env tokens p q hpq hcp hop,
      fun v1 v2 hl hr hv => eval_divide_quotient env tokens p q hpq hcp hop v1 v2 hl hr hv⟩
  · intro b hex a hb ha
    exact expr_literal_text_div_zero env b hex a hb ha

/-- Claim C4 at the tokens of `10/2`: the quotient is 5. -/
theorem eval_divide_witness : eval sampleEnv tenByTwo 0 2 true = some (10 / 2, true) :=
  (((eval_divide sampleEnv).1 tenByTwo 0 2 (by decide) rfl rfl).2) 10 2 rfl rfl (by decide)

/-- Claim C5: after the dereference pass over a successfully tokenized
sequence, token `i` is a dereference exactly when the lexer produced a
multiplication at `i` and either `i = 0` or token `i - 1`, as the pass left
it, is one of plus, minus, multiply, divide, left parenthesis, equal,
not-equal, logical-and, dereference. Every other token is unchanged, every
token keeps its text, and a multiplication after a decimal, hex or register
token or a right parenthesis stays a multiplication. -/
theorem deref_pass_classification (b b1 : TokBuf) (e : List Char) (i : Nat)
    (hb : b.tokens.length = 32) (hlex : make_token b e = some (LexResult.ok b1))
    (hi : i < b1.nr_token) :
    (((deref_pass b1.tokens b1.nr_token).getD i Token.zero).type = TK_DEREF ↔
      (b1.tokens.getD i Token.zero).type = TK_MULTIPLY ∧
        (i = 0 ∨ ((deref_pass b1.tokens b1.nr_token).getD (i - 1) Token.zero).type ∈
          [TK_PLUS, TK_MINUS, TK_MULTIPLY, TK_DIVIDE, TK_LPAR, TK_EQ, TK_NEQ, TK_AND, TK_DEREF])) ∧
    (((deref_pass b1.tokens b1.nr_token).getD i Token.zero).type ≠ TK_DEREF →
      (deref_pass b1.tokens b1.nr_token).getD i Token.zero = b1.tokens.getD i Token.zero) ∧
    ((deref_pass b1.tokens b1.nr_token).getD i Token.zero).str = (b1.tokens.getD i Token.zero).str ∧
    ((b1.tokens.getD i Token.zero).type = TK_MULTIPLY → 0 < i →
      (b1.tokens.getD (i - 1) Token.zero).type ∈ [TK_DEC, TK_HEX, TK_REG, TK_RPAR] →
      ((deref_pass b1.tokens b1.nr_token).getD i Token.zero).type = TK_MULTIPLY) := by
  obtain ⟨hnr, hlen, hno⟩ := make_token_ok b b1 e hb hlex
  obtain ⟨_, _, hinv⟩ := deref_pass_inv b1.tokens b1.nr_token (by omega) hno b1.nr_token (le_refl _)
  obtain ⟨h1, h2, h3⟩ := hinv i hi
  refine ⟨?_, h2, h3, ?_⟩
  · rw [h1, deref_context_iff]
  · intro hm hpos hprev
    have hpm : (b1.tokens.getD (i - 1) Token.zero).type ≠ TK_MULTIPLY := by
      intro h
      rw [h] at hprev
      revert hprev
      decide
    have hkeep := deref_pass_keeps b1.tokens b1.nr_token (by omega) hno (i - 1) (by omega) hpm
    have hnd : ((deref_pass b1.tokens b1.nr_token).getD i Token.zero).type ≠ TK_DEREF := by
      intro h
      rcases (h1.1 h).2 with h4 | h4
      · omega
      · rw [hkeep, deref_context_iff] at h4
        simp only [List.mem_cons, List.mem_singleton, List.not_mem_nil, or_false] at h4 hprev
        simp only [TK_DEC, TK_HEX, TK_REG, TK_RPAR, TK_PLUS, TK_MINUS, TK_MULTIPLY, TK_DIVIDE,
          TK_LPAR, TK_EQ, TK_NEQ, TK_AND, TK_DEREF] at h4 hprev
        omega
    rw [h2 hnd, hm]

/-- Claim C5 at the text `2**3`, token 2: the second `*` follows a
multiplication and becomes a dereference. -/
theorem deref_pass_classification_witness :
    (((deref_pass twoStarStarThree.tokens twoStarStarThree.nr_token).getD 2 Token.zero).type
        = TK_DEREF ↔
      (twoStarStarThree.tokens.getD 2 Token.zero).type = TK_MULTIPLY ∧
        (2 = 0 ∨ ((deref_pass twoStarStarThree.tokens twoStarStarThree.nr_token).getD (2 - 1)
            Token.zero).type ∈
          [TK_PLUS, TK_MINUS, TK_MULTIPLY, TK_DIVIDE, TK_LPAR, TK_EQ, TK_NEQ, TK_AND, TK_DEREF])) ∧
    (((deref_pass twoStarStarThree.tokens twoStarStarThree.nr_token).getD 2 Token.zero).type
        ≠ TK_DEREF →
      (deref_pass twoStarStarThree.tokens twoStarStarThree.nr_token).getD 2 Token.zero
        = twoStarStarThree.tokens.getD 2 Token.zero) ∧
    ((deref_pass twoStarStarThree.tokens twoStarStarThree.nr_token).getD 2 Token.zero).str
      = (twoStarStarThree.tokens.getD 2 Token.zero).str ∧
    ((twoStarStarThree.tokens.getD 2 Token.zero).type = TK_MULTIPLY → 0 < 2 →
      (twoStarStarThree.tokens.getD (2 - 1) Token.zero).type ∈ [TK_DEC, TK_HEX, TK_REG, TK_RPAR] →
      ((deref_pass twoStarStarThree.tokens twoStarStarThree.nr_token).getD 2 Token.zero).type
        = TK_MULTIPLY) :=
  deref_pass_classification TokBuf.init twoStarStarThree "2**3".toList 2 rfl rfl (by decide)

set_option maxRecDepth 100000 in
/-- Claim C6 fails for a literal of more than 31 characters: `make_token`
keeps the first 31 characters of the match. For the decimal literal of 31
zeros and a one, of value 1, `expr` on `*A` reads memory at address 0, the
value of the 31 zeros, and not at address 1. -/
theorem expr_dereference_long_literal :
    isLiteralText false longOne = true ∧ digitsValue 10 longOne = 1 ∧
    expr_value sampleEnv TokBuf.init ('*' :: longOne) = some (sampleEnv.paddr_read 0 4, true) ∧
    expr_value sampleEnv TokBuf.init ('*' :: longOne)
      ≠ some (sampleEnv.paddr_read (digitsValue 10 longOne) 4, true) := by
  decide

/-- Claim C6, amended: for a decimal or hex literal `A` of at most 31
characters and of value below `2^32`, `expr` on `*A` succeeds and returns the
word that `paddr_read` yields for the address `value(A)` and length 4. In
particular `*0x1000` returns `paddr_read(0x1000, 4)`. -/
theorem expr_dereference (env : Env) (hword : ∀ addr, env.paddr_read addr 4 < WORD) :
    (∀ (b : TokBuf) (A : Token), b.tokens.length = 32 → isLiteral A = true →
      literalValue A < WORD →
      expr_value env b ('*' :: A.str) = some (env.paddr_read (literalValue A) 4, true)) ∧
    expr_value env TokBuf.init "*0x1000".toList = some (env.paddr_read 4096 4, true) := by
  have key : ∀ (b : TokBuf) (A : Token), b.tokens.length = 32 → isLiteral A = true →
      literalValue A < WORD →
      expr_value env b ('*' :: A.str) = some (env.paddr_read (literalValue A) 4, true) := by
    intro b A hb hA hv
    rw [expr_deref_literal env b A hb hA hv, Nat.mod_eq_of_lt (hword _)]
  exact ⟨key, key TokBuf.init ⟨TK_HEX, "0x1000".toList⟩ rfl (by decide) (by decide)⟩

/-- Claim C6 at the text `*0x1000` with a memory holding `addr + 1`. -/
theorem expr_dereference_witness :
    expr_value sampleEnv TokBuf.init "*0x1000".toList = some (4097, true) :=
  (expr_dereference sampleEnv (fun _ => Nat.mod_lt _ (by decide))).2

/-- Claim C7: on a single-token range, a register token `$name` is resolved by
`isa_reg_str2val` on `name`, and the evaluation returns the word and the
success flag of the lookup; a decimal or hex literal below `2^32` yields its
value; a token of any other type makes the evaluation fail. -/
theorem eval_single_token (env : Env) (tokens : List Token) (p : Int) :
    (∀ name, tokAt tokens p = ⟨TK_REG, '$' :: name⟩ →
      eval env tokens p p true
        = some ((env.isa_reg_str2val name).1 % WORD, (env.isa_reg_str2val name).2)) ∧
    (isLiteral (tokAt tokens p) = true → literalValue (tokAt tokens p) < WORD →
      eval env tokens p p true = some (literalValue (tokAt tokens p), true)) ∧
    ((tokAt tokens p).type ≠ TK_DEC → (tokAt tokens p).type ≠ TK_HEX →
      (tokAt tokens p).type ≠ TK_REG → eval env tokens p p true = some (0, false)) := by
  refine ⟨?_, ?_, ?_⟩
  · intro name h
    rw [eval_single, h]
    rfl
  · intro h1 h2
    rw [eval_single, eval_atom_literal env _ h1 h2]
  · intro h1 h2 h3
    rw [eval_single]
    simp [eval_atom, h1, h2, h3]

/-- Claim C7 at the single token `$a0` with a register file without
registers: the lookup of `a0` fails and so does the evaluation. -/
theorem eval_single_token_witness :
    eval sampleEnv [⟨TK_REG, ['$', 'a', '0']⟩] 0 0 true
      = some ((sampleEnv.isa_reg_str2val ['a', '0']).1 % WORD,
          (sampleEnv.isa_reg_str2val ['a', '0']).2) :=
  (eval_single_token sampleEnv [⟨TK_REG, ['$', 'a', '0']⟩] 0).1 ['a', '0'] rfl

/-- Claim C8, at the input `1)2` with an unmatched right parenthesis: the
evaluation reports success and yields 0. The parenthesis is selected as the
dominant operator, both operands evaluate, and the `switch` of `eval` has no
case for it, so control reaches `return 0` with `*success` still true. The
inputs `1+2)` and `(1+2` of the claim do fail. -/
theorem unbalanced_paren_yields_value (env : Env) :
    expr_value env TokBuf.init "1)2".toList = some (0, true) ∧
    expr_value env TokBuf.init "1+2)".toList = some (0, false) ∧
    expr_value env TokBuf.init "(1+2".toList = some (0, false) :=
  ⟨rfl, rfl, rfl⟩

/-- Claim C9, at the input `1&&2`: the tokens are `DEC`, `AND`, `DEC`, the
logical-and token is the dominant operator, and the evaluation reports
success with the value 0, because the `switch` of `eval` has no case for
`TK_AND` and falls through to `return 0`. -/
theorem logical_and_yields_value (env : Env) :
    (∃ tokens, make_token TokBuf.init "1&&2".toList = some (LexResult.ok ⟨tokens, 3⟩) ∧
      (tokens.take 3).map Token.type = [TK_DEC, TK_AND, TK_DEC] ∧
      dominant_op tokens 0 2 = 1) ∧
    expr_value env TokBuf.init "1&&2".toList = some (0, true) :=
  ⟨⟨_, rfl, rfl, rfl⟩, rfl⟩

/-- Claim C10: for a sequence of at most 32 tokens of lexer kinds with
well-formed texts of at most 31 characters and no two text-carrying tokens
adjacent, `make_token` on the concatenation of the lexemes, with any number
of spaces between consecutive lexemes, succeeds and yields the kinds of the
sequence in order, with the texts of the decimal, hex and register tokens;
`make_token` writes no text for the other kinds, whose slots keep the text
they held. In particular `1+2*3` gives `DEC 1, PLUS, DEC 2, MULTIPLY, DEC 3`. -/
theorem tokenize_lexemes (gap : Nat → Nat) :
    (∀ (ts : List Token) (b : TokBuf), b.tokens.length = 32 →
      ts.length ≤ 32 → (∀ t ∈ ts, lexerToken t = true) → noAdjacentText ts = true →
      ∃ b1, make_token b (spaced gap 0 ts) = some (LexResult.ok b1) ∧
        b1.nr_token = ts.length ∧
        ∀ j, j < ts.length →
          (b1.tokens.getD j Token.zero).type = (ts.getD j Token.zero).type ∧
          (carriesText (ts.getD j Token.zero).type = true →
            (b1.tokens.getD j Token.zero).str = (ts.getD j Token.zero).str) ∧
          (carriesText (ts.getD j Token.zero).type = false →
            (b1.tokens.getD j Token.zero).str = (b.tokens.getD j Token.zero).str)) ∧
    (∃ tokens, make_token TokBuf.init "1+2*3".toList = some (LexResult.ok ⟨tokens, 5⟩) ∧
      tokens.take 5 = sumProduct) := by
  refine ⟨?_, ⟨_, rfl, rfl⟩⟩
  intro ts b hb hlen hts hadj
  obtain ⟨b1, h1, h2, _, h4⟩ := make_token_spaced gap ts b hb hlen hts hadj
  refine ⟨b1, h1, h2, fun j hj => ?_⟩
  rw [h4 j hj]
  refine ⟨rfl, fun hc => ?_, fun hc => ?_⟩
  · simp only [storedToken, hc, if_true]
  · simp only [storedToken, hc, Bool.false_eq_true, if_false]

/-- Claim C10 at the tokens of `1+2*3` with two spaces between the lexemes. -/
theorem tokenize_lexemes_witness :
    ∃ b1, make_token TokBuf.init (spaced (fun _ => 2) 0 sumProduct) = some (LexResult.ok b1) ∧
      b1.nr_token = sumProduct.length ∧
      ∀ j, j < sumProduct.length →
        (b1.tokens.getD j Token.zero).type = (sumProduct.getD j Token.zero).type ∧
        (carriesText (sumProduct.getD j Token.zero).type = true →
          (b1.tokens.getD j Token.zero).str = (sumProduct.getD j Token.zero).str) ∧
        (carriesText (sumProduct.getD j Token.zero).type = false →
          (b1.tokens.getD j Token.zero).str = (TokBuf.init.tokens.getD j Token.zero).str) :=
  (tokenize_lexemes (fun _ => 2)).1 sumProduct TokBuf.init rfl (by decide) (by decide) (by decide)

/-! ## The token array bound -/

set_option maxRecDepth 100000 in
/-- Claim C11, at the text `1+1+...+1` of 17 ones and 16 plus signs, 33
tokens: `make_token` has no test of `nr_token` against the size of `tokens`.
The first 32 characters give 32 tokens and `nr_token == 32`; the 33rd token is
stored at index 32 of the 32-entry array. -/
theorem make_token_overflow :
    seventeenOnes.length = 33 ∧
    (∃ tokens, make_token TokBuf.init (seventeenOnes.take 32) = some (LexResult.ok ⟨tokens, 32⟩)) ∧
    make_token TokBuf.init seventeenOnes = some LexResult.overflow :=
  ⟨by decide, ⟨_, rfl⟩, by decide⟩

/-! ## The watchpoint pool -/

/-- Claim C12, at two calls of `new_wp()` after `init_wp_pool()`: the first
call returns node 0 with id 1, the second returns node 1, also with id 1, so
both active watchpoints carry the id 1. The table `used_wp` is never written
by `new_wp` and holds only zeros. -/
theorem new_wp_repeats_id :
    ∃ p1 p2, new_wp (init_wp_pool Pool.start) = some (p1, 0) ∧ (p1.node 0).NO = 1 ∧
      new_wp p1 = some (p2, 1) ∧ IsChain p2.wp_pool p2.head [1, 0] ∧
      (p2.node 1).NO = 1 ∧ (p2.node 0).NO = 1 ∧ p2.used_wp = List.replicate NR_WP 0 :=
  ⟨_, _, rfl, rfl, rfl, by decide, rfl, rfl, rfl⟩

set_option maxRecDepth 100000 in
/-- Claim C13: from the state of `init_wp_pool`, 32 calls of `new_wp()`
succeed and return the 32 distinct nodes 0 to 31, and the 33rd call fails; in
every reachable state `new_wp()` fails exactly when the free list is empty,
which is exactly when the active list has 32 nodes. -/
theorem new_wp_exhaustion (p : Pool) (h : Reachable p) :
    creates 32 (init_wp_pool Pool.start) = some (fullPool, List.range 32) ∧
    (List.range 32).Nodup ∧ new_wp fullPool = none ∧
    (new_wp p = none ↔ p.free_ = none) ∧
    (new_wp p = none ↔ ∃ active, IsChain p.wp_pool p.head active ∧ active.length = NR_WP) := by
  refine ⟨by decide, List.nodup_range _, by decide, new_wp_none_iff p, ?_⟩
  obtain ⟨_, _, active, free, hP, _⟩ := reachable_inv p h
  have hlen : active.length + free.length = NR_WP := by
    have := hP.2.2.length_eq
    simpa using this
  rw [new_wp_none_iff]
  constructor
  · intro hf
    refine ⟨active, hP.1, ?_⟩
    have hfree : free = [] := by
      cases free with
      | nil => rfl
      | cons a l =>
        have := hP.2.1.1
        rw [hf] at this
        exact absurd this (by simp)
    rw [hfree] at hlen
    simpa using hlen
  · rintro ⟨active1, h1, h2⟩
    have := IsChain_unique _ _ _ _ h1 hP.1
    subst this
    have hfree : free = [] := List.eq_nil_of_length_eq_zero (by omega)
    have := hP.2.1
    rw [hfree] at this
    exact this

/-- Claim C13 at the pool after 32 creations. -/
theorem new_wp_exhaustion_witness :
    Reachable fullPool ∧
    (new_wp fullPool = none ↔
      ∃ active, IsChain fullPool.wp_pool fullPool.head active ∧ active.length = NR_WP) :=
  ⟨fullPool_reachable, (new_wp_exhaustion fullPool fullPool_reachable).2.2.2.2⟩

/-- Claim C14: in a reachable state, `free_wp(free_no)` for an id that no
node of the active list carries returns with the pool as it was: both lists
and every field of every node. It reports that there is no active watchpoint
when the active list is empty and that the id is not in the list otherwise. -/
theorem free_wp_not_found (p : Pool) (h : Reachable p) (active : List Nat)
    (ha : IsChain p.wp_pool p.head active) (free_no : Int)
    (hno : ∀ i ∈ active, (p.node i).NO ≠ free_no) :
    free_wp p free_no
      = some (p, if active = [] then FreeReport.noActive else FreeReport.notInList) := by
  obtain ⟨hlen, _⟩ := reachable_inv p h
  rcases free_wp_absent p active free_no hlen ha hno with ⟨h1, h2⟩ | ⟨h1, h2⟩
  · rw [h2, if_pos h1]
  · rw [h2, if_neg h1]

set_option maxRecDepth 100000 in
/-- Claim C14 at the pool with two watchpoints and the id 2. -/
theorem free_wp_not_found_witness :
    free_wp (created 2) 2
      = some (created 2, if [1, 0] = [] then FreeReport.noActive else FreeReport.notInList) :=
  free_wp_not_found (created 2) created_two_reachable [1, 0] (by decide) 2 (by decide)

/-- Claim C15: in a reachable state whose active list is `active`,
`free_wp(free_no)` for an id carried by an active node removes the first node
`n` of the list with that id: the active list becomes the list without `n`,
in the same order, the expression of `n` is empty, `n` is the head of the
free list, in front of the former free list, and all other nodes keep id,
expression and values. The next `new_wp()` returns `n` and makes it the head
of the active list. -/
theorem free_wp_removes_first (p : Pool) (h : Reachable p) (active : List Nat)
    (ha : IsChain p.wp_pool p.head active) (free_no : Int)
    (hex : ∃ i ∈ active, (p.node i).NO = free_no) :
    ∃ l1 n l2 p1 p2, active = l1 ++ n :: l2 ∧ (∀ j ∈ l1, (p.node j).NO ≠ free_no) ∧
      (p.node n).NO = free_no ∧
      free_wp p free_no = some (p1, FreeReport.freed) ∧
      IsChain p1.wp_pool p1.head (l1 ++ l2) ∧
      (p1.node n).expr = [] ∧ p1.free_ = some n ∧ (p1.node n).next = p.free_ ∧
      (∀ free, IsChain p.wp_pool p.free_ free → IsChain p1.wp_pool p1.free_ (n :: free)) ∧
      (∀ j, j ≠ n → (p1.node j).NO = (p.node j).NO ∧ (p1.node j).expr = (p.node j).expr ∧
        (p1.node j).val = (p.node j).val ∧ (p1.node j).old_val = (p.node j).old_val) ∧
      new_wp p1 = some (p2, n) ∧ p2.head = some n ∧
      IsChain p2.wp_pool p2.head (n :: (l1 ++ l2)) := by
  obtain ⟨_, _, active1, free, hP, hno⟩ := reachable_inv p h
  have := IsChain_unique _ _ _ _ hP.1 ha
  subst this
  obtain ⟨l1, n, l2, h1, h2, h3⟩ := first_with (fun i => (p.node i).NO = free_no) active1 hex
  subst h1
  have hid : 1 ≤ free_no ∧ free_no ≤ (NR_WP : Int) := by
    have h4 : (p.node n).NO = free_no := h3
    rw [← h4, hno n (by simp)]
    decide
  obtain ⟨p1, a1, _, _, a4, a5, a6⟩ := free_wp_found p l1 l2 free n free_no hP h2 h3 hid
  obtain ⟨p2, x, b1, _, _, b4, b5, _⟩ := new_wp_inv p1 (l1 ++ l2) free n a4
  refine ⟨l1, n, l2, p1, p2, rfl, h2, h3, a1, a4.1, by rw [a5], a4.2.1.1, by rw [a5], ?_, a6,
    b1, b5, b4.1⟩
  intro free1 hf1
  have := IsChain_unique _ _ _ _ hP.2.1 hf1
  subst this
  exact a4.2.1

set_option maxRecDepth 100000 in
/-- Claim C15 at the pool with three watchpoints, all of id 1, and the id 1:
the head of the active list, node 2, is removed. -/
theorem free_wp_removes_first_witness :
    ∃ l1 n l2 p1 p2, [2, 1, 0] = l1 ++ n :: l2 ∧
      (∀ j ∈ l1, ((created 3).node j).NO ≠ 1) ∧ ((created 3).node n).NO = 1 ∧
      free_wp (created 3) 1 = some (p1, FreeReport.freed) ∧
      IsChain p1.wp_pool p1.head (l1 ++ l2) ∧
      (p1.node n).expr = [] ∧ p1.free_ = some n ∧ (p1.node n).next = (created 3).free_ ∧
      (∀ free, IsChain (created 3).wp_pool (created 3).free_ free →
        IsChain p1.wp_pool p1.free_ (n :: free)) ∧
      (∀ j, j ≠ n → (p1.node j).NO = ((created 3).node j).NO ∧
        (p1.node j).expr = ((created 3).node j).expr ∧
        (p1.node j).val = ((created 3).node j).val ∧
        (p1.node j).old_val = ((created 3).node j).old_val) ∧
      new_wp p1 = some (p2, n) ∧ p2.head = some n ∧
      IsChain p2.wp_pool p2.head (n :: (l1 ++ l2)) :=
  free_wp_removes_first (created 3) created_three_reachable [2, 1, 0] (by decide) 1
    ⟨2, by decide, by decide⟩

/-- Claim C18: in every state reached from `init_wp_pool` by calls of
`new_wp`, `free_wp` (found or not), scans and stores of expression texts, the
active list and the free list are two lists that end with `NULL`, without
repetition, whose lengths sum to 32, and each of the 32 nodes is in exactly
one of them. -/
theorem pool_partition (p : Pool) (h : Reachable p) :
    ∃ active free, IsChain p.wp_pool p.head active ∧ IsChain p.wp_pool p.free_ free ∧
      active.Nodup ∧ free.Nodup ∧ active.length + free.length = NR_WP ∧
      ∀ i, i < NR_WP → (i ∈ active ∧ i ∉ free) ∨ (i ∈ free ∧ i ∉ active) := by
  obtain ⟨_, _, active, free, hP, _⟩ := reachable_inv p h
  have hnd := List.nodup_append.1 (Partition_nodup p active free hP)
  refine ⟨active, free, hP.1, hP.2.1, hnd.1, hnd.2.1, ?_, ?_⟩
  · have := hP.2.2.length_eq
    simpa using this
  · intro i hi
    have hmem : i ∈ active ++ free := hP.2.2.mem_iff.2 (List.mem_range.2 hi)
    rcases List.mem_append.1 hmem with h1 | h1
    · exact Or.inl ⟨h1, fun h2 => hnd.2.2 h1 h2⟩
    · exact Or.inr ⟨h1, fun h2 => hnd.2.2 h2 h1⟩

/-- Claim C18 at the pool with three watchpoints. -/
theorem pool_partition_witness :
    ∃ active free, IsChain (created 3).wp_pool (created 3).head active ∧
      IsChain (created 3).wp_pool (created 3).free_ free ∧
      active.Nodup ∧ free.Nodup ∧ active.length + free.length = NR_WP ∧
      ∀ i, i < NR_WP → (i ∈ active ∧ i ∉ free) ∨ (i ∈ free ∧ i ∉ active) :=
  pool_partition (created 3) created_three_reachable

/-! ## The scan of the watchpoints -/

set_option maxRecDepth 100000 in
/-- Claim C16, at one watchpoint on the expression `1+1+...+1` of 33 tokens:
the scan calls `expr` on it and `make_token` stores the 33rd token past the
end of `tokens`, so the scan has no defined result. -/
theorem scan_watch_points_overflow (env : Env) :
    Reachable watchLong ∧ IsChain watchLong.wp_pool watchLong.head [0] ∧
    (watchLong.node 0).expr = seventeenOnes ∧
    scan_watch_points env watchLong TokBuf.init = some ScanResult.overflow :=
  ⟨Reachable.store _ 0 _ 0 0 created_one_reachable, by decide, rfl, rfl⟩

set_option maxRecDepth 100000 in
/-- Claim C17, at two watchpoints, the head on `1` and the second on the
expression `1+1+...+1` of 33 tokens: the first scan updates the head and then
runs `make_token` past the end of `tokens` on the second watchpoint, so there
is no state in which a second scan could start. -/
theorem scan_twice_overflow (env : Env) :
    Reachable watchTwo ∧ IsChain watchTwo.wp_pool watchTwo.head [1, 0] ∧
    (watchTwo.node 1).expr = ['1'] ∧ (watchTwo.node 0).expr = seventeenOnes ∧
    scan_watch_points env watchTwo TokBuf.init = some ScanResult.overflow :=
  ⟨Reachable.store _ 0 _ 0 0 (Reachable.store _ 1 _ 0 0 created_two_reachable), by decide,
    rfl, rfl, rfl⟩

/-! ## Chained dereference and failure -/

/-- Claim C19, at the input `**0x1000`: both stars are dereference tokens,
but the scan of `eval` selects the second one as the operator of the range,
and `eval` returns the word read at the value of the literal, one read, not
the word read at that word. With a memory that holds `addr + 1` at `addr` the
result is 4097, where two reads give 4098. -/
theorem expr_double_dereference (env : Env) :
    (∃ tokens, make_token TokBuf.init "**0x1000".toList = some (LexResult.ok ⟨tokens, 3⟩) ∧
      ((deref_pass tokens 3).take 3).map Token.type = [TK_DEREF, TK_DEREF, TK_HEX] ∧
      dominant_op (deref_pass tokens 3) 0 2 = 1) ∧
    expr_value env TokBuf.init "**0x1000".toList = some (env.paddr_read 4096 4 % WORD, true) ∧
    expr_value sampleEnv TokBuf.init "**0x1000".toList = some (4097, true) ∧
    sampleEnv.paddr_read (sampleEnv.paddr_read 4096 4) 4 = 4098 :=
  ⟨⟨_, rfl, rfl, rfl⟩, rfl, by decide, by decide⟩

/-- Claim C20: if the evaluation fails on a range that `eval` reaches from
`p..q` through its recursive calls (the interior of a parenthesised range, an
operand of the selected binary operator, the operand of a dereference, at any
depth), then the evaluation of `p..q` fails; a call entered with
`*success == false` returns with it false; and when `p..q` is the whole token
sequence of a text, `expr` on that text reports failure. -/
theorem eval_failure_sticky (env : Env) (tokens : List Token) (p q : Int) (t : Int × Int)
    (h : Recurses tokens (p, q) t) (v : Nat)
    (hf : eval env tokens t.1 t.2 true = some (v, false)) :
    (∃ v1, eval env tokens p q true = some (v1, false)) ∧
    (∀ a b, eval env tokens a b false = some (0, false)) ∧
    (∀ (b b1 : TokBuf) (e : List Char), make_token b e = some (LexResult.ok b1) →
      tokens = deref_pass b1.tokens b1.nr_token → p = 0 → q = (b1.nr_token : Int) - 1 →
      ∃ v1, expr_value env b e = some (v1, false)) := by
  have key := eval_recurses_fail env tokens (p, q) t h v hf
  refine ⟨key, fun a b => eval_false env tokens a b, ?_⟩
  intro b b1 e hm ht hp hq
  rw [expr_value_eq_eval env b b1 e hm, ← ht, ← hq, ← hp]
  exact key

/-- Claim C20 at the tokens of `1/0+2`: the left operand `1/0` of the sum
fails and so does the sum. -/
theorem eval_failure_sticky_witness :
    (∃ v1, eval sampleEnv quotientPlusTwo 0 4 true = some (v1, false)) ∧
    (∀ a b, eval sampleEnv quotientPlusTwo a b false = some (0, false)) ∧
    (∀ (b b1 : TokBuf) (e : List Char), make_token b e = some (LexResult.ok b1) →
      quotientPlusTwo = deref_pass b1.tokens b1.nr_token → (0 : Int) = 0 →
      (4 : Int) = (b1.nr_token : Int) - 1 →
      ∃ v1, expr_value sampleEnv b e = some (v1, false)) :=
  eval_failure_sticky sampleEnv quotientPlusTwo 0 4 (0, 2)
    (Recurses.step 0 4 (0, 2) (0, 2) (by decide) (Recurses.refl _)) 0 (by decide)

end Sdb
